import Mathlib

/-!
cmdline: option registry and resolution engine.

A shallow embedding of `include/cmdline/cmdline.h` (class `cmdline::parser`, its option
classes and its readers), followed by theorems about it.

Conventions of the embedding.

* A `std::string` and a C string are lists of characters (`Str`); a C string holds no NUL.
* The value types `T` of `option_with_value<T>` are gathered in one type `V` of values, and the
  run-time type of an option (what `dynamic_cast` inspects) is a tag of type `τ`.
* A reader (a functor that returns a `T` or throws) is a function `Str → Option V`.
* `std::map<std::string, option_base *> options` is the list of the option objects in ascending
  key order; the key of an entry is the `_name` of the object, and keys are unique.
* `std::vector<option_base *> ordered` is the list of the keys in declaration order.
* `detail::readable_typename<T>()` is a function of the tag of `T`, passed where it is read.
* A member function that mutates the parser returns the new parser; one that throws returns
  `Except`.
-/

namespace cmdline

/-- A `std::string`, and also a NUL-terminated C string (then without NUL). -/
abbrev Str := List Char

/-! ## detail::lexical_cast and the readers -/

/-- Type tags of the value types used by the example programs. -/
inductive Ty where
  | int
  | string
  deriving DecidableEq, Repr

/-- Values of the types used by the example programs (`int`, `std::string`). -/
inductive Val where
  | int (n : Int)
  | str (s : Str)
  deriving DecidableEq, Repr

/-- White space skipped by formatted stream extraction (`std::isspace`, "C" locale). -/
def isspace (c : Char) : Bool :=
  c = ' ' || c.toNat = 9 || c.toNat = 10 || c.toNat = 11 || c.toNat = 12 || c.toNat = 13

/-- A decimal digit. -/
def isdigit (c : Char) : Bool := 48 ≤ c.toNat && c.toNat ≤ 57

/-- The number written by a string of decimal digits. -/
def digits_value (ds : Str) : Nat := ds.foldl (fun a c => 10 * a + (c.toNat - 48)) 0

/-- The cast `detail::lexical_cast<int>(std::string)`: `std::istringstream ss(arg)`, then
`ss >> ret && ss.eof()`. The extraction skips leading white space, reads an optional sign and
decimal digits, fails on a value outside the 32-bit `int`, and the cast fails when a character
is left unread. `none` is `throw std::bad_cast()`. -/
def lexical_cast_int (arg : Str) : Option Int :=
  let s := arg.dropWhile isspace
  let neg := s.head? = some '-'
  let ds := if s.head? = some '-' || s.head? = some '+' then s.drop 1 else s
  if ds.isEmpty || !ds.all isdigit then none
  else
    let v : Int := if neg then -(digits_value ds : Int) else (digits_value ds : Int)
    if -2147483648 ≤ v ∧ v ≤ 2147483647 then some v else none

/-- The cast `detail::lexical_cast<std::string>(std::string)`: source and target are the same
type, so the argument is returned. -/
def lexical_cast_string (arg : Str) : Option Str := some arg

/-- The reader `default_reader<int>`. -/
def default_reader_int (s : Str) : Option Val := (lexical_cast_int s).map Val.int

/-- The reader `default_reader<std::string>`. -/
def default_reader_string (s : Str) : Option Val := (lexical_cast_string s).map Val.str

/-- The reader `range_reader<T>::operator()`, over the default conversion `conv` of `T` and the
order `le` of `T`: convert, then throw unless `ret >= low && ret <= high`. -/
def range_reader {T : Type} (conv : Str → Option T) (le : T → T → Bool) (low high : T)
    (s : Str) : Option T :=
  match conv s with
  | none => none
  | some ret => if !(le low ret && le ret high) then none else some ret

/-- The reader `oneof_reader<T>::operator()`, over the default conversion `conv` of `T`:
convert, then throw unless `std::find` meets the value in `alt`. -/
def oneof_reader {T : Type} [DecidableEq T] (conv : Str → Option T) (alt : List T)
    (s : Str) : Option T :=
  match conv s with
  | none => none
  | some ret => if alt.contains ret then some ret else none

/-- The reader `cmdline::range(low, high)` for `int`. -/
def range_int (low high : Int) (s : Str) : Option Val :=
  (range_reader lexical_cast_int (fun a b => decide (a ≤ b)) low high s).map Val.int

/-- The reader `cmdline::oneof<std::string>(a1, ..., an)`. -/
def oneof_string (alt : List Str) (s : Str) : Option Val :=
  (oneof_reader lexical_cast_string alt s).map Val.str

/-- The method `oneof_reader<T>::add`: `alt.push_back(v)`. -/
def oneof_add {T : Type} (alt : List T) (v : T) : List T := alt ++ [v]

/-- The candidate list of the reader that `cmdline::oneof(a1, ..., an)` returns: a reader with
an empty list, then `add` for every argument in order. The source has one overload for each
n from 1 to 10; the list `as` holds the arguments of the call. -/
def oneof {T : Type} (as : List T) : List T := as.foldl oneof_add []

/-! ## The option classes -/

/-- The members that `option_with_value<T>` (with its reader, from
`option_with_value_with_reader<T, F>`) adds to `option_base`. -/
structure option_with_value (τ V : Type) where
  /-- The tag of `T`. -/
  ty : τ
  _need : Bool
  _def : V
  _actual : V
  /-- The member `read`, which calls the reader. -/
  read : Str → Option V

/-- An option object: `option_without_value` when `value` is `none`, else an
`option_with_value<T>`. -/
structure option_base (τ V : Type) where
  _name : Str
  _short_name : Char
  _desc : Str
  _has : Bool
  value : Option (option_with_value τ V)

variable {τ V : Type}

/-- The method `has_value()`. -/
def option_base.has_value (o : option_base τ V) : Bool := o.value.isSome

/-- The method `option_base::set(bool)`: stores the flag, returns true; no class overrides
it. The result is the returned boolean and the object afterwards. -/
def option_base.set (o : option_base τ V) (value : Bool) : Bool × option_base τ V :=
  (true, { o with _has := value })

/-- The method `set(const std::string &)`: `option_base` returns false; `option_with_value`
reads the text, stores the value and the flag, and returns false when the reader throws. -/
def option_base.set_string (o : option_base τ V) (value : Str) : Bool × option_base τ V :=
  match o.value with
  | none => (false, o)
  | some w =>
    match w.read value with
    | some v => (true, { o with _has := true, value := some { w with _actual := v } })
    | none => (false, o)

/-- The method `has_set()`. -/
def option_base.has_set (o : option_base τ V) : Bool := o._has

/-- The method `valid()`. -/
def option_base.valid (o : option_base τ V) : Bool :=
  match o.value with
  | none => true
  | some w => !(w._need && !o._has)

/-- The method `must()`. -/
def option_base.must (o : option_base τ V) : Bool :=
  match o.value with
  | none => false
  | some w => w._need

/-! ## The registry -/

/-- The class `parser`. -/
structure parser (τ V : Type) where
  options : List (option_base τ V)
  ordered : List Str
  ftr : Str
  prog_name : Str
  others : List Str
  errors : List Str

/-- The default-constructed parser. -/
def parser.init : parser τ V :=
  { options := [], ordered := [], ftr := [], prog_name := [], others := [], errors := [] }

/-- The test `options.count(name)`. -/
def count (os : List (option_base τ V)) (name : Str) : Bool :=
  os.any (fun o => decide (o._name = name))

/-- The entry `options.find(name)->second`, also written `options[name]` where the key is
known to be present. -/
def find (os : List (option_base τ V)) (name : Str) : Option (option_base τ V) :=
  os.find? (fun o => decide (o._name = name))

/-- The order of `std::string` keys: lexicographic on the character codes. -/
def str_lt : Str → Str → Bool
  | [], [] => false
  | [], _ :: _ => true
  | _ :: _, [] => false
  | a :: as, b :: bs =>
    if a.toNat < b.toNat then true else if b.toNat < a.toNat then false else str_lt as bs

/-- Insertion of a new key into the map `options`. -/
def map_insert (o : option_base τ V) : List (option_base τ V) → List (option_base τ V)
  | [] => [o]
  | x :: xs => if str_lt o._name x._name then o :: x :: xs else x :: map_insert o xs

/-- The method `parser::add(name, short_name, desc)`, which declares a flag. -/
def parser.add (p : parser τ V) (name : Str) (short_name : Char) (desc : Str) :
    Except Str (parser τ V) :=
  if count p.options name then .error ("multiple definition: ".toList ++ name)
  else .ok { p with
    options := map_insert
      { _name := name, _short_name := short_name, _desc := desc, _has := false, value := none }
      p.options
    ordered := p.ordered ++ [name] }

/-- The text that `option_with_value::full_description` builds; `tn` is
`detail::readable_typename<T>()` and `dv` is `detail::default_value<T>(_def)`. -/
def full_description (desc tn dv : Str) (need : Bool) : Str :=
  desc ++ " (".toList ++ tn ++ (if need then [] else " [=".toList ++ dv ++ "]".toList)
    ++ ")".toList

/-- The method `parser::add<T, F>(name, short_name, desc, need, def, reader)`, which declares a
valued option; `ty` is the tag of `T`, `tn` and `dv` are the two texts that the description
shows (see `full_description`). -/
def parser.add_value (p : parser τ V) (ty : τ) (tn dv : Str) (name : Str) (short_name : Char)
    (desc : Str) (need : Bool) (d : V) (reader : Str → Option V) : Except Str (parser τ V) :=
  if count p.options name then .error ("multiple definition: ".toList ++ name)
  else .ok { p with
    options := map_insert
      { _name := name, _short_name := short_name, _desc := full_description desc tn dv need,
        _has := false,
        value := some { ty := ty, _need := need, _def := d, _actual := d, read := reader } }
      p.options
    ordered := p.ordered ++ [name] }

/-- The method `parser::exist(name)`. -/
def parser.exist (p : parser τ V) (name : Str) : Except Str Bool :=
  match find p.options name with
  | none => .error ("there is no flag: --".toList ++ name)
  | some o => .ok o.has_set

/-- The method `parser::get<T>(name)`; `ty` is the tag of `T`. The `dynamic_cast` to
`option_with_value<T>` fails on a flag and on a valued option of another type. -/
def parser.get [DecidableEq τ] (p : parser τ V) (ty : τ) (name : Str) : Except Str V :=
  match find p.options name with
  | none => .error ("there is no flag: --".toList ++ name)
  | some o =>
    match o.value with
    | none => .error ("type mismatch flag '".toList ++ name ++ "'".toList)
    | some w =>
      if w.ty = ty then .ok w._actual
      else .error ("type mismatch flag '".toList ++ name ++ "'".toList)

/-- The method `parser::rest()`. -/
def parser.rest (p : parser τ V) : List Str := p.others

/-- The method `parser::error()`. -/
def parser.error (p : parser τ V) : Str :=
  match p.errors with
  | [] => []
  | e :: _ => e

/-- The method `parser::error_full()`: every error followed by `std::endl`. -/
def parser.error_full (p : parser τ V) : Str :=
  p.errors.foldl (fun acc e => acc ++ e ++ ['\n']) []

/-! ## parse -/

/-- The call `errors.push_back(msg)`. -/
def parser.push_error (p : parser τ V) (msg : Str) : parser τ V :=
  { p with errors := p.errors ++ [msg] }

/-- The object stored under the key `name` is replaced by its image under `f`. -/
def update (os : List (option_base τ V)) (name : Str) (f : option_base τ V → option_base τ V) :
    List (option_base τ V) :=
  os.map (fun o => if o._name = name then f o else o)

/-- The method `parser::set_option(name)`. -/
def parser.set_option_flag (p : parser τ V) (name : Str) : parser τ V :=
  match find p.options name with
  | none => p.push_error ("undefined option: --".toList ++ name)
  | some o =>
    let p1 := { p with options := update p.options name (fun x => (x.set true).2) }
    if !(o.set true).1 then p1.push_error ("option needs value: --".toList ++ name) else p1

/-- The method `parser::set_option(name, value)`. -/
def parser.set_option_value (p : parser τ V) (name value : Str) : parser τ V :=
  match find p.options name with
  | none => p.push_error ("undefined option: --".toList ++ name)
  | some o =>
    let p1 := { p with options := update p.options name (fun x => (x.set_string value).2) }
    if !(o.set_string value).1 then
      p1.push_error ("option value is invalid: --".toList ++ name ++ "=".toList ++ value)
    else p1

/-- The test `lookup.count(c)` on the local `std::map<char, std::string> lookup`. -/
def lookup_count (lk : List (Char × Str)) (c : Char) : Bool :=
  lk.any (fun e => decide (e.1 = c))

/-- The entry `lookup[c]`. -/
def lookup_at (lk : List (Char × Str)) (c : Char) : Str :=
  match lk.find? (fun e => decide (e.1 = c)) with
  | some e => e.2
  | none => []

/-- The first loop of `parse(argc, argv)`, from the entry `os` of `options` on, with the lookup
built so far: every option visited is reset with `set(false)`; an option with an empty key is
skipped; a short name met twice stops the loop (`.error c`, the `return false`), and the options
after that one are not visited. The result is the options afterwards and the lookup. -/
def build_lookup : List (option_base τ V) → List (Char × Str) →
    List (option_base τ V) × Except Char (List (Char × Str))
  | [], lk => ([], .ok lk)
  | o :: os, lk =>
    let o1 := (o.set false).2
    if o._name.length = 0 then
      let r := build_lookup os lk
      (o1 :: r.1, r.2)
    else if o._short_name ≠ Char.ofNat 0 then
      if lookup_count lk o._short_name then (o1 :: os, .error o._short_name)
      else
        let r := build_lookup os ((o._short_name, o._name) :: lk)
        (o1 :: r.1, r.2)
    else
      let r := build_lookup os lk
      (o1 :: r.1, r.2)

/-- The short names that the first loop of `parse(argc, argv)` looks at: those of the options
with a non-empty key and a short name, in key order. -/
def short_names (os : List (option_base τ V)) : List Char :=
  (os.filter (fun o => decide (¬ o._name.length = 0)
    && decide (¬ o._short_name = Char.ofNat 0))).map (fun o => o._short_name)

/-- The test `options[name]->has_value()`. -/
def has_value_at (os : List (option_base τ V)) (name : Str) : Bool :=
  match find os name with
  | some o => o.has_value
  | none => false

/-- The body of `for (int j = 2; argv[i][j]; j++)` on the character `c = argv[i][j - 1]`. -/
def cluster_char (lk : List (Char × Str)) (p : parser τ V) (c : Char) : parser τ V :=
  if !lookup_count lk c then p.push_error ("undefined short option: -".toList ++ [c])
  else if (lookup_at lk c).isEmpty then
    p.push_error ("ambiguous short option: -".toList ++ [c])
  else p.set_option_flag (lookup_at lk c)

/-- The loop `for (int j = 2; argv[i][j]; j++)`: `last` is the character `argv[i][j - 1]` and
the list holds `argv[i][j]` and the characters after it. The result is the parser and the
variable `last` after the loop. -/
def cluster (lk : List (Char × Str)) : parser τ V → Char → List Char → parser τ V × Char
  | p, last, [] => (p, last)
  | p, last, c :: cs => cluster lk (cluster_char lk p last) c cs

/-- The body of the loop `for (int i = 1; i < argc; i++)` of `parse(argc, argv)` on the token
`arg = argv[i]`; `next` is `argv[i + 1]` when `i + 1 < argc`. The result is whether the body
ran `i++` (the next token was consumed) and the parser afterwards. -/
def step (lk : List (Char × Str)) (p : parser τ V) (arg : Str) (next : Option Str) :
    Bool × parser τ V :=
  if arg.take 2 = ['-', '-'] then
    let body := arg.drop 2
    if '=' ∈ body then
      (false, p.set_option_value (body.takeWhile (fun c => c ≠ '='))
        ((body.dropWhile (fun c => c ≠ '=')).drop 1))
    else if !count p.options body then
      (false, p.push_error ("undefined option: --".toList ++ body))
    else if has_value_at p.options body then
      match next with
      | none => (false, p.push_error ("option needs value: --".toList ++ body))
      | some v => (true, p.set_option_value body v)
    else (false, p.set_option_flag body)
  else if arg.take 1 = ['-'] then
    match arg.drop 1 with
    | [] => (false, p)
    | c :: cs =>
      let r := cluster lk p c cs
      if !lookup_count lk r.2 then
        (false, r.1.push_error ("undefined short option: -".toList ++ [r.2]))
      else if (lookup_at lk r.2).isEmpty then
        (false, r.1.push_error ("ambiguous short option: -".toList ++ [r.2]))
      else
        match next with
        | some v =>
          if has_value_at r.1.options (lookup_at lk r.2) then
            (true, r.1.set_option_value (lookup_at lk r.2) v)
          else (false, r.1.set_option_flag (lookup_at lk r.2))
        | none => (false, r.1.set_option_flag (lookup_at lk r.2))
  else (false, { p with others := p.others ++ [arg] })

/-- The loop `for (int i = 1; i < argc; i++)` over the tokens `argv[i], ..., argv[argc - 1]`. -/
def scan (lk : List (Char × Str)) : parser τ V → List Str → parser τ V
  | p, [] => p
  | p, [a] => (step lk p a none).2
  | p, a :: b :: rest =>
    if (step lk p a (some b)).1 then scan lk (step lk p a (some b)).2 rest
    else scan lk (step lk p a (some b)).2 (b :: rest)

/-- The errors that the last loop of `parse(argc, argv)` appends: one for every option that is
not `valid()`, in key order. -/
def need_errors (os : List (option_base τ V)) : List Str :=
  (os.filter (fun o => !o.valid)).map (fun o => "need option: --".toList ++ o._name)

/-- The method `parser::parse(int argc, const char *const argv[])`; `argv` is the list of the
`argc` C strings. The result is the returned boolean and the parser afterwards. -/
def parser.parse (p : parser τ V) (argv : List Str) : Bool × parser τ V :=
  let p0 := { p with errors := [], others := [] }
  match argv with
  | [] => (false, p0.push_error "argument number must be longer than 0".toList)
  | argv0 :: rest =>
    let p1 := if p0.prog_name.isEmpty then { p0 with prog_name := argv0 } else p0
    match build_lookup p1.options [] with
    | (os, .error c) =>
      (false, { p1 with options := os }.push_error
        ("short option '".toList ++ [c] ++ "' is ambiguous".toList))
    | (os, .ok lk) =>
      let p2 := scan lk { p1 with options := os } rest
      let p3 := { p2 with errors := p2.errors ++ need_errors p2.options }
      (p3.errors.isEmpty, p3)

/-- The C string `s.c_str()` as the callee reads it: the characters before the first NUL. -/
def c_str (s : Str) : Str := s.takeWhile (fun c => c ≠ Char.ofNat 0)

/-- The method `parser::parse(const std::vector<std::string> &args)`. -/
def parser.parse_args (p : parser τ V) (args : List Str) : Bool × parser τ V :=
  p.parse (args.map c_str)

/-- The tokenizer loop of `parse(const std::string &arg)` on the characters not yet read, with
the locals `buf`, `in_quote` and `args`; `none` is the exit on a backslash at the end. -/
def tokenize : List Char → Str → Bool → List Str → Option (Str × Bool × List Str)
  | [], buf, in_quote, args => some (buf, in_quote, args)
  | c :: cs, buf, in_quote, args =>
    if c = '"' then tokenize cs buf (!in_quote) args
    else if c = ' ' && !in_quote then tokenize cs [] in_quote (args ++ [buf])
    else if c = '\\' then
      match cs with
      | [] => none
      | d :: ds => tokenize ds (buf ++ [d]) in_quote args
    else tokenize cs (buf ++ [c]) in_quote args

/-- The method `parser::parse(const std::string &arg)`. -/
def parser.parse_string (p : parser τ V) (arg : Str) : Bool × parser τ V :=
  match tokenize arg [] false [] with
  | none => (false, p.push_error "unexpected occurrence of '\\' at end of string".toList)
  | some (buf, in_quote, args) =>
    if in_quote then (false, p.push_error "quote is not closed".toList)
    else p.parse_args (if buf.length > 0 then args ++ [buf] else args)

/-- The token list that `parse(const std::string &arg)` hands to `parse(args)`; `none` when
the tokenizer fails. -/
def tokens (arg : Str) : Option (List Str) :=
  match tokenize arg [] false [] with
  | none => none
  | some (buf, in_quote, args) =>
    if in_quote then none else some (if buf.length > 0 then args ++ [buf] else args)

/-! ## The registries of the example programs -/

/-- The value of an `Except` known to be `.ok`, else the fallback. -/
def Except.get_or {ε α : Type} (d : α) : Except ε α → α
  | .ok a => a
  | .error _ => d

/-- The declarations of the scenario: a required string option `host`, an optional int option
`port` (short name `p`, default 80, range 1..65535) and a flag `gzip`, on a fresh parser. -/
def scenario : parser Ty Val :=
  let p0 : parser Ty Val := parser.init
  let p1 := Except.get_or p0
    (p0.add_value Ty.string "string".toList [] "host".toList (Char.ofNat 0) "host name".toList
      true (Val.str []) default_reader_string)
  let p2 := Except.get_or p1
    (p1.add_value Ty.int "int".toList "80".toList "port".toList 'p' "port number".toList
      false (Val.int 80) (range_int 1 65535))
  Except.get_or p2 (p2.add "gzip".toList (Char.ofNat 0) "gzip when transfer".toList)


/-! ## The calls of the scanning loop

The loop body reads the registry (`options.count`, `has_value()`, the lookup) and acts on the
parser only through `set_option(name)`, `set_option(name, value)`, `errors.push_back` and
`others.emplace_back`. The sequence of these calls is a function of the declarations and of the
tokens (`scan_eq_calls` below proves that running it is the loop); the statements use it to
say which option a token list supplies. -/

/-- A call that the loop body makes on the parser. -/
inductive Call where
  /-- The call `set_option(name)`. -/
  | flag (name : Str)
  /-- The call `set_option(name, value)`. -/
  | value (name value : Str)
  /-- The call `errors.push_back(msg)`. -/
  | error (msg : Str)
  /-- The call `others.emplace_back(tok)`. -/
  | other (tok : Str)
  deriving DecidableEq, Repr

/-- The effect of a call on the parser. -/
def run_call (p : parser τ V) : Call → parser τ V
  | .flag name => p.set_option_flag name
  | .value name value => p.set_option_value name value
  | .error msg => p.push_error msg
  | .other tok => { p with others := p.others ++ [tok] }

/-- The call of `cluster_char`. -/
def cluster_char_call (lk : List (Char × Str)) (c : Char) : Call :=
  if !lookup_count lk c then .error ("undefined short option: -".toList ++ [c])
  else if (lookup_at lk c).isEmpty then .error ("ambiguous short option: -".toList ++ [c])
  else .flag (lookup_at lk c)

/-- The calls of `cluster`, and the variable `last` after the loop. -/
def cluster_calls (lk : List (Char × Str)) : Char → List Char → List Call × Char
  | last, [] => ([], last)
  | last, c :: cs => (cluster_char_call lk last :: (cluster_calls lk c cs).1,
      (cluster_calls lk c cs).2)

/-- The calls of `step` on a token, and whether the token takes the next one as its value. -/
def step_calls (lk : List (Char × Str)) (os : List (option_base τ V)) (arg : Str)
    (next : Option Str) : Bool × List Call :=
  if arg.take 2 = ['-', '-'] then
    let body := arg.drop 2
    if '=' ∈ body then
      (false, [.value (body.takeWhile (fun c => c ≠ '='))
        ((body.dropWhile (fun c => c ≠ '=')).drop 1)])
    else if !count os body then (false, [.error ("undefined option: --".toList ++ body)])
    else if has_value_at os body then
      match next with
      | none => (false, [.error ("option needs value: --".toList ++ body)])
      | some v => (true, [.value body v])
    else (false, [.flag body])
  else if arg.take 1 = ['-'] then
    match arg.drop 1 with
    | [] => (false, [])
    | c :: cs =>
      let r := cluster_calls lk c cs
      if !lookup_count lk r.2 then
        (false, r.1 ++ [.error ("undefined short option: -".toList ++ [r.2])])
      else if (lookup_at lk r.2).isEmpty then
        (false, r.1 ++ [.error ("ambiguous short option: -".toList ++ [r.2])])
      else
        match next with
        | some v =>
          if has_value_at os (lookup_at lk r.2) then
            (true, r.1 ++ [.value (lookup_at lk r.2) v])
          else (false, r.1 ++ [.flag (lookup_at lk r.2)])
        | none => (false, r.1 ++ [.flag (lookup_at lk r.2)])
  else (false, [.other arg])

/-- The calls of `scan` on a token list. -/
def scan_calls (lk : List (Char × Str)) (os : List (option_base τ V)) : List Str → List Call
  | [] => []
  | [a] => (step_calls lk os a none).2
  | a :: b :: rest =>
    if (step_calls lk os a (some b)).1 then
      (step_calls lk os a (some b)).2 ++ scan_calls lk os rest
    else (step_calls lk os a (some b)).2 ++ scan_calls lk os (b :: rest)

/-- The scan of the token list stops at its end: its last token does not wait for a value
that would be the token after the list. -/
def boundary (lk : List (Char × Str)) (os : List (option_base τ V)) : List Str → Bool
  | [] => true
  | [a] => !(step_calls lk os a (some [])).1
  | a :: b :: rest =>
    if (step_calls lk os a (some b)).1 then boundary lk os rest
    else boundary lk os (b :: rest)

/-- The token names the option with long name `name` and short name `c`: it is `--name`, it
starts with `--name=`, or it starts with one dash and holds `c` after it. -/
def names_option (name : Str) (c : Char) (tok : Str) : Bool :=
  if tok.take 2 = ['-', '-'] then
    decide (tok.drop 2 = name) || decide ((tok.drop 2).take (name.length + 1) = name ++ ['='])
  else decide (tok.take 1 = ['-']) && decide (c ∈ tok.drop 1)

/-- The long name that a token starting with `--` names: the text up to the first `=`. -/
def long_name (tok : Str) : Str := (tok.drop 2).takeWhile (fun c => c ≠ '=')

/-- The token names an option that is not declared: a token `--x` or `--x=v` with no option
under the key `x`, or a token `-x` of one character (not a dash) that is no option's short
name. -/
def names_undeclared (os : List (option_base τ V)) (tok : Str) : Bool :=
  if tok.take 2 = ['-', '-'] then !count os (long_name tok)
  else
    match tok with
    | [d, x] => decide (d = '-') && os.all (fun o => decide (o._short_name ≠ x))
    | _ => false

/-- The undefined-option error for a token that names an undeclared option. -/
def undefined_error (tok : Str) : Str :=
  if tok.take 2 = ['-', '-'] then "undefined option: --".toList ++ long_name tok
  else "undefined short option: -".toList ++ tok.drop 1

/-- The value texts that `parse(argc, argv)` hands to the option `name` through
`set_option(name, value)`, in order; none when the parse stops at an ambiguous short name or
has no token. -/
def supplied_values (os : List (option_base τ V)) (name : Str) (argv : List Str) : List Str :=
  match (build_lookup os []).2 with
  | .ok lk =>
    (scan_calls lk os argv.tail).filterMap (fun c =>
      match c with
      | .value n v => if n = name then some v else none
      | _ => none)
  | .error _ => []

/-- A registry with a flag `all` (short name `a`) and a required int option `port` (short name
`p`, default 0, range 1..65535), on a fresh parser. -/
def port_registry : parser Ty Val :=
  let p0 : parser Ty Val := parser.init
  let p1 := Except.get_or p0 (p0.add "all".toList 'a' "all".toList)
  Except.get_or p1
    (p1.add_value Ty.int "int".toList "0".toList "port".toList 'p' "port number".toList
      true (Val.int 0) (range_int 1 65535))

/-- A registry with a flag `all` (short name `a`) and an int option `port` (short name `p`,
not required, default 0, range 1..65535), on a fresh parser. -/
def shared_free : parser Ty Val :=
  let p0 : parser Ty Val := parser.init
  let p1 := Except.get_or p0 (p0.add "all".toList 'a' "all".toList)
  Except.get_or p1
    (p1.add_value Ty.int "int".toList "0".toList "port".toList 'p' "port number".toList
      false (Val.int 0) (range_int 1 65535))

/-- A registry in which the flag `all` and the int option `port` share the short name `p`. -/
def shared_registry : parser Ty Val :=
  let p0 : parser Ty Val := parser.init
  let p1 := Except.get_or p0 (p0.add "all".toList 'p' "all".toList)
  Except.get_or p1
    (p1.add_value Ty.int "int".toList "0".toList "port".toList 'p' "port number".toList
      false (Val.int 0) (range_int 1 65535))

/-- The option object of `port` in `scenario`, as declared. -/
def scenario_port : option_base Ty Val :=
  { _name := "port".toList, _short_name := 'p',
    _desc := full_description "port number".toList "int".toList "80".toList false,
    _has := false,
    value := some { ty := Ty.int, _need := false, _def := Val.int 80, _actual := Val.int 80,
                    read := range_int 1 65535 } }

/-- A registry whose only option is the int option with the long name `k=v` (no short name,
not required, default 0). -/
def equals_registry : parser Ty Val :=
  let p0 : parser Ty Val := parser.init
  Except.get_or p0
    (p0.add_value Ty.int "int".toList "0".toList "k=v".toList (Char.ofNat 0) [] false
      (Val.int 0) default_reader_int)

/-- A registry whose only option is the int option `level` with the short name `-` (not
required, default 0). -/
def dash_registry : parser Ty Val :=
  let p0 : parser Ty Val := parser.init
  Except.get_or p0
    (p0.add_value Ty.int "int".toList "0".toList "level".toList '-' [] false
      (Val.int 0) default_reader_int)

/-- A registry whose only option is the int option with the empty long name and the short
name `x` (not required, default 0). -/
def empty_name_registry : parser Ty Val :=
  let p0 : parser Ty Val := parser.init
  Except.get_or p0
    (p0.add_value Ty.int "int".toList "0".toList [] 'x' [] false (Val.int 0) default_reader_int)

/-- A registry with the flags `all` (short name `a`) and `bare` (short name `b`) and an int
option `port` (short name `p`, not required, default 80, range 1..65535), on a fresh parser. -/
def cluster_registry : parser Ty Val :=
  let p0 : parser Ty Val := parser.init
  let p1 := Except.get_or p0 (p0.add "all".toList 'a' "all".toList)
  let p2 := Except.get_or p1 (p1.add "bare".toList 'b' "bare".toList)
  Except.get_or p2
    (p2.add_value Ty.int "int".toList "80".toList "port".toList 'p' "port number".toList
      false (Val.int 80) (range_int 1 65535))

/-- The option object of `all` in `cluster_registry`, as declared. -/
def cluster_all : option_base Ty Val :=
  { _name := "all".toList, _short_name := 'a', _desc := "all".toList, _has := false,
    value := none }

/-- The option object of `bare` in `cluster_registry`, as declared. -/
def cluster_bare : option_base Ty Val :=
  { _name := "bare".toList, _short_name := 'b', _desc := "bare".toList, _has := false,
    value := none }

/-- A registry with a flag `dash` whose short name is `-` and the int option `port` (short name
`p`, not required, default 80, range 1..65535). -/
def dash_flag_registry : parser Ty Val :=
  let p0 : parser Ty Val := parser.init
  let p1 := Except.get_or p0 (p0.add "dash".toList '-' "dash".toList)
  Except.get_or p1
    (p1.add_value Ty.int "int".toList "80".toList "port".toList 'p' "port number".toList
      false (Val.int 80) (range_int 1 65535))

/-- A registry with a flag whose long name is empty (short name `a`) and the int option `port`
(short name `p`, not required, default 80, range 1..65535). -/
def empty_flag_registry : parser Ty Val :=
  let p0 : parser Ty Val := parser.init
  let p1 := Except.get_or p0 (p0.add [] 'a' "all".toList)
  Except.get_or p1
    (p1.add_value Ty.int "int".toList "80".toList "port".toList 'p' "port number".toList
      false (Val.int 80) (range_int 1 65535))

/-- A word as a command line writes it: in double quotes when it holds a space. -/
def quote_word (w : Str) : Str := if ' ' ∈ w then '"' :: (w ++ ['"']) else w

/-- The command line of a list of words: the words, quoted where needed, joined with single
spaces. -/
def join_words : List Str → Str
  | [] => []
  | [w] => quote_word w
  | w :: v :: ws => quote_word w ++ ' ' :: join_words (v :: ws)

/-- The string ends in a backslash that no backslash before it escapes: reading from the left,
a backslash escapes the character after it, and the last character is a backslash that is not
escaped. -/
def ends_in_escape : List Char → Bool
  | [] => false
  | [c] => decide (c = '\\')
  | c :: d :: cs => if c = '\\' then ends_in_escape cs else ends_in_escape (d :: cs)

/-- The number of double quotes that no backslash escapes: reading from the left, a backslash
escapes the character after it. -/
def unescaped_quotes : List Char → Nat
  | [] => 0
  | [c] => if c = '"' then 1 else 0
  | c :: d :: cs =>
    if c = '\\' then unescaped_quotes cs
    else (if c = '"' then 1 else 0) + unescaped_quotes (d :: cs)

/-- The number of backslashes at the end of the string. -/
def trailing_backslashes (s : List Char) : Nat :=
  (s.reverse.takeWhile (fun c => decide (c = '\\'))).length

/-- The tokens on which the body of the scanning loop runs: all but those taken as the value
of the token before them. -/
def scanned (lk : List (Char × Str)) (os : List (option_base τ V)) : List Str → List Str
  | [] => []
  | [a] => [a]
  | a :: b :: rest =>
    if (step_calls lk os a (some b)).1 then a :: scanned lk os rest
    else a :: scanned lk os (b :: rest)

/-- The token supplies the flag with long name `name` and short name `c`: it is `--name`, or it
starts with one dash only and holds `c` after it. -/
def flag_token (name : Str) (c : Char) (tok : Str) : Bool :=
  if tok.take 2 = ['-', '-'] then decide (tok.drop 2 = name)
  else decide (tok.take 1 = ['-']) && decide (c ≠ Char.ofNat 0) && decide (c ∈ tok.drop 1)

/-- The option object of `all` in `shared_registry`, as declared. -/
def shared_all : option_base Ty Val :=
  { _name := "all".toList, _short_name := 'p', _desc := "all".toList, _has := false,
    value := none }

/-- The option object of `port` in `shared_registry`, as declared. -/
def shared_port : option_base Ty Val :=
  { _name := "port".toList, _short_name := 'p',
    _desc := full_description "port number".toList "int".toList "0".toList false,
    _has := false,
    value := some { ty := Ty.int, _need := false, _def := Val.int 0, _actual := Val.int 0,
                    read := range_int 1 65535 } }

/-- A property of texts that holds of every message `parse(argc, argv)` and the functions it
calls can push on `errors`. -/
structure parse_messages (P : Str → Prop) : Prop where
  argument_number : P "argument number must be longer than 0".toList
  ambiguous : ∀ c : Char, P ("short option '".toList ++ [c] ++ "' is ambiguous".toList)
  undefined : ∀ n : Str, P ("undefined option: --".toList ++ n)
  undefined_short : ∀ c : Char, P ("undefined short option: -".toList ++ [c])
  ambiguous_short : ∀ c : Char, P ("ambiguous short option: -".toList ++ [c])
  needs_value : ∀ n : Str, P ("option needs value: --".toList ++ n)
  invalid : ∀ n v : Str, P ("option value is invalid: --".toList ++ n ++ "=".toList ++ v)
  need : ∀ n : Str, P ("need option: --".toList ++ n)

/-- The pieces of a string between consecutive space characters: the string split at every
single space, empty pieces kept. -/
def pieces (s : List Char) : List Str := s.splitOn ' '

/-- The list of pieces with an empty final piece left out. -/
def drop_empty_last (l : List Str) : List Str :=
  if l.getLast? = some [] then l.dropLast else l

/-- The token is consumed together with the token after it, as the claim on `rest()` words
it: a token `--name` without `=` whose `name` is a declared valued option, or a token that
starts with one dash only and whose final character is the short name of a declared valued
option. -/
def takes_value (os : List (option_base τ V)) (tok : Str) : Bool :=
  if tok.take 2 = ['-', '-'] then
    decide ('=' ∉ tok.drop 2)
      && os.any (fun o => decide (o._name = tok.drop 2) && o.has_value)
  else if tok.take 1 = ['-'] then
    match (tok.drop 1).getLast? with
    | none => false
    | some c =>
      decide (c ≠ Char.ofNat 0)
        && os.any (fun o => decide (o._short_name = c) && o.has_value)
  else false

/-- The tokens that do not begin with `-` and are not consumed as the value of the valued
option before them, in order. -/
def positional (os : List (option_base τ V)) : List Str → List Str
  | [] => []
  | [a] => if a.take 1 = ['-'] then [] else [a]
  | a :: b :: rest =>
    if takes_value os a then positional os rest
    else if a.take 1 = ['-'] then positional os (b :: rest)
    else a :: positional os (b :: rest)

/-- The method `parser::footer(f)`. -/
def parser.footer (p : parser τ V) (f : Str) : parser τ V := { p with ftr := f }

/-- The method `parser::set_program_name(name)`. -/
def parser.set_program_name (p : parser τ V) (name : Str) : parser τ V :=
  { p with prog_name := name }

/-- The method `short_description()`: `"--" + _name` for a flag, and
`"--" + _name + "=" + detail::readable_typename<T>()` for a valued option; `typename` gives
the text of `readable_typename<T>()` for the tag of `T`. -/
def option_base.short_description (typename : τ → Str) (o : option_base τ V) : Str :=
  match o.value with
  | none => "--".toList ++ o._name
  | some w => "--".toList ++ o._name ++ "=".toList ++ typename w.ty

/-- The function `detail::readable_typename<T>()` for the types of the example programs. -/
def readable_typename : Ty → Str
  | .int => "int".toList
  | .string => "string".toList

/-- The objects that the entries of `ordered` point to, in declaration order. -/
def parser.ordered_options (p : parser τ V) : List (option_base τ V) :=
  p.ordered.filterMap (fun n => find p.options n)

/-- The local `max_width` of `usage()` after its loop: the maximum of the lengths of the long
names, 0 without options. -/
def max_width (os : List (option_base τ V)) : Nat :=
  os.foldl (fun m o => max m o._name.length) 0

/-- The body of the last loop of `usage()` on one option: the short form or six spaces, the
long form, spaces up to the width `max_width + 4`, the description and `std::endl`. -/
def usage_option (mw : Nat) (o : option_base τ V) : Str :=
  (if o._short_name ≠ Char.ofNat 0 then "  -".toList ++ [o._short_name] ++ ", ".toList
    else "      ".toList)
  ++ "--".toList ++ o._name ++ List.replicate (mw + 4 - o._name.length) ' ' ++ o._desc
  ++ ['\n']

/-- The method `parser::usage()`. -/
def parser.usage (typename : τ → Str) (p : parser τ V) : Str :=
  "usage: ".toList ++ p.prog_name ++ " ".toList
  ++ ((p.ordered_options.filter (fun o => o.must)).map
      (fun o => o.short_description typename ++ " ".toList)).flatten
  ++ "[options] ... ".toList ++ p.ftr ++ ['\n']
  ++ "options:".toList ++ ['\n']
  ++ (p.ordered_options.map (usage_option (max_width p.ordered_options))).flatten

/-- The lines of a text: the pieces between newline characters, without the empty piece after
a final newline. -/
def lines (s : Str) : List Str := drop_empty_last (s.splitOn '\n')

/-- The start of an option line of the usage text: the short form `  -c, ` when the option has
a short name, six spaces otherwise. -/
def usage_short_form (o : option_base τ V) : Str :=
  if o._short_name ≠ Char.ofNat 0 then "  -".toList ++ [o._short_name] ++ ", ".toList
  else "      ".toList

/-- The long name of an option, padded with spaces to the width `width`. -/
def padded_name (width : Nat) (o : option_base τ V) : Str :=
  o._name ++ List.replicate (width - o._name.length) ' '

/-- The long form of an option line of the usage text: `--` and the long name, padded with
spaces to the width `width`. -/
def usage_long_form (width : Nat) (o : option_base τ V) : Str :=
  "--".toList ++ padded_name width o

/-- The parser of the example with the program name `simple` and the footer `filename ...`. -/
def scenario_named : parser Ty Val :=
  (scenario.set_program_name "simple".toList).footer "filename ...".toList

/-- The declaration of an option: the object with its parse state (`_has`, `_actual`) put back
to what the constructor stores. The scanning loop reads the options only through it. -/
def decl (o : option_base τ V) : option_base τ V :=
  { o with _has := false, value := o.value.map (fun w => { w with _actual := w._def }) }

/-- The value that an option holds, when it is a valued option. -/
def actual (o : option_base τ V) : Option V := o.value.map (fun w => w._actual)

/-- What the reader of an option returns on a text; `none` on a flag and when the reader
throws. -/
def read_of (o : option_base τ V) (v : Str) : Option V :=
  match o.value with
  | none => none
  | some w => w.read v

/-- The effect of a call on one option object. -/
def elem_call (o : option_base τ V) : Call → option_base τ V
  | .flag name => if o._name = name then (o.set true).2 else o
  | .value name value => if o._name = name then (o.set_string value).2 else o
  | .error _ => o
  | .other _ => o

/-- The effect of a sequence of calls on one option object. -/
def elem_calls (cs : List Call) (o : option_base τ V) : option_base τ V := cs.foldl elem_call o

/-- The errors that a call appends. -/
def call_errors (os : List (option_base τ V)) : Call → List Str
  | .flag name =>
    match find os name with
    | none => ["undefined option: --".toList ++ name]
    | some o => if !(o.set true).1 then ["option needs value: --".toList ++ name] else []
  | .value name value =>
    match find os name with
    | none => ["undefined option: --".toList ++ name]
    | some o =>
      if !(o.set_string value).1 then
        ["option value is invalid: --".toList ++ name ++ "=".toList ++ value]
      else []
  | .error msg => [msg]
  | .other _ => []

/-- The errors that a sequence of calls appends. -/
def errors_of (os : List (option_base τ V)) : List Call → List Str
  | [] => []
  | c :: cs => call_errors os c ++ errors_of os cs

/-- The positional arguments that a sequence of calls appends. -/
def others_of : List Call → List Str
  | [] => []
  | .other tok :: cs => tok :: others_of cs
  | .flag _ :: cs => others_of cs
  | .value _ _ :: cs => others_of cs
  | .error _ :: cs => others_of cs

/-! ## Lemmas on the registry -/

theorem find_map_name (g : option_base τ V → option_base τ V) (hg : ∀ o, (g o)._name = o._name)
    (os : List (option_base τ V)) (n : Str) : find (os.map g) n = (find os n).map g := by
  induction os with
  | nil => rfl
  | cons o os ih =>
    unfold find at ih ⊢
    by_cases h : o._name = n
    · simp [List.find?, hg, h]
    · simp [List.find?, hg, h, ih]

theorem count_eq_find (os : List (option_base τ V)) (n : Str) :
    count os n = (find os n).isSome := by
  induction os with
  | nil => rfl
  | cons o os ih =>
    unfold count find at ih ⊢
    by_cases h : o._name = n
    · simp [List.find?, h]
    · simp [List.find?, h, ih]

theorem count_map_name (g : option_base τ V → option_base τ V)
    (hg : ∀ o, (g o)._name = o._name) (os : List (option_base τ V)) (n : Str) :
    count (os.map g) n = count os n := by
  rw [count_eq_find, count_eq_find, find_map_name g hg]
  cases find os n <;> rfl

theorem find_some_name {os : List (option_base τ V)} {n : Str} {o : option_base τ V}
    (h : find os n = some o) : o._name = n := by
  have := List.find?_some h
  simpa using this

theorem find_some_mem {os : List (option_base τ V)} {n : Str} {o : option_base τ V}
    (h : find os n = some o) : o ∈ os := List.mem_of_find?_eq_some h

theorem find_none_name {os : List (option_base τ V)} {n : Str} (h : find os n = none)
    (o : option_base τ V) (ho : o ∈ os) : o._name ≠ n := by
  have := List.find?_eq_none.1 h o ho
  simpa using this

theorem update_find_none {os : List (option_base τ V)} {n : Str}
    (f : option_base τ V → option_base τ V) (h : find os n = none) : update os n f = os := by
  unfold update
  conv => rhs; rw [← List.map_id os]
  apply List.map_congr_left
  intro o ho
  simp [find_none_name h o ho]

/-! ## Lemmas on the calls -/

theorem set_string_name (o : option_base τ V) (v : Str) : (o.set_string v).2._name = o._name := by
  unfold option_base.set_string
  cases o.value with
  | none => rfl
  | some w => simp only; cases w.read v <;> rfl

theorem decl_set_string_obj (o : option_base τ V) (v : Str) :
    decl (o.set_string v).2 = decl o := by
  unfold option_base.set_string
  cases h : o.value with
  | none => rfl
  | some w =>
    simp only
    cases w.read v with
    | none => rfl
    | some x => simp [decl, h]

theorem read_of_decl (o : option_base τ V) (v : Str) : read_of (decl o) v = read_of o v := by
  unfold read_of decl
  cases o.value <;> rfl

theorem set_string_none (o : option_base τ V) (v : Str) (h : read_of o v = none) :
    o.set_string v = (false, o) := by
  unfold read_of at h
  unfold option_base.set_string
  cases hv : o.value with
  | none => rfl
  | some w => rw [hv] at h; simp only at h; simp only [h]

theorem set_string_some (o : option_base τ V) (v : Str) (r : V) (h : read_of o v = some r) :
    (o.set_string v).1 = true ∧ (o.set_string v).2._has = true
      ∧ actual (o.set_string v).2 = some r := by
  unfold read_of at h
  unfold option_base.set_string
  cases hv : o.value with
  | none => rw [hv] at h; simp at h
  | some w => rw [hv] at h; simp only at h; simp only [h, actual, Option.map_some', and_self]

theorem elem_call_name (o : option_base τ V) (c : Call) : (elem_call o c)._name = o._name := by
  cases c with
  | flag n => simp only [elem_call]; split <;> rfl
  | value n v =>
    simp only [elem_call]
    split
    · exact set_string_name o v
    · rfl
  | error m => rfl
  | other t => rfl

theorem decl_elem_call (o : option_base τ V) (c : Call) : decl (elem_call o c) = decl o := by
  cases c with
  | flag n => simp only [elem_call]; split <;> rfl
  | value n v =>
    simp only [elem_call]
    split
    · exact decl_set_string_obj o v
    · rfl
  | error m => rfl
  | other t => rfl

theorem decl_name (o : option_base τ V) : (decl o)._name = o._name := rfl

theorem decl_has_value (o : option_base τ V) : (decl o).has_value = o.has_value := by
  unfold decl option_base.has_value
  cases o.value <;> rfl

theorem decl_set_string (o : option_base τ V) (v : Str) :
    ((decl o).set_string v).1 = (o.set_string v).1 := by
  unfold decl option_base.set_string
  cases o.value with
  | none => rfl
  | some w => simp only [Option.map]; cases w.read v <;> rfl

theorem has_value_at_decl (os : List (option_base τ V)) (n : Str) :
    has_value_at (os.map decl) n = has_value_at os n := by
  unfold has_value_at
  rw [find_map_name decl decl_name]
  cases find os n with
  | none => rfl
  | some o => exact decl_has_value o

theorem count_decl (os : List (option_base τ V)) (n : Str) :
    count (os.map decl) n = count os n := count_map_name decl decl_name os n

theorem call_errors_decl (os : List (option_base τ V)) (c : Call) :
    call_errors (os.map decl) c = call_errors os c := by
  cases c with
  | flag n =>
    simp only [call_errors]
    rw [find_map_name decl decl_name]
    cases find os n <;> rfl
  | value n v =>
    simp only [call_errors]
    rw [find_map_name decl decl_name]
    cases h : find os n with
    | none => rfl
    | some o => simp only [Option.map, decl_set_string]
  | error m => rfl
  | other t => rfl

theorem errors_of_decl (os : List (option_base τ V)) (cs : List Call) :
    errors_of (os.map decl) cs = errors_of os cs := by
  induction cs with
  | nil => rfl
  | cons c cs ih => simp only [errors_of, call_errors_decl, ih]

theorem step_calls_decl (lk : List (Char × Str)) (os : List (option_base τ V)) (a : Str)
    (next : Option Str) : step_calls lk (os.map decl) a next = step_calls lk os a next := by
  unfold step_calls
  simp only [count_decl, has_value_at_decl]

theorem scan_calls_decl (lk : List (Char × Str)) (os : List (option_base τ V))
    (ts : List Str) : scan_calls lk (os.map decl) ts = scan_calls lk os ts := by
  induction ts using scan_calls.induct lk os with
  | case1 => rfl
  | case2 a => simp only [scan_calls, step_calls_decl]
  | case3 a b rest h ih => simp only [scan_calls, step_calls_decl, h, ih, if_true]
  | case4 a b rest h ih => simp only [scan_calls, step_calls_decl, h, ih]; simp

theorem boundary_decl (lk : List (Char × Str)) (os : List (option_base τ V))
    (ts : List Str) : boundary lk (os.map decl) ts = boundary lk os ts := by
  induction ts using boundary.induct lk os with
  | case1 => rfl
  | case2 a => simp only [boundary, step_calls_decl]
  | case3 a b rest h ih => simp only [boundary, step_calls_decl, h, ih, if_true]
  | case4 a b rest h ih => simp only [boundary, step_calls_decl, h, ih]; simp

/-- Two registries with the same declarations give the same calls. -/
theorem scan_calls_congr (lk : List (Char × Str)) {os os' : List (option_base τ V)}
    (h : os.map decl = os'.map decl) (ts : List Str) :
    scan_calls lk os ts = scan_calls lk os' ts := by
  rw [← scan_calls_decl lk os, ← scan_calls_decl lk os', h]

theorem step_calls_congr (lk : List (Char × Str)) {os os' : List (option_base τ V)}
    (h : os.map decl = os'.map decl) (a : Str) (next : Option Str) :
    step_calls lk os a next = step_calls lk os' a next := by
  rw [← step_calls_decl lk os, ← step_calls_decl lk os', h]

theorem errors_of_congr {os os' : List (option_base τ V)}
    (h : os.map decl = os'.map decl) (cs : List Call) :
    errors_of os cs = errors_of os' cs := by
  rw [← errors_of_decl os, ← errors_of_decl os', h]

theorem has_value_at_congr {os os' : List (option_base τ V)}
    (h : os.map decl = os'.map decl) (n : Str) : has_value_at os n = has_value_at os' n := by
  rw [← has_value_at_decl os, ← has_value_at_decl os', h]

theorem count_congr {os os' : List (option_base τ V)}
    (h : os.map decl = os'.map decl) (n : Str) : count os n = count os' n := by
  rw [← count_decl os, ← count_decl os', h]

theorem decl_elem_calls (cs : List Call) (o : option_base τ V) :
    decl (elem_calls cs o) = decl o := by
  unfold elem_calls
  induction cs generalizing o with
  | nil => rfl
  | cons c cs ih => rw [List.foldl_cons, ih, decl_elem_call]

theorem map_decl_elem_call (os : List (option_base τ V)) (c : Call) :
    (os.map (fun o => elem_call o c)).map decl = os.map decl := by
  rw [List.map_map]
  apply List.map_congr_left
  intro o _
  exact decl_elem_call o c

theorem map_decl_elem_calls (os : List (option_base τ V)) (cs : List Call) :
    (os.map (elem_calls cs)).map decl = os.map decl := by
  rw [List.map_map]
  apply List.map_congr_left
  intro o _
  exact decl_elem_calls cs o

/-- One call: the options change object by object, the errors and the positional arguments
grow by what the declarations and the call determine, and nothing else changes. -/
theorem run_call_eq (p : parser τ V) (c : Call) :
    run_call p c = { p with
      options := p.options.map (fun o => elem_call o c)
      errors := p.errors ++ call_errors p.options c
      others := p.others ++ others_of [c] } := by
  cases c with
  | flag n =>
    simp only [run_call, parser.set_option_flag, call_errors]
    cases h : find p.options n with
    | none =>
      have := update_find_none (fun x => (x.set true).2) h
      unfold update at this
      simp [parser.push_error, elem_call, this, others_of]
    | some o => simp [option_base.set, update, elem_call, others_of]
  | value n v =>
    simp only [run_call, parser.set_option_value, call_errors]
    cases h : find p.options n with
    | none =>
      have := update_find_none (fun x => (x.set_string v).2) h
      unfold update at this
      simp [parser.push_error, elem_call, this, others_of]
    | some o =>
      by_cases hs : (o.set_string v).1 = true
      · simp [hs, update, elem_call, others_of]
      · simp [hs, update, elem_call, others_of, parser.push_error]
  | error m => simp [run_call, parser.push_error, elem_call, call_errors, others_of]
  | other t => simp [run_call, elem_call, call_errors, others_of]

theorem others_of_append (cs ds : List Call) :
    others_of (cs ++ ds) = others_of cs ++ others_of ds := by
  induction cs with
  | nil => rfl
  | cons c cs ih => cases c <;> simp [others_of, ih]

theorem errors_of_append (os : List (option_base τ V)) (cs ds : List Call) :
    errors_of os (cs ++ ds) = errors_of os cs ++ errors_of os ds := by
  induction cs with
  | nil => rfl
  | cons c cs ih => simp [errors_of, ih]

theorem elem_calls_append (cs ds : List Call) (o : option_base τ V) :
    elem_calls (cs ++ ds) o = elem_calls ds (elem_calls cs o) := by
  unfold elem_calls
  rw [List.foldl_append]

/-- A sequence of calls: the options change object by object, the errors and the positional
arguments grow by what the declarations and the calls determine. -/
theorem run_calls_eq (cs : List Call) (p : parser τ V) :
    cs.foldl run_call p = { p with
      options := p.options.map (elem_calls cs)
      errors := p.errors ++ errors_of p.options cs
      others := p.others ++ others_of cs } := by
  induction cs generalizing p with
  | nil =>
    have h : (elem_calls [] : option_base τ V → option_base τ V) = id := rfl
    simp [h, errors_of, others_of]
  | cons c cs ih =>
    rw [List.foldl_cons, ih, run_call_eq]
    have h1 : errors_of (p.options.map (fun o => elem_call o c)) cs = errors_of p.options cs :=
      errors_of_congr (map_decl_elem_call p.options c) cs
    have h2 : others_of (c :: cs) = others_of [c] ++ others_of cs :=
      others_of_append [c] cs
    simp only [h1, h2, errors_of, List.map_map, List.append_assoc]
    rfl

theorem run_calls_options (cs : List Call) (p : parser τ V) :
    (cs.foldl run_call p).options = p.options.map (elem_calls cs) := by
  rw [run_calls_eq]

theorem run_calls_decl (cs : List Call) (p : parser τ V) :
    (cs.foldl run_call p).options.map decl = p.options.map decl := by
  rw [run_calls_options, map_decl_elem_calls]

theorem cluster_char_eq (lk : List (Char × Str)) (p : parser τ V) (c : Char) :
    cluster_char lk p c = run_call p (cluster_char_call lk c) := by
  unfold cluster_char cluster_char_call
  split
  · rfl
  · split <;> rfl

theorem cluster_eq (lk : List (Char × Str)) (p : parser τ V) (c : Char) (cs : List Char) :
    cluster lk p c cs
      = ((cluster_calls lk c cs).1.foldl run_call p, (cluster_calls lk c cs).2) := by
  induction cs generalizing p c with
  | nil => rfl
  | cons d ds ih => simp only [cluster, cluster_calls, ih, cluster_char_eq, List.foldl_cons]

/-- The loop body is the run of its calls. -/
theorem step_eq (lk : List (Char × Str)) (p : parser τ V) (a : Str) (next : Option Str) :
    step lk p a next = ((step_calls lk p.options a next).1,
      (step_calls lk p.options a next).2.foldl run_call p) := by
  unfold step step_calls
  by_cases h1 : a.take 2 = ['-', '-']
  · simp only [h1, if_true]
    by_cases h2 : '=' ∈ a.drop 2
    · simp only [h2, if_true, List.foldl_cons, List.foldl_nil, run_call]
    · simp only [h2, if_false]
      by_cases h3 : count p.options (a.drop 2) = true
      · by_cases h4 : has_value_at p.options (a.drop 2) = true
        · cases next <;> simp [h3, h4, run_call]
        · simp [h3, h4, run_call]
      · simp [h3, run_call]
  · simp only [h1, if_false]
    by_cases h2 : a.take 1 = ['-']
    · simp only [h2, if_true]
      cases h3 : a.drop 1 with
      | nil => simp
      | cons c cs =>
        simp only [cluster_eq]
        have hv : ∀ n, has_value_at ((cluster_calls lk c cs).1.foldl run_call p).options n
            = has_value_at p.options n :=
          fun n => has_value_at_congr (run_calls_decl _ p) n
        by_cases h4 : lookup_count lk (cluster_calls lk c cs).2 = true
        · by_cases h5 : (lookup_at lk (cluster_calls lk c cs).2).isEmpty = true
          · simp [h4, h5, List.foldl_append, run_call]
          · cases next with
            | none => simp [h4, h5, List.foldl_append, run_call]
            | some v =>
              by_cases h6 : has_value_at p.options (lookup_at lk (cluster_calls lk c cs).2) = true
              · simp [h4, h5, h6, hv, List.foldl_append, run_call]
              · simp [h4, h5, h6, hv, List.foldl_append, run_call]
        · simp [h4, List.foldl_append, run_call]
    · simp [h2, run_call]

theorem step_decl (lk : List (Char × Str)) (p : parser τ V) (a : Str) (next : Option Str) :
    (step lk p a next).2.options.map decl = p.options.map decl := by
  rw [step_eq]
  exact run_calls_decl _ p

/-- The scanning loop is the run of its calls. -/
theorem scan_eq_calls (lk : List (Char × Str)) (p : parser τ V) (ts : List Str) :
    scan lk p ts = (scan_calls lk p.options ts).foldl run_call p := by
  induction p, ts using scan.induct lk with
  | case1 p => rfl
  | case2 p a => simp only [scan, scan_calls, step_eq]
  | case3 p a b rest h ih =>
    have hd := step_decl lk p a (some b)
    have h' : (step_calls lk p.options a (some b)).1 = true := by rw [step_eq] at h; exact h
    rw [scan, if_pos h, ih, scan_calls, if_pos h', List.foldl_append,
      scan_calls_congr lk hd, step_eq]
  | case4 p a b rest h ih =>
    have hd := step_decl lk p a (some b)
    have h' : ¬ (step_calls lk p.options a (some b)).1 = true := by rw [step_eq] at h; exact h
    rw [scan, if_neg h, ih, scan_calls, if_neg h', List.foldl_append,
      scan_calls_congr lk hd, step_eq]

/-- The scanning loop, field by field. -/
theorem scan_eq (lk : List (Char × Str)) (p : parser τ V) (ts : List Str) :
    scan lk p ts = { p with
      options := p.options.map (elem_calls (scan_calls lk p.options ts))
      errors := p.errors ++ errors_of p.options (scan_calls lk p.options ts)
      others := p.others ++ others_of (scan_calls lk p.options ts) } := by
  rw [scan_eq_calls, run_calls_eq]

/-! ## Lemmas on the short-name lookup -/

theorem decl_set_false (o : option_base τ V) : decl (o.set false).2 = decl o := rfl

theorem build_lookup_cons_empty (o : option_base τ V) (os : List (option_base τ V))
    (lk : List (Char × Str)) (h1 : o._name.length = 0) :
    build_lookup (o :: os) lk
      = ((o.set false).2 :: (build_lookup os lk).1, (build_lookup os lk).2) := by
  rw [build_lookup]; simp [h1]

theorem build_lookup_cons_noshort (o : option_base τ V) (os : List (option_base τ V))
    (lk : List (Char × Str)) (h1 : ¬ o._name.length = 0) (h2 : o._short_name = Char.ofNat 0) :
    build_lookup (o :: os) lk
      = ((o.set false).2 :: (build_lookup os lk).1, (build_lookup os lk).2) := by
  rw [build_lookup]; simp [h1, h2]

theorem build_lookup_cons_dup (o : option_base τ V) (os : List (option_base τ V))
    (lk : List (Char × Str)) (h1 : ¬ o._name.length = 0) (h2 : ¬ o._short_name = Char.ofNat 0)
    (h3 : lookup_count lk o._short_name = true) :
    build_lookup (o :: os) lk = ((o.set false).2 :: os, .error o._short_name) := by
  rw [build_lookup]; simp [h1, h2, h3]

theorem build_lookup_cons_new (o : option_base τ V) (os : List (option_base τ V))
    (lk : List (Char × Str)) (h1 : ¬ o._name.length = 0) (h2 : ¬ o._short_name = Char.ofNat 0)
    (h3 : ¬ lookup_count lk o._short_name = true) :
    build_lookup (o :: os) lk
      = ((o.set false).2 :: (build_lookup os ((o._short_name, o._name) :: lk)).1,
        (build_lookup os ((o._short_name, o._name) :: lk)).2) := by
  rw [build_lookup]; simp [h1, h2, h3]

theorem build_lookup_ok_options (os : List (option_base τ V)) (lk lk' : List (Char × Str))
    (h : (build_lookup os lk).2 = .ok lk') :
    (build_lookup os lk).1 = os.map (fun o => (o.set false).2) := by
  induction os generalizing lk with
  | nil => rfl
  | cons o os ih =>
    by_cases h1 : o._name.length = 0
    · rw [build_lookup_cons_empty o os lk h1] at h ⊢
      simp [ih lk h]
    · by_cases h2 : o._short_name = Char.ofNat 0
      · rw [build_lookup_cons_noshort o os lk h1 h2] at h ⊢
        simp [ih lk h]
      · by_cases h3 : lookup_count lk o._short_name = true
        · rw [build_lookup_cons_dup o os lk h1 h2 h3] at h
          simp at h
        · rw [build_lookup_cons_new o os lk h1 h2 h3] at h ⊢
          simp [ih _ h]

/-- The lookup is a function of the declarations. -/
theorem build_lookup_congr (os os' : List (option_base τ V)) (lk : List (Char × Str))
    (h : os.map decl = os'.map decl) : (build_lookup os lk).2 = (build_lookup os' lk).2 := by
  induction os generalizing os' lk with
  | nil =>
    cases os' with
    | nil => rfl
    | cons o' os' => simp at h
  | cons o os ih =>
    cases os' with
    | nil => simp at h
    | cons o' os' =>
      simp only [List.map_cons, List.cons.injEq] at h
      have hn : o._name = o'._name := by
        have := congrArg option_base._name h.1
        exact this
      have hs : o._short_name = o'._short_name := by
        have := congrArg option_base._short_name h.1
        exact this
      by_cases h1 : o._name.length = 0
      · rw [build_lookup_cons_empty o os lk h1, build_lookup_cons_empty o' os' lk (hn ▸ h1)]
        exact ih os' lk h.2
      · by_cases h2 : o._short_name = Char.ofNat 0
        · rw [build_lookup_cons_noshort o os lk h1 h2,
            build_lookup_cons_noshort o' os' lk (hn ▸ h1) (hs ▸ h2)]
          exact ih os' lk h.2
        · by_cases h3 : lookup_count lk o._short_name = true
          · rw [build_lookup_cons_dup o os lk h1 h2 h3,
              build_lookup_cons_dup o' os' lk (hn ▸ h1) (hs ▸ h2) (hs ▸ h3), hs]
          · rw [build_lookup_cons_new o os lk h1 h2 h3,
              build_lookup_cons_new o' os' lk (hn ▸ h1) (hs ▸ h2) (hs ▸ h3), ← hs, ← hn]
            exact ih os' _ h.2

/-- Running the first loop again changes nothing more. -/
theorem build_lookup_idem (os : List (option_base τ V)) (lk : List (Char × Str)) :
    build_lookup (build_lookup os lk).1 lk = build_lookup os lk := by
  induction os generalizing lk with
  | nil => rfl
  | cons o os ih =>
    by_cases h1 : o._name.length = 0
    · rw [build_lookup_cons_empty o os lk h1,
        build_lookup_cons_empty (o.set false).2 _ lk h1, ih lk]
      rfl
    · by_cases h2 : o._short_name = Char.ofNat 0
      · rw [build_lookup_cons_noshort o os lk h1 h2,
          build_lookup_cons_noshort (o.set false).2 _ lk h1 h2, ih lk]
        rfl
      · by_cases h3 : lookup_count lk o._short_name = true
        · rw [build_lookup_cons_dup o os lk h1 h2 h3,
            build_lookup_cons_dup (o.set false).2 _ lk h1 h2 h3]
          rfl
        · rw [build_lookup_cons_new o os lk h1 h2 h3,
            build_lookup_cons_new (o.set false).2 _ lk h1 h2 h3]
          show (_ :: (build_lookup (build_lookup os ((o._short_name, o._name) :: lk)).1
            ((o._short_name, o._name) :: lk)).1, (build_lookup (build_lookup os
            ((o._short_name, o._name) :: lk)).1 ((o._short_name, o._name) :: lk)).2) = _
          rw [ih]
          rfl

/-! ## Lemmas on parse -/

theorem parse_nil (p : parser τ V) :
    p.parse [] = (false, { p with
      errors := ["argument number must be longer than 0".toList], others := [] }) := by
  simp [parser.parse, parser.push_error]

/-- A parse that meets an ambiguous short name. -/
theorem parse_ambiguous (p : parser τ V) (a0 : Str) (rest : List Str) (c : Char)
    (h : (build_lookup p.options []).2 = .error c) :
    p.parse (a0 :: rest) = (false, { p with
      prog_name := if p.prog_name.isEmpty then a0 else p.prog_name
      options := (build_lookup p.options []).1
      others := []
      errors := ["short option '".toList ++ [c] ++ "' is ambiguous".toList] }) := by
  unfold parser.parse
  by_cases hp : p.prog_name.isEmpty = true
  · simp only [hp, if_true]
    generalize build_lookup p.options [] = b at h ⊢
    obtain ⟨os, r⟩ := b
    simp only at h
    subst h
    simp [parser.push_error]
  · simp only [hp, Bool.false_eq_true, if_false]
    generalize build_lookup p.options [] = b at h ⊢
    obtain ⟨os, r⟩ := b
    simp only at h
    subst h
    simp [parser.push_error]

/-- A parse without ambiguous short name, field by field: `cs` are the calls of the scanning
loop. -/
theorem parse_ok (p : parser τ V) (a0 : Str) (rest : List Str) (lk : List (Char × Str))
    (h : (build_lookup p.options []).2 = .ok lk) :
    p.parse (a0 :: rest) =
      ((errors_of p.options (scan_calls lk p.options rest) ++ need_errors (p.options.map
          (fun o => elem_calls (scan_calls lk p.options rest) (o.set false).2))).isEmpty,
       { p with
          prog_name := if p.prog_name.isEmpty then a0 else p.prog_name
          options := p.options.map
            (fun o => elem_calls (scan_calls lk p.options rest) (o.set false).2)
          others := others_of (scan_calls lk p.options rest)
          errors := errors_of p.options (scan_calls lk p.options rest) ++ need_errors
            (p.options.map
              (fun o => elem_calls (scan_calls lk p.options rest) (o.set false).2)) }) := by
  have hb : build_lookup p.options []
      = (p.options.map (fun o => (o.set false).2), .ok lk) := by
    rw [← h, ← build_lookup_ok_options p.options [] lk h]
  have hd : (p.options.map (fun o => (o.set false).2)).map decl = p.options.map decl := by
    rw [List.map_map]; rfl
  have hc := scan_calls_congr lk hd rest
  have he := errors_of_congr hd (scan_calls lk p.options rest)
  unfold parser.parse
  by_cases hp : p.prog_name.isEmpty = true
  · simp only [hp, if_true]
    rw [hb]
    simp only [scan_eq, hc, he, List.map_map, List.nil_append]
    rfl
  · simp only [hp, Bool.false_eq_true, if_false]
    rw [hb]
    simp only [scan_eq, hc, he, List.map_map, List.nil_append]
    rfl

theorem build_lookup_decl (os : List (option_base τ V)) (lk : List (Char × Str)) :
    (build_lookup os lk).1.map decl = os.map decl := by
  induction os generalizing lk with
  | nil => rfl
  | cons o os ih =>
    by_cases h1 : o._name.length = 0
    · rw [build_lookup_cons_empty o os lk h1]
      simp only [List.map_cons, ih, decl_set_false]
    · by_cases h2 : o._short_name = Char.ofNat 0
      · rw [build_lookup_cons_noshort o os lk h1 h2]
        simp only [List.map_cons, ih, decl_set_false]
      · by_cases h3 : lookup_count lk o._short_name = true
        · rw [build_lookup_cons_dup o os lk h1 h2 h3]
          simp only [List.map_cons, decl_set_false]
        · rw [build_lookup_cons_new o os lk h1 h2 h3]
          simp only [List.map_cons, ih, decl_set_false]

theorem find_cons (o : option_base τ V) (os : List (option_base τ V)) (n : Str) :
    find (o :: os) n = if o._name = n then some o else find os n := by
  unfold find
  by_cases h : o._name = n <;> simp [List.find?, h]

theorem build_lookup_find_value (os : List (option_base τ V)) (lk : List (Char × Str))
    (n : Str) :
    (find (build_lookup os lk).1 n).map (fun o => o.value) = (find os n).map (fun o => o.value) := by
  induction os generalizing lk with
  | nil => rfl
  | cons o os ih =>
    have hn : (o.set false).2._name = o._name := rfl
    have hv : (o.set false).2.value = o.value := rfl
    by_cases h1 : o._name.length = 0
    · rw [build_lookup_cons_empty o os lk h1, find_cons, find_cons, hn]
      by_cases h : o._name = n <;> simp [h, hv, ih]
    · by_cases h2 : o._short_name = Char.ofNat 0
      · rw [build_lookup_cons_noshort o os lk h1 h2, find_cons, find_cons, hn]
        by_cases h : o._name = n <;> simp [h, hv, ih]
      · by_cases h3 : lookup_count lk o._short_name = true
        · rw [build_lookup_cons_dup o os lk h1 h2 h3, find_cons, find_cons, hn]
          by_cases h : o._name = n <;> simp [h, hv]
        · rw [build_lookup_cons_new o os lk h1 h2 h3, find_cons, find_cons, hn]
          by_cases h : o._name = n <;> simp [h, hv, ih]

/-- A parse keeps the declarations. -/
theorem parse_decl (p : parser τ V) (argv : List Str) :
    (p.parse argv).2.options.map decl = p.options.map decl := by
  cases argv with
  | nil => rw [parse_nil]
  | cons a0 rest =>
    cases h : (build_lookup p.options []).2 with
    | error c => rw [parse_ambiguous p a0 rest c h]; exact build_lookup_decl _ _
    | ok lk =>
      rw [parse_ok p a0 rest lk h]
      simp only [List.map_map]
      apply List.map_congr_left
      intro o _
      simp only [Function.comp, decl_elem_calls, decl_set_false]

theorem get_congr [DecidableEq τ] (p q : parser τ V) (ty : τ) (n : Str)
    (h : (find q.options n).map (fun o => o.value) = (find p.options n).map (fun o => o.value)) :
    q.get ty n = p.get ty n := by
  unfold parser.get
  cases hp : find p.options n with
  | none =>
    rw [hp] at h
    cases hq : find q.options n with
    | none => rfl
    | some o => rw [hq] at h; simp at h
  | some o =>
    rw [hp] at h
    cases hq : find q.options n with
    | none => rw [hq] at h; simp at h
    | some o' =>
      rw [hq] at h
      simp only [Option.map_some', Option.some.injEq] at h
      simp only [h]

theorem elem_call_value_keep (o : option_base τ V) (c : Call)
    (h : ∀ v, c ≠ Call.value o._name v) : (elem_call o c).value = o.value := by
  cases c with
  | flag n => simp only [elem_call]; split <;> rfl
  | value n v =>
    simp only [elem_call]
    split
    · rename_i hn
      exact absurd (hn ▸ rfl) (h v)
    · rfl
  | error m => rfl
  | other t => rfl

theorem elem_calls_value_keep (cs : List Call) (o : option_base τ V)
    (h : ∀ v, Call.value o._name v ∉ cs) : (elem_calls cs o).value = o.value := by
  unfold elem_calls
  induction cs generalizing o with
  | nil => rfl
  | cons c cs ih =>
    rw [List.foldl_cons]
    have h1 : ∀ v, c ≠ Call.value o._name v := fun v hc => h v (hc ▸ List.mem_cons_self _ _)
    have h2 : ∀ v, Call.value (elem_call o c)._name v ∉ cs := by
      intro v hv
      rw [elem_call_name] at hv
      exact h v (List.mem_cons_of_mem _ hv)
    rw [ih _ h2, elem_call_value_keep o c h1]

theorem mem_supplied_values (os : List (option_base τ V)) (name : Str) (argv : List Str)
    (lk : List (Char × Str)) (h : (build_lookup os []).2 = .ok lk) (v : Str) :
    v ∈ supplied_values os name argv ↔ Call.value name v ∈ scan_calls lk os argv.tail := by
  unfold supplied_values
  rw [h]
  simp only [List.mem_filterMap]
  constructor
  · rintro ⟨c, hc, hv⟩
    cases c with
    | value n w =>
      simp only at hv
      split at hv
      · rename_i hn
        simp only [Option.some.injEq] at hv
        rw [← hn, ← hv]; exact hc
      · simp at hv
    | flag n => simp at hv
    | error m => simp at hv
    | other t => simp at hv
  · intro hc
    exact ⟨_, hc, by simp⟩

theorem supplied_values_congr {os os' : List (option_base τ V)}
    (h : os.map decl = os'.map decl) (name : Str) (argv : List Str) :
    supplied_values os name argv = supplied_values os' name argv := by
  unfold supplied_values
  rw [build_lookup_congr os os' [] h]
  cases (build_lookup os' []).2 with
  | error c => rfl
  | ok lk => simp only [scan_calls_congr lk h]

theorem elem_calls_name (cs : List Call) (o : option_base τ V) :
    (elem_calls cs o)._name = o._name := by
  have h := congrArg option_base._name (decl_elem_calls cs o)
  exact h

theorem scanned_name (cs : List Call) (o : option_base τ V) :
    (elem_calls cs (o.set false).2)._name = o._name := elem_calls_name cs _

/-- A parse that hands no value text to an option leaves what `get` returns for it. -/
theorem parse_get_not_supplied [DecidableEq τ] (p : parser τ V) (argv : List Str) (ty : τ)
    (n : Str) (h : supplied_values p.options n argv = []) :
    (p.parse argv).2.get ty n = p.get ty n := by
  apply get_congr
  cases argv with
  | nil => rw [parse_nil]
  | cons a0 rest =>
    cases hb : (build_lookup p.options []).2 with
    | error c => rw [parse_ambiguous p a0 rest c hb]; exact build_lookup_find_value _ _ _
    | ok lk =>
      rw [parse_ok p a0 rest lk hb]
      simp only
      rw [find_map_name _ (scanned_name _)]
      cases ho : find p.options n with
      | none => rfl
      | some o =>
        simp only [Option.map_some', Option.some.injEq]
        have hn : o._name = n := find_some_name ho
        rw [elem_calls_value_keep]
        · rfl
        · intro v hv
          have hv' : Call.value n v ∈ scan_calls lk p.options (a0 :: rest).tail := by
            rw [← hn]; exact hv
          rw [← mem_supplied_values p.options n (a0 :: rest) lk hb, h] at hv'
          simp at hv'

theorem parses_get_not_supplied [DecidableEq τ] (p : parser τ V) (argvs : List (List Str))
    (ty : τ) (n : Str) (h : ∀ argv ∈ argvs, supplied_values p.options n argv = []) :
    (argvs.foldl (fun q argv => (q.parse argv).2) p).get ty n = p.get ty n := by
  induction argvs generalizing p with
  | nil => rfl
  | cons a as ih =>
    rw [List.foldl_cons, ih]
    · exact parse_get_not_supplied p a ty n (h a (List.mem_cons_self _ _))
    · intro argv hargv
      rw [supplied_values_congr (parse_decl p a)]
      exact h argv (List.mem_cons_of_mem _ hargv)

/-! ## What the lookup holds -/

theorem lookup_count_cons (e : Char × Str) (lk : List (Char × Str)) (c : Char) :
    lookup_count (e :: lk) c = (decide (e.1 = c) || lookup_count lk c) := by
  simp [lookup_count]

theorem lookup_at_cons (e : Char × Str) (lk : List (Char × Str)) (c : Char) :
    lookup_at (e :: lk) c = if e.1 = c then e.2 else lookup_at lk c := by
  unfold lookup_at
  by_cases h : e.1 = c <;> simp [List.find?, h]

/-- The first loop keeps the entries that the lookup holds already. -/
theorem build_lookup_keep (os : List (option_base τ V)) (lk0 lk : List (Char × Str))
    (h : (build_lookup os lk0).2 = .ok lk) (c : Char) (hc : lookup_count lk0 c = true) :
    lookup_count lk c = true ∧ lookup_at lk c = lookup_at lk0 c := by
  induction os generalizing lk0 with
  | nil =>
    simp only [build_lookup, Except.ok.injEq] at h
    subst h
    exact ⟨hc, rfl⟩
  | cons o os ih =>
    by_cases h1 : o._name.length = 0
    · rw [build_lookup_cons_empty o os lk0 h1] at h
      exact ih lk0 h hc
    · by_cases h2 : o._short_name = Char.ofNat 0
      · rw [build_lookup_cons_noshort o os lk0 h1 h2] at h
        exact ih lk0 h hc
      · by_cases h3 : lookup_count lk0 o._short_name = true
        · rw [build_lookup_cons_dup o os lk0 h1 h2 h3] at h
          simp at h
        · rw [build_lookup_cons_new o os lk0 h1 h2 h3] at h
          have hne : o._short_name ≠ c := by
            intro e; rw [e] at h3; exact h3 hc
          have hc' : lookup_count ((o._short_name, o._name) :: lk0) c = true := by
            rw [lookup_count_cons]; simp [hc]
          obtain ⟨k1, k2⟩ := ih _ h hc'
          refine ⟨k1, ?_⟩
          rw [k2, lookup_at_cons]
          simp [hne]

/-- Every entry of the lookup was there before the loop or comes from a declared option with
a non-empty long name. -/
theorem build_lookup_sound (os : List (option_base τ V)) (lk0 lk : List (Char × Str))
    (h : (build_lookup os lk0).2 = .ok lk) (c : Char) (hc : lookup_count lk c = true) :
    lookup_count lk0 c = true
    ∨ ∃ o ∈ os, o._short_name = c ∧ o._name = lookup_at lk c ∧ o._name.length ≠ 0 := by
  induction os generalizing lk0 with
  | nil =>
    simp only [build_lookup, Except.ok.injEq] at h
    subst h
    exact Or.inl hc
  | cons o os ih =>
    have lift : (∃ x ∈ os, x._short_name = c ∧ x._name = lookup_at lk c ∧ x._name.length ≠ 0) →
        ∃ x ∈ o :: os, x._short_name = c ∧ x._name = lookup_at lk c ∧ x._name.length ≠ 0 := by
      rintro ⟨x, hx, hx'⟩
      exact ⟨x, List.mem_cons_of_mem _ hx, hx'⟩
    by_cases h1 : o._name.length = 0
    · rw [build_lookup_cons_empty o os lk0 h1] at h
      exact (ih lk0 h).imp id lift
    · by_cases h2 : o._short_name = Char.ofNat 0
      · rw [build_lookup_cons_noshort o os lk0 h1 h2] at h
        exact (ih lk0 h).imp id lift
      · by_cases h3 : lookup_count lk0 o._short_name = true
        · rw [build_lookup_cons_dup o os lk0 h1 h2 h3] at h
          simp at h
        · rw [build_lookup_cons_new o os lk0 h1 h2 h3] at h
          rcases ih _ h with k | k
          · by_cases hs : o._short_name = c
            · right
              have hk := (build_lookup_keep os _ lk h c k).2
              rw [lookup_at_cons] at hk
              simp only [hs, if_true] at hk
              exact ⟨o, List.mem_cons_self _ _, hs, hk.symm, h1⟩
            · left
              rw [lookup_count_cons] at k
              simpa [hs] using k
          · exact Or.inr (lift k)

/-- Every declared option with a non-empty long name and a short name is in the lookup. -/
theorem build_lookup_complete (os : List (option_base τ V)) (lk0 lk : List (Char × Str))
    (h : (build_lookup os lk0).2 = .ok lk) (o : option_base τ V) (ho : o ∈ os)
    (hn : o._name.length ≠ 0) (hs : o._short_name ≠ Char.ofNat 0) :
    lookup_count lk o._short_name = true ∧ lookup_at lk o._short_name = o._name := by
  induction os generalizing lk0 with
  | nil => simp at ho
  | cons x os ih =>
    by_cases h1 : x._name.length = 0
    · rw [build_lookup_cons_empty x os lk0 h1] at h
      rcases List.mem_cons.1 ho with e | e
      · subst e; exact absurd h1 hn
      · exact ih lk0 h e
    · by_cases h2 : x._short_name = Char.ofNat 0
      · rw [build_lookup_cons_noshort x os lk0 h1 h2] at h
        rcases List.mem_cons.1 ho with e | e
        · subst e; exact absurd h2 hs
        · exact ih lk0 h e
      · by_cases h3 : lookup_count lk0 x._short_name = true
        · rw [build_lookup_cons_dup x os lk0 h1 h2 h3] at h
          simp at h
        · rw [build_lookup_cons_new x os lk0 h1 h2 h3] at h
          rcases List.mem_cons.1 ho with e | e
          · subst e
            have hc : lookup_count ((o._short_name, o._name) :: lk0) o._short_name = true := by
              rw [lookup_count_cons]; simp
            obtain ⟨k1, k2⟩ := build_lookup_keep os _ lk h _ hc
            refine ⟨k1, ?_⟩
            rw [k2, lookup_at_cons]
            simp
          · exact ih _ h e

theorem short_names_cons_skip (o : option_base τ V) (os : List (option_base τ V))
    (h : o._name.length = 0 ∨ o._short_name = Char.ofNat 0) :
    short_names (o :: os) = short_names os := by
  unfold short_names
  rcases h with h | h <;> simp [List.filter, h]

theorem short_names_cons_keep (o : option_base τ V) (os : List (option_base τ V))
    (h1 : ¬ o._name.length = 0) (h2 : ¬ o._short_name = Char.ofNat 0) :
    short_names (o :: os) = o._short_name :: short_names os := by
  unfold short_names
  simp [List.filter, h1, h2]

/-- The first loop builds the lookup exactly when no short name occurs twice (and none is in
the lookup at the start). -/
theorem build_lookup_ok_iff (os : List (option_base τ V)) (lk0 : List (Char × Str)) :
    (∃ lk, (build_lookup os lk0).2 = .ok lk)
    ↔ ((short_names os).Nodup ∧ ∀ c ∈ short_names os, lookup_count lk0 c = false) := by
  induction os generalizing lk0 with
  | nil => simp [build_lookup, short_names]
  | cons o os ih =>
    by_cases h1 : o._name.length = 0
    · rw [build_lookup_cons_empty o os lk0 h1, short_names_cons_skip o os (Or.inl h1)]
      exact ih lk0
    · by_cases h2 : o._short_name = Char.ofNat 0
      · rw [build_lookup_cons_noshort o os lk0 h1 h2, short_names_cons_skip o os (Or.inr h2)]
        exact ih lk0
      · rw [short_names_cons_keep o os h1 h2]
        by_cases h3 : lookup_count lk0 o._short_name = true
        · rw [build_lookup_cons_dup o os lk0 h1 h2 h3]
          constructor
          · rintro ⟨lk, h⟩; simp at h
          · rintro ⟨-, h⟩
            have := h o._short_name (List.mem_cons_self _ _)
            rw [h3] at this
            simp at this
        · rw [build_lookup_cons_new o os lk0 h1 h2 h3, ih, List.nodup_cons]
          have h3' : lookup_count lk0 o._short_name = false := by simpa using h3
          constructor
          · rintro ⟨hn, hc⟩
            refine ⟨⟨?_, hn⟩, ?_⟩
            · intro hm
              have := hc _ hm
              rw [lookup_count_cons] at this
              simp at this
            · intro c hcm
              rcases List.mem_cons.1 hcm with e | e
              · rw [e]; exact h3'
              · have := hc c e
                rw [lookup_count_cons] at this
                simp only [Bool.or_eq_false_iff] at this
                exact this.2
          · rintro ⟨⟨hnm, hn⟩, hc⟩
            refine ⟨hn, ?_⟩
            intro c hcm
            rw [lookup_count_cons]
            have hne : o._short_name ≠ c := fun e => hnm (e ▸ hcm)
            simp [hne, hc c (List.mem_cons_of_mem _ hcm)]

/-- No short-name collision: the first loop of `parse` builds a lookup. -/
theorem build_lookup_ok_of_nodup (os : List (option_base τ V))
    (h : (short_names os).Nodup) : ∃ lk, (build_lookup os []).2 = .ok lk :=
  (build_lookup_ok_iff os []).2 ⟨h, fun _ _ => rfl⟩

/-! ## Lemmas on token lists -/

theorem step_calls_taken_indep (lk : List (Char × Str)) (os : List (option_base τ V))
    (a b b' : Str) : (step_calls lk os a (some b)).1 = (step_calls lk os a (some b')).1 := by
  unfold step_calls
  by_cases h1 : a.take 2 = ['-', '-']
  · simp only [h1, if_true]
    split
    · rfl
    · split
      · rfl
      · split <;> rfl
  · simp only [h1, if_false]
    by_cases h2 : a.take 1 = ['-']
    · simp only [h2, if_true]
      cases a.drop 1 with
      | nil => rfl
      | cons c cs =>
        simp only
        split
        · rfl
        · split
          · rfl
          · split <;> rfl
    · simp only [h2, if_false]

theorem step_calls_not_taken (lk : List (Char × Str)) (os : List (option_base τ V))
    (a b : Str) (h : (step_calls lk os a (some b)).1 = false) :
    (step_calls lk os a (some b)).2 = (step_calls lk os a none).2 := by
  unfold step_calls at h ⊢
  by_cases h1 : a.take 2 = ['-', '-']
  · simp only [h1, if_true] at h ⊢
    split
    · rfl
    · split
      · rfl
      · split
        · rename_i h3 h4 h5
          simp [h3, h4, h5] at h
        · rfl
  · simp only [h1, if_false] at h ⊢
    by_cases h2 : a.take 1 = ['-']
    · simp only [h2, if_true] at h ⊢
      cases h3 : a.drop 1 with
      | nil => rfl
      | cons c cs =>
        simp only [h3] at h ⊢
        split
        · rfl
        · split
          · rfl
          · split
            · rename_i h4 h5 h6
              simp [h4, h5, h6] at h
            · rfl
    · simp only [h2, if_false]

/-- The calls on a token list that follows a list whose scan stops at its end. -/
theorem scan_calls_append (lk : List (Char × Str)) (os : List (option_base τ V))
    (pre ts : List Str) (hb : boundary lk os pre = true) :
    scan_calls lk os (pre ++ ts) = scan_calls lk os pre ++ scan_calls lk os ts := by
  induction pre using boundary.induct lk os with
  | case1 => rfl
  | case2 a =>
    simp only [boundary, Bool.not_eq_true'] at hb
    cases ts with
    | nil => simp [scan_calls]
    | cons b rest =>
      have h1 : (step_calls lk os a (some b)).1 = false := by
        rw [step_calls_taken_indep lk os a b []]; exact hb
      simp only [List.singleton_append, scan_calls, h1, Bool.false_eq_true, if_false,
        step_calls_not_taken lk os a b h1]
  | case3 a b rest h ih =>
    rw [boundary, if_pos h] at hb
    rw [List.cons_append, List.cons_append, scan_calls, if_pos h, scan_calls, if_pos h, ih hb,
      List.append_assoc]
  | case4 a b rest h ih =>
    rw [boundary, if_neg h] at hb
    rw [List.cons_append, List.cons_append, scan_calls, if_neg h, scan_calls, if_neg h,
      ← List.cons_append, ih hb, List.append_assoc]

theorem has_value_at_count {os : List (option_base τ V)} {n : Str}
    (h : has_value_at os n = true) : count os n = true := by
  rw [count_eq_find]
  unfold has_value_at at h
  cases hf : find os n with
  | none => rw [hf] at h; simp at h
  | some o => rfl

theorem scan_calls_cons_not_taken (lk : List (Char × Str)) (os : List (option_base τ V))
    (a : Str) (ts : List Str) (h : ∀ b, (step_calls lk os a (some b)).1 = false) :
    scan_calls lk os (a :: ts) = (step_calls lk os a none).2 ++ scan_calls lk os ts := by
  cases ts with
  | nil => simp [scan_calls]
  | cons b rest =>
    rw [scan_calls, if_neg (by rw [h b]; simp), step_calls_not_taken lk os a b (h b)]

theorem count_false_find {os : List (option_base τ V)} {n : Str} (h : count os n = false) :
    find os n = none := by
  rw [count_eq_find] at h
  cases hf : find os n with
  | none => rfl
  | some o => rw [hf] at h; simp at h

theorem takeWhile_not_mem (c : Char) (l : List Char) (h : c ∉ l) :
    l.takeWhile (fun x => x ≠ c) = l := by
  rw [List.takeWhile_eq_self_iff]
  intro x hx
  have : x ≠ c := fun e => h (e ▸ hx)
  simpa using this

/-- A token that names an undeclared option makes the loop body record its undefined-option
error, and takes no following token. -/
theorem step_calls_undeclared (lk : List (Char × Str)) (os : List (option_base τ V))
    (hlk : (build_lookup os []).2 = .ok lk) (t : Str) (h : names_undeclared os t = true)
    (next : Option Str) :
    (step_calls lk os t next).1 = false
    ∧ errors_of os (step_calls lk os t next).2 = [undefined_error t] := by
  unfold names_undeclared at h
  unfold step_calls undefined_error
  by_cases h1 : t.take 2 = ['-', '-']
  · simp only [h1, if_true, Bool.not_eq_true'] at h ⊢
    by_cases h2 : '=' ∈ t.drop 2
    · simp only [h2, if_true, errors_of, call_errors, List.append_nil, true_and]
      unfold long_name at h ⊢
      rw [count_false_find h]
    · have e : long_name t = t.drop 2 := takeWhile_not_mem _ _ h2
      rw [e] at h ⊢
      simp [h2, h, errors_of, call_errors]
  · simp only [h1, if_false] at h ⊢
    rcases t with _ | ⟨d, _ | ⟨x, _ | ⟨y, r⟩⟩⟩
    · simp at h
    · simp at h
    · simp only [Bool.and_eq_true, decide_eq_true_eq, List.all_eq_true] at h
      obtain ⟨hd, hx⟩ := h
      subst hd
      have hl : lookup_count lk x = false := by
        cases hc : lookup_count lk x with
        | false => rfl
        | true =>
          rcases build_lookup_sound os [] lk hlk x hc with k | ⟨o, ho, hs, -, -⟩
          · simp [lookup_count] at k
          · exact absurd hs (by simpa using hx o ho)
      simp [cluster_calls, hl, errors_of, call_errors]
    · simp at h

theorem valid_of_not_must (o : option_base τ V) (h : o.must = false) : o.valid = true := by
  unfold option_base.must at h
  unfold option_base.valid
  cases hv : o.value with
  | none => rfl
  | some w => rw [hv] at h; simp only at h; simp [h]

theorem must_decl (o : option_base τ V) : (decl o).must = o.must := by
  unfold option_base.must decl
  cases o.value <;> rfl

theorem need_errors_nil (os : List (option_base τ V)) (h : ∀ o ∈ os, o.valid = true) :
    need_errors os = [] := by
  unfold need_errors
  rw [List.filter_eq_nil_iff.2]
  · rfl
  · intro o ho
    simp [h o ho]

/-! ## Which calls a token list makes -/

theorem mem_scan_calls (lk : List (Char × Str)) (os : List (option_base τ V))
    (ts : List Str) (c : Call) (h : c ∈ scan_calls lk os ts) :
    ∃ t ∈ ts, ∃ next, c ∈ (step_calls lk os t next).2 := by
  induction ts using scan_calls.induct lk os with
  | case1 => simp [scan_calls] at h
  | case2 a => exact ⟨a, List.mem_singleton.2 rfl, none, by simpa [scan_calls] using h⟩
  | case3 a b rest hs ih =>
    rw [scan_calls, if_pos hs, List.mem_append] at h
    rcases h with h | h
    · exact ⟨a, List.mem_cons_self _ _, some b, h⟩
    · obtain ⟨t, ht, k⟩ := ih h
      exact ⟨t, List.mem_cons_of_mem _ (List.mem_cons_of_mem _ ht), k⟩
  | case4 a b rest hs ih =>
    rw [scan_calls, if_neg hs, List.mem_append] at h
    rcases h with h | h
    · exact ⟨a, List.mem_cons_self _ _, some b, h⟩
    · obtain ⟨t, ht, k⟩ := ih h
      exact ⟨t, List.mem_cons_of_mem _ ht, k⟩

/-- The calls of the cluster loop come from characters of the cluster, and so does `last`. -/
theorem mem_cluster_calls (lk : List (Char × Str)) (c : Char) (cs : List Char) :
    (∀ x ∈ (cluster_calls lk c cs).1, ∃ ch ∈ c :: cs, x = cluster_char_call lk ch)
    ∧ (cluster_calls lk c cs).2 ∈ c :: cs := by
  induction cs generalizing c with
  | nil => simp [cluster_calls]
  | cons d ds ih =>
    obtain ⟨h1, h2⟩ := ih d
    constructor
    · intro x hx
      simp only [cluster_calls, List.mem_cons] at hx
      rcases hx with hx | hx
      · exact ⟨c, List.mem_cons_self _ _, hx⟩
      · obtain ⟨ch, hch, e⟩ := h1 x hx
        exact ⟨ch, List.mem_cons_of_mem _ hch, e⟩
    · exact List.mem_cons_of_mem _ h2

/-- The keys of the map are unique: two entries with the same key are the same object. -/
theorem eq_of_name_eq {os : List (option_base τ V)} (hu : (os.map (fun o => o._name)).Nodup)
    {x y : option_base τ V} (hx : x ∈ os) (hy : y ∈ os) (h : x._name = y._name) : x = y :=
  List.inj_on_of_nodup_map hu hx hy h

theorem find_of_mem {os : List (option_base τ V)} (hu : (os.map (fun o => o._name)).Nodup)
    {o : option_base τ V} (ho : o ∈ os) : find os o._name = some o := by
  cases hf : find os o._name with
  | none => exact absurd rfl (find_none_name hf o ho)
  | some x =>
    rw [eq_of_name_eq hu (find_some_mem hf) ho (find_some_name hf)]

theorem dropWhile_head (l : List Char) (h : '=' ∈ l) :
    ∃ r, l = l.takeWhile (fun c => c ≠ '=') ++ '=' :: r := by
  induction l with
  | nil => simp at h
  | cons a l ih =>
    by_cases ha : a = '='
    · subst ha
      exact ⟨l, by simp [List.takeWhile]⟩
    · have hl : '=' ∈ l := by
        rcases List.mem_cons.1 h with e | e
        · exact absurd e.symm ha
        · exact e
      obtain ⟨r, hr⟩ := ih hl
      refine ⟨r, ?_⟩
      have : (a :: l).takeWhile (fun c => c ≠ '=') = a :: l.takeWhile (fun c => c ≠ '=') := by
        simp [List.takeWhile, ha]
      rw [this, List.cons_append, ← hr]

/-- A token that does not name an option makes no call on it. -/
theorem step_calls_not_naming (lk : List (Char × Str)) (os : List (option_base τ V))
    (hlk : (build_lookup os []).2 = .ok lk) (hu : (os.map (fun o => o._name)).Nodup)
    (o : option_base τ V) (ho : o ∈ os) (t : Str)
    (ht : names_option o._name o._short_name t = false) (next : Option Str) (c : Call)
    (hc : c ∈ (step_calls lk os t next).2) :
    c ≠ Call.flag o._name ∧ ∀ v, c ≠ Call.value o._name v := by
  have key : ∀ ch, ch ∈ t.drop 1 → t.take 1 = ['-'] → ¬ t.take 2 = ['-', '-'] →
      lookup_count lk ch = true → lookup_at lk ch ≠ o._name := by
    intro ch hch h1 h2 hl e
    rcases build_lookup_sound os [] lk hlk ch hl with k | ⟨x, hx, hs, hn, -⟩
    · simp [lookup_count] at k
    · have : x = o := eq_of_name_eq hu hx ho (hn.trans e)
      subst this
      unfold names_option at ht
      rw [if_neg h2] at ht
      simp only [h1, hs, decide_True, Bool.true_and, decide_eq_false_iff_not] at ht
      exact ht hch
  have kc : ∀ ch, ch ∈ t.drop 1 → t.take 1 = ['-'] → ¬ t.take 2 = ['-', '-'] →
      cluster_char_call lk ch ≠ Call.flag o._name
      ∧ ∀ v, cluster_char_call lk ch ≠ Call.value o._name v := by
    intro ch hch h1 h2
    unfold cluster_char_call
    by_cases hl : lookup_count lk ch = true
    · by_cases he : (lookup_at lk ch).isEmpty = true
      · simp [hl, he]
      · simp only [hl, he, Bool.not_true, Bool.false_eq_true, if_false]
        exact ⟨fun e => key ch hch h1 h2 hl (Call.flag.inj e), fun v e => Call.noConfusion e⟩
    · simp [hl]
  unfold step_calls at hc
  unfold names_option at ht
  by_cases h1 : t.take 2 = ['-', '-']
  · simp only [h1, if_true, Bool.or_eq_false_iff, decide_eq_false_iff_not] at hc ht
    obtain ⟨ht1, ht2⟩ := ht
    by_cases h2 : '=' ∈ t.drop 2
    · simp only [h2, if_true, List.mem_singleton] at hc
      subst hc
      refine ⟨fun e => Call.noConfusion e, fun v e => ?_⟩
      have e1 := (Call.value.inj e).1
      obtain ⟨r, hr⟩ := dropWhile_head _ h2
      rw [e1] at hr
      apply ht2
      rw [hr, show o._name ++ '=' :: r = (o._name ++ ['=']) ++ r by simp]
      exact List.take_left' (by simp)
    · simp only [h2, if_false] at hc
      by_cases h3 : count os (t.drop 2) = true
      · by_cases h4 : has_value_at os (t.drop 2) = true
        · cases next with
          | none =>
            simp only [h3, h4, Bool.not_true, Bool.false_eq_true, if_false, if_true,
              List.mem_singleton] at hc
            subst hc
            exact ⟨fun e => Call.noConfusion e, fun v e => Call.noConfusion e⟩
          | some b =>
            simp only [h3, h4, Bool.not_true, Bool.false_eq_true, if_false, if_true,
              List.mem_singleton] at hc
            subst hc
            exact ⟨fun e => Call.noConfusion e, fun v e => ht1 (Call.value.inj e).1⟩
        · simp only [h3, h4, Bool.not_true, Bool.false_eq_true, if_false,
            List.mem_singleton] at hc
          subst hc
          exact ⟨fun e => ht1 (Call.flag.inj e), fun v e => Call.noConfusion e⟩
      · simp only [h3, Bool.not_false, if_true, List.mem_singleton] at hc
        subst hc
        exact ⟨fun e => Call.noConfusion e, fun v e => Call.noConfusion e⟩
  · simp only [h1, if_false] at hc ht
    by_cases h2 : t.take 1 = ['-']
    · simp only [h2, if_true] at hc
      cases h3 : t.drop 1 with
      | nil => simp [h3] at hc
      | cons d ds =>
        simp only [h3] at hc
        obtain ⟨m1, m2⟩ := mem_cluster_calls lk d ds
        rw [← h3] at m1 m2
        have hlast := kc _ m2 h2 h1
        have hmid : ∀ x ∈ (cluster_calls lk d ds).1,
            x ≠ Call.flag o._name ∧ ∀ v, x ≠ Call.value o._name v := by
          intro x hx
          obtain ⟨ch, hch, e⟩ := m1 x hx
          rw [e]
          exact kc ch hch h2 h1
        by_cases h4 : lookup_count lk (cluster_calls lk d ds).2 = true
        · have hk := key _ m2 h2 h1 h4
          by_cases h5 : (lookup_at lk (cluster_calls lk d ds).2).isEmpty = true
          · simp only [h4, h5, Bool.not_true, Bool.false_eq_true, if_false, if_true,
              List.mem_append, List.mem_singleton] at hc
            rcases hc with hc | hc
            · exact hmid c hc
            · subst hc
              exact ⟨fun e => Call.noConfusion e, fun v e => Call.noConfusion e⟩
          · cases next with
            | none =>
              simp only [h4, h5, Bool.not_true, Bool.false_eq_true, if_false,
                List.mem_append, List.mem_singleton] at hc
              rcases hc with hc | hc
              · exact hmid c hc
              · subst hc
                exact ⟨fun e => hk (Call.flag.inj e), fun v e => Call.noConfusion e⟩
            | some b =>
              by_cases h6 : has_value_at os (lookup_at lk (cluster_calls lk d ds).2) = true
              · simp only [h4, h5, h6, Bool.not_true, Bool.false_eq_true, if_false, if_true,
                  List.mem_append, List.mem_singleton] at hc
                rcases hc with hc | hc
                · exact hmid c hc
                · subst hc
                  exact ⟨fun e => Call.noConfusion e, fun v e => hk (Call.value.inj e).1⟩
              · simp only [h4, h5, h6, Bool.not_true, Bool.false_eq_true, if_false,
                  List.mem_append, List.mem_singleton] at hc
                rcases hc with hc | hc
                · exact hmid c hc
                · subst hc
                  exact ⟨fun e => hk (Call.flag.inj e), fun v e => Call.noConfusion e⟩
        · simp only [h4, Bool.not_false, if_true, List.mem_append, List.mem_singleton] at hc
          rcases hc with hc | hc
          · exact hmid c hc
          · subst hc
            exact ⟨fun e => Call.noConfusion e, fun v e => Call.noConfusion e⟩
    · simp only [h2, if_false, List.mem_singleton] at hc
      subst hc
      exact ⟨fun e => Call.noConfusion e, fun v e => Call.noConfusion e⟩

theorem cluster_char_call_error (lk : List (Char × Str)) (ch : Char) (m : Str)
    (h : cluster_char_call lk ch = Call.error m) : m.head? ≠ some 'n' := by
  unfold cluster_char_call at h
  split at h
  · cases h; simp
  · split at h
    · cases h; simp
    · cases h

theorem cluster_calls_error (lk : List (Char × Str)) (c : Char) (cs : List Char) (m : Str)
    (h : Call.error m ∈ (cluster_calls lk c cs).1) : m.head? ≠ some 'n' := by
  obtain ⟨ch, -, e⟩ := (mem_cluster_calls lk c cs).1 _ h
  exact cluster_char_call_error lk ch m e.symm

/-- The errors that the loop body pushes do not start with `n`. -/
theorem step_calls_error (lk : List (Char × Str)) (os : List (option_base τ V)) (t : Str)
    (next : Option Str) (m : Str) (h : Call.error m ∈ (step_calls lk os t next).2) :
    m.head? ≠ some 'n' := by
  unfold step_calls at h
  by_cases h1 : t.take 2 = ['-', '-']
  · simp only [h1, if_true] at h
    by_cases h2 : '=' ∈ t.drop 2
    · simp [h2] at h
    · by_cases h3 : count os (t.drop 2) = true
      · by_cases h4 : has_value_at os (t.drop 2) = true
        · cases next with
          | none =>
            simp only [h2, h3, h4, Bool.not_true, Bool.false_eq_true, if_false, if_true,
              List.mem_singleton, Call.error.injEq] at h
            subst h; simp
          | some b => simp [h2, h3, h4] at h
        · simp [h2, h3, h4] at h
      · simp only [h2, h3, Bool.not_false, if_true, if_false, List.mem_singleton,
          Call.error.injEq] at h
        subst h; simp
  · simp only [h1, if_false] at h
    by_cases h2 : t.take 1 = ['-']
    · simp only [h2, if_true] at h
      cases h3 : t.drop 1 with
      | nil => simp [h3] at h
      | cons d ds =>
        simp only [h3] at h
        by_cases h4 : lookup_count lk (cluster_calls lk d ds).2 = true
        · by_cases h5 : (lookup_at lk (cluster_calls lk d ds).2).isEmpty = true
          · simp only [h4, h5, Bool.not_true, Bool.false_eq_true, if_false, if_true,
              List.mem_append, List.mem_singleton, Call.error.injEq] at h
            rcases h with h | h
            · exact cluster_calls_error lk d ds m h
            · subst h; simp
          · cases next with
            | none =>
              simp only [h4, h5, Bool.not_true, Bool.false_eq_true, if_false,
                List.mem_append, List.mem_singleton] at h
              rcases h with h | h
              · exact cluster_calls_error lk d ds m h
              · cases h
            | some b =>
              by_cases h6 : has_value_at os (lookup_at lk (cluster_calls lk d ds).2) = true
              · simp only [h4, h5, h6, Bool.not_true, Bool.false_eq_true, if_false, if_true,
                  List.mem_append, List.mem_singleton] at h
                rcases h with h | h
                · exact cluster_calls_error lk d ds m h
                · cases h
              · simp only [h4, h5, h6, Bool.not_true, Bool.false_eq_true, if_false,
                  List.mem_append, List.mem_singleton] at h
                rcases h with h | h
                · exact cluster_calls_error lk d ds m h
                · cases h
        · simp only [h4, Bool.not_false, if_true, List.mem_append, List.mem_singleton,
            Call.error.injEq] at h
          rcases h with h | h
          · exact cluster_calls_error lk d ds m h
          · subst h; simp
    · simp [h2] at h

theorem mem_errors_of (os : List (option_base τ V)) (cs : List Call) (e : Str)
    (h : e ∈ errors_of os cs) : ∃ c ∈ cs, e ∈ call_errors os c := by
  induction cs with
  | nil => simp [errors_of] at h
  | cons c cs ih =>
    rw [errors_of, List.mem_append] at h
    rcases h with h | h
    · exact ⟨c, List.mem_cons_self _ _, h⟩
    · obtain ⟨x, hx, k⟩ := ih h
      exact ⟨x, List.mem_cons_of_mem _ hx, k⟩

/-- No error of the scanning loop is a "need option" error. -/
theorem scan_errors_not_need (lk : List (Char × Str)) (os : List (option_base τ V))
    (ts : List Str) (e : Str) (he : e ∈ errors_of os (scan_calls lk os ts)) :
    e.head? ≠ some 'n' := by
  obtain ⟨c, hc, hce⟩ := mem_errors_of os _ e he
  obtain ⟨t, -, next, hs⟩ := mem_scan_calls lk os ts c hc
  cases c with
  | flag n =>
    simp only [call_errors] at hce
    cases hf : find os n with
    | none => rw [hf] at hce; simp only [List.mem_singleton] at hce; subst hce; simp
    | some o => rw [hf] at hce; simp [option_base.set] at hce
  | value n v =>
    simp only [call_errors] at hce
    cases hf : find os n with
    | none => rw [hf] at hce; simp only [List.mem_singleton] at hce; subst hce; simp
    | some o =>
      rw [hf] at hce
      simp only at hce
      split at hce
      · simp only [List.mem_singleton] at hce; subst hce; simp
      · simp at hce
  | error m =>
    simp only [call_errors, List.mem_singleton] at hce
    subst hce
    exact step_calls_error lk os t next e hs
  | other x => simp [call_errors] at hce

/-! ## What the calls do to one option -/

theorem elem_call_not_target (o : option_base τ V) (c : Call)
    (h : c ≠ Call.flag o._name ∧ ∀ v, c ≠ Call.value o._name v) : elem_call o c = o := by
  cases c with
  | flag n =>
    simp only [elem_call]
    split
    · rename_i hn; exact absurd (hn ▸ rfl) h.1
    · rfl
  | value n v =>
    simp only [elem_call]
    split
    · rename_i hn; exact absurd (hn ▸ rfl) (h.2 v)
    · rfl
  | error m => rfl
  | other t => rfl

theorem elem_calls_not_target (cs : List Call) (o : option_base τ V)
    (h : ∀ c ∈ cs, c ≠ Call.flag o._name ∧ ∀ v, c ≠ Call.value o._name v) :
    elem_calls cs o = o := by
  unfold elem_calls
  induction cs with
  | nil => rfl
  | cons c cs ih =>
    rw [List.foldl_cons, elem_call_not_target o c (h c (List.mem_cons_self _ _))]
    exact ih (fun x hx => h x (List.mem_cons_of_mem _ hx))

theorem elem_call_has_mono (o : option_base τ V) (c : Call) (h : o._has = true) :
    (elem_call o c)._has = true := by
  cases c with
  | flag n => simp only [elem_call]; split <;> first | rfl | exact h
  | value n v =>
    simp only [elem_call]
    split
    · cases hr : read_of o v with
      | none => rw [set_string_none o v hr]; exact h
      | some r => exact (set_string_some o v r hr).2.1
    · exact h
  | error m => exact h
  | other t => exact h

theorem elem_calls_has_mono (cs : List Call) (o : option_base τ V) (h : o._has = true) :
    (elem_calls cs o)._has = true := by
  unfold elem_calls
  induction cs generalizing o with
  | nil => exact h
  | cons c cs ih => rw [List.foldl_cons]; exact ih _ (elem_call_has_mono o c h)

theorem read_of_elem_call (o : option_base τ V) (c : Call) (v : Str) :
    read_of (elem_call o c) v = read_of o v := by
  rw [← read_of_decl, decl_elem_call, read_of_decl]

theorem read_of_elem_calls (cs : List Call) (o : option_base τ V) (v : Str) :
    read_of (elem_calls cs o) v = read_of o v := by
  rw [← read_of_decl, decl_elem_calls, read_of_decl]

/-- A value text that the reader accepts marks the option present, whatever follows. -/
theorem elem_calls_has_of_value (cs : List Call) (o : option_base τ V) (v : Str) (r : V)
    (hm : Call.value o._name v ∈ cs) (hr : read_of o v = some r) :
    (elem_calls cs o)._has = true := by
  induction cs generalizing o with
  | nil => simp at hm
  | cons c cs ih =>
    have e : elem_calls (c :: cs) o = elem_calls cs (elem_call o c) := rfl
    rw [e]
    rcases List.mem_cons.1 hm with k | k
    · apply elem_calls_has_mono
      rw [← k]
      simp only [elem_call, if_true]
      exact (set_string_some o v r hr).2.1
    · apply ih
      · rw [elem_call_name]; exact k
      · rw [read_of_elem_call]; exact hr

/-- A `set_option(name)` call marks the option present, whatever follows. -/
theorem elem_calls_has_of_flag (cs : List Call) (o : option_base τ V)
    (hm : Call.flag o._name ∈ cs) : (elem_calls cs o)._has = true := by
  induction cs generalizing o with
  | nil => simp at hm
  | cons c cs ih =>
    have e : elem_calls (c :: cs) o = elem_calls cs (elem_call o c) := rfl
    rw [e]
    rcases List.mem_cons.1 hm with k | k
    · apply elem_calls_has_mono
      rw [← k]
      simp [elem_call, option_base.set]
    · apply ih
      rw [elem_call_name]; exact k

/-! ## Lemmas on parsing twice -/

/-- An option object is its declaration, its presence flag and the value it holds. -/
theorem option_ext (x y : option_base τ V) (hd : decl x = decl y) (hh : x._has = y._has)
    (ha : actual x = actual y) : x = y := by
  obtain ⟨xn, xs, xd, xh, xv⟩ := x
  obtain ⟨yn, ys, yd, yh, yv⟩ := y
  simp only [decl, option_base.mk.injEq] at hd
  obtain ⟨h1, h2, h3, -, h5⟩ := hd
  simp only [actual] at ha
  simp only at hh
  subst h1 h2 h3 hh
  congr
  cases xv with
  | none =>
    cases yv with
    | none => rfl
    | some wy => simp at h5
  | some wx =>
    cases yv with
    | none => simp at h5
    | some wy =>
      obtain ⟨a1, a2, a3, a4, a5⟩ := wx
      obtain ⟨b1, b2, b3, b4, b5⟩ := wy
      simp only [Option.map_some', Option.some.injEq, option_with_value.mk.injEq] at h5 ha
      obtain ⟨e1, e2, e3, -, e5⟩ := h5
      subst e1 e2 e3 e5 ha
      rfl

/-- One call on two objects with the same declaration and the same flag: either the results
are equal, or the flags stay equal and neither held value changes. -/
theorem elem_call_pair (x y : option_base τ V) (c : Call) (hd : decl x = decl y)
    (hh : x._has = y._has) :
    elem_call x c = elem_call y c
    ∨ ((elem_call x c)._has = (elem_call y c)._has ∧ actual (elem_call x c) = actual x
        ∧ actual (elem_call y c) = actual y) := by
  have hn : x._name = y._name := by
    have := congrArg option_base._name hd
    exact this
  cases c with
  | flag n =>
    right
    simp only [elem_call, ← hn]
    split
    · exact ⟨rfl, rfl, rfl⟩
    · exact ⟨hh, rfl, rfl⟩
  | value n v =>
    simp only [elem_call, ← hn]
    split
    · have hr : read_of x v = read_of y v := by
        rw [← read_of_decl x, ← read_of_decl y, hd]
      cases hx : read_of x v with
      | none =>
        right
        rw [set_string_none x v hx, set_string_none y v (hr ▸ hx)]
        exact ⟨hh, rfl, rfl⟩
      | some r =>
        left
        obtain ⟨-, x2, x3⟩ := set_string_some x v r hx
        obtain ⟨-, y2, y3⟩ := set_string_some y v r (hr ▸ hx)
        apply option_ext
        · rw [decl_set_string_obj, decl_set_string_obj, hd]
        · rw [x2, y2]
        · rw [x3, y3]
    · exact Or.inr ⟨hh, rfl, rfl⟩
  | error m => exact Or.inr ⟨hh, rfl, rfl⟩
  | other t => exact Or.inr ⟨hh, rfl, rfl⟩

/-- A sequence of calls on two objects with the same declaration and the same flag: the flags
end equal, and the held values end equal or are both unchanged. -/
theorem elem_calls_pair (cs : List Call) (x y : option_base τ V) (hd : decl x = decl y)
    (hh : x._has = y._has) :
    (elem_calls cs x)._has = (elem_calls cs y)._has
    ∧ (actual (elem_calls cs x) = actual (elem_calls cs y)
      ∨ (actual (elem_calls cs x) = actual x ∧ actual (elem_calls cs y) = actual y)) := by
  induction cs generalizing x y with
  | nil => exact ⟨hh, Or.inr ⟨rfl, rfl⟩⟩
  | cons c cs ih =>
    have e : ∀ z : option_base τ V, elem_calls (c :: cs) z = elem_calls cs (elem_call z c) :=
      fun _ => rfl
    rw [e x, e y]
    rcases elem_call_pair x y c hd hh with h | ⟨h1, h2, h3⟩
    · rw [h]; exact ⟨rfl, Or.inl rfl⟩
    · have hd' : decl (elem_call x c) = decl (elem_call y c) := by
        rw [decl_elem_call, decl_elem_call, hd]
      obtain ⟨k1, k2⟩ := ih _ _ hd' h1
      refine ⟨k1, ?_⟩
      rcases k2 with k | ⟨k, k'⟩
      · exact Or.inl k
      · exact Or.inr ⟨k.trans h2, k'.trans h3⟩

/-- The options that a scan leaves are left as they are by the same scan run again. -/
theorem elem_calls_idem (cs : List Call) (o : option_base τ V) :
    elem_calls cs ((elem_calls cs (o.set false).2).set false).2
      = elem_calls cs (o.set false).2 := by
  have hd : decl ((elem_calls cs (o.set false).2).set false).2 = decl (o.set false).2 := by
    rw [decl_set_false, decl_elem_calls]
  obtain ⟨h1, h2⟩ := elem_calls_pair cs _ _ hd rfl
  apply option_ext
  · rw [decl_elem_calls, decl_elem_calls, hd]
  · exact h1
  · rcases h2 with h | ⟨h, -⟩
    · exact h
    · exact h

theorem prog_name_idem (x a0 : Str) :
    (if (if x.isEmpty then a0 else x).isEmpty then a0 else (if x.isEmpty then a0 else x))
      = (if x.isEmpty then a0 else x) := by
  by_cases h : x.isEmpty = true
  · simp [h]
  · simp [h]

/-! ## The need-option errors -/

theorem valid_of_has (o : option_base τ V) (h : o._has = true) : o.valid = true := by
  unfold option_base.valid
  cases o.value with
  | none => rfl
  | some w => simp [h]

theorem mem_need_errors (os : List (option_base τ V)) (e : Str) :
    e ∈ need_errors os ↔ ∃ o ∈ os, o.valid = false ∧ e = "need option: --".toList ++ o._name := by
  unfold need_errors
  simp only [List.mem_map, List.mem_filter]
  constructor
  · rintro ⟨o, ⟨ho, hv⟩, rfl⟩
    exact ⟨o, ho, by simpa using hv, rfl⟩
  · rintro ⟨o, ho, hv, rfl⟩
    exact ⟨o, ⟨ho, by simp [hv]⟩, rfl⟩

/-- The calls of a token list none of whose tokens names the option leave the option as it
is. -/
theorem scan_not_naming (lk : List (Char × Str)) (os : List (option_base τ V))
    (hlk : (build_lookup os []).2 = .ok lk) (hu : (os.map (fun o => o._name)).Nodup)
    (o : option_base τ V) (ho : o ∈ os) (toks : List Str)
    (ht : ∀ t ∈ toks, names_option o._name o._short_name t = false) (x : option_base τ V)
    (hx : x._name = o._name) : elem_calls (scan_calls lk os toks) x = x := by
  apply elem_calls_not_target
  intro c hc
  obtain ⟨t, htm, next, hs⟩ := mem_scan_calls lk os toks c hc
  rw [hx]
  exact step_calls_not_naming lk os hlk hu o ho t (ht t htm) next c hs

theorem need_errors_cons (x : option_base τ V) (xs : List (option_base τ V)) :
    need_errors (x :: xs)
      = (if x.valid then [] else ["need option: --".toList ++ x._name]) ++ need_errors xs := by
  unfold need_errors
  by_cases h : x.valid = true <;> simp [List.filter, h]

/-- The need-option errors of two runs that differ only on the option `name`, present after
the first run. -/
theorem need_errors_filter (os : List (option_base τ V)) (gA gB : option_base τ V →
    option_base τ V) (name : Str)
    (hne : ∀ x ∈ os, x._name ≠ name → gA x = gB x)
    (hv : ∀ x ∈ os, x._name = name → (gA x).valid = true)
    (hnB : ∀ x, (gB x)._name = x._name) :
    need_errors (os.map gA) = (need_errors (os.map gB)).filter
      (fun e => decide (e ≠ "need option: --".toList ++ name)) := by
  induction os with
  | nil => rfl
  | cons x xs ih =>
    have ih' := ih (fun y hy => hne y (List.mem_cons_of_mem _ hy))
      (fun y hy => hv y (List.mem_cons_of_mem _ hy))
    rw [List.map_cons, List.map_cons, need_errors_cons, need_errors_cons, List.filter_append,
      ← ih']
    congr 1
    by_cases hx : x._name = name
    · rw [hv x (List.mem_cons_self _ _) hx]
      by_cases hb : (gB x).valid = true
      · simp [hb]
      · simp [hb, hnB, hx]
    · rw [hne x (List.mem_cons_self _ _) hx]
      by_cases hb : (gB x).valid = true
      · simp [hb]
      · have : "need option: --".toList ++ (gB x)._name ≠ "need option: --".toList ++ name := by
          intro e
          rw [hnB] at e
          exact hx (List.append_cancel_left e)
        simp only [hb, Bool.false_eq_true, if_false]
        rw [List.filter_cons_of_pos (by simpa using this)]
        rfl

theorem filter_scan_errors (lk : List (Char × Str)) (os : List (option_base τ V))
    (ts : List Str) (name : Str) :
    (errors_of os (scan_calls lk os ts)).filter
        (fun e => decide (e ≠ "need option: --".toList ++ name))
      = errors_of os (scan_calls lk os ts) := by
  rw [List.filter_eq_self]
  intro e he
  have h := scan_errors_not_need lk os ts e he
  have : e ≠ "need option: --".toList ++ name := by
    intro k; rw [k] at h; exact h (by simp)
  simpa using this

/-- The object that an accepted value text leaves, when the declaration is known. -/
theorem value_of_decl_actual (x o : option_base τ V) (w : option_with_value τ V) (v : V)
    (hd : decl x = decl o) (hw : o.value = some w) (ha : actual x = some v) :
    x.value = some { w with _actual := v } := by
  have h := congrArg option_base.value hd
  simp only [decl, hw, Option.map_some'] at h
  unfold actual at ha
  cases hx : x.value with
  | none => rw [hx] at ha; simp at ha
  | some w' =>
    rw [hx] at h ha
    simp only [Option.map_some', Option.some.injEq] at h ha
    obtain ⟨a1, a2, a3, a4, a5⟩ := w'
    obtain ⟨b1, b2, b3, b4, b5⟩ := w
    simp only [option_with_value.mk.injEq] at h ha ⊢
    obtain ⟨e1, e2, e3, -, e5⟩ := h
    subst e1 e2 e3 e5 ha
    simp

theorem get_of_actual [DecidableEq τ] (p : parser τ V) (n : Str) (x o : option_base τ V)
    (w : option_with_value τ V) (v : V) (hf : find p.options n = some x)
    (hd : decl x = decl o) (hw : o.value = some w) (ha : actual x = some v) :
    p.get w.ty n = .ok v := by
  unfold parser.get
  rw [hf]
  simp [value_of_decl_actual x o w v hd hw ha]

theorem exist_of_has (p : parser τ V) (n : Str) (x : option_base τ V)
    (hf : find p.options n = some x) (hh : x._has = true) : p.exist n = .ok true := by
  unfold parser.exist
  rw [hf]
  simp [option_base.has_set, hh]

theorem actual_of_value_eq {x y : option_base τ V} (h : x.value = y.value) :
    actual x = actual y := by
  unfold actual; rw [h]

/-- The option after the calls `cs1`, an accepted value text, and calls `cs2` that hand the
option no further value text: it is present and holds the value read. -/
theorem elem_calls_supplied (cs1 cs2 : List Call) (o : option_base τ V) (t : Str) (r : V)
    (hr : read_of o t = some r) (h2 : ∀ v, Call.value o._name v ∉ cs2) :
    (elem_calls (cs1 ++ Call.value o._name t :: cs2) o)._has = true
    ∧ actual (elem_calls (cs1 ++ Call.value o._name t :: cs2) o) = some r := by
  constructor
  · exact elem_calls_has_of_value _ o t r (by simp) hr
  · rw [elem_calls_append]
    have e : elem_calls (Call.value o._name t :: cs2) (elem_calls cs1 o)
        = elem_calls cs2 (elem_call (elem_calls cs1 o) (Call.value o._name t)) := rfl
    rw [e]
    have hn : (elem_calls cs1 o)._name = o._name := elem_calls_name cs1 o
    have hr1 : read_of (elem_calls cs1 o) t = some r := by rw [read_of_elem_calls]; exact hr
    have hs := (set_string_some (elem_calls cs1 o) t r hr1).2.2
    have e2 : elem_call (elem_calls cs1 o) (Call.value o._name t)
        = ((elem_calls cs1 o).set_string t).2 := by
      simp [elem_call, hn]
    rw [e2, actual_of_value_eq (elem_calls_value_keep cs2 _ (by
      rw [set_string_name, hn]; exact h2)), hs]

/-- The parse of an argument list in which, after tokens whose scan stops at their end, the
loop hands the accepted text `t` to the option, and later hands it no other text. -/
theorem supplied_core [DecidableEq τ] (p : parser τ V) (lk : List (Char × Str))
    (hlk : (build_lookup p.options []).2 = .ok lk)
    (hu : (p.options.map (fun o => o._name)).Nodup)
    (o : option_base τ V) (w : option_with_value τ V) (ho : o ∈ p.options)
    (hw : o.value = some w) (t : Str) (v : V) (hR : w.read t = some v)
    (prog : Str) (before form after : List Str)
    (hb : boundary lk p.options before = true)
    (hafter : supplied_values p.options o._name (prog :: after) = [])
    (hform : scan_calls lk p.options (form ++ after)
      = Call.value o._name t :: scan_calls lk p.options after) :
    (p.parse (prog :: (before ++ form ++ after))).2.get w.ty o._name = .ok v
    ∧ (p.parse (prog :: (before ++ form ++ after))).2.exist o._name = .ok true
    ∧ (p.parse (prog :: (before ++ form ++ after))).2.errors
      = ((p.parse (prog :: (before ++ after))).2.errors).filter
          (fun e => decide (e ≠ "need option: --".toList ++ o._name)) := by
  have hA : scan_calls lk p.options (before ++ form ++ after)
      = scan_calls lk p.options before
        ++ Call.value o._name t :: scan_calls lk p.options after := by
    rw [List.append_assoc, scan_calls_append lk p.options before _ hb, hform]
  have hB : scan_calls lk p.options (before ++ after)
      = scan_calls lk p.options before ++ scan_calls lk p.options after :=
    scan_calls_append lk p.options before _ hb
  have h2 : ∀ x, Call.value o._name x ∉ scan_calls lk p.options after := by
    intro x hx
    have := (mem_supplied_values p.options o._name (prog :: after) lk hlk x).2 hx
    rw [hafter] at this
    simp at this
  have hread : read_of (o.set false).2 t = some v := by
    simp [read_of, option_base.set, hw, hR]
  obtain ⟨s1, s2⟩ := elem_calls_supplied (scan_calls lk p.options before)
    (scan_calls lk p.options after) (o.set false).2 t v hread h2
  have hfo : find p.options o._name = some o := find_of_mem hu ho
  have hpA := parse_ok p prog (before ++ form ++ after) lk hlk
  have hpB := parse_ok p prog (before ++ after) lk hlk
  rw [hA] at hpA
  rw [hB] at hpB
  have hfind : find (p.parse (prog :: (before ++ form ++ after))).2.options o._name
      = some (elem_calls (scan_calls lk p.options before
        ++ Call.value o._name t :: scan_calls lk p.options after) (o.set false).2) := by
    rw [hpA]
    simp only
    rw [find_map_name _ (scanned_name _), hfo]
    rfl
  refine ⟨?_, ?_, ?_⟩
  · exact get_of_actual _ _ _ o w v hfind (by rw [decl_elem_calls, decl_set_false]) hw s2
  · exact exist_of_has _ _ _ hfind s1
  · rw [hpA, hpB]
    simp only
    have hcall : call_errors p.options (Call.value o._name t) = [] := by
      simp only [call_errors, hfo]
      have : (o.set_string t).1 = true := (set_string_some o t v (by
        simp [read_of, hw, hR])).1
      simp [this]
    have hEA : errors_of p.options (scan_calls lk p.options before
          ++ Call.value o._name t :: scan_calls lk p.options after)
        = errors_of p.options (scan_calls lk p.options before
          ++ scan_calls lk p.options after) := by
      rw [errors_of_append, errors_of_append, errors_of, hcall, List.nil_append]
    have hEB := filter_scan_errors lk p.options (before ++ after) o._name
    rw [hB] at hEB
    rw [hEA, List.filter_append, hEB]
    congr 1
    apply need_errors_filter
    · intro x _ hx
      simp only [elem_calls_append]
      have e : elem_calls (Call.value o._name t :: scan_calls lk p.options after)
            (elem_calls (scan_calls lk p.options before) (x.set false).2)
          = elem_calls (scan_calls lk p.options after)
            (elem_call (elem_calls (scan_calls lk p.options before) (x.set false).2)
              (Call.value o._name t)) := rfl
      rw [e, elem_call_not_target]
      rw [scanned_name]
      exact ⟨fun k => Call.noConfusion k, fun y k => hx (Call.value.inj k).1.symm⟩
    · intro x hxm hx
      have : x = o := eq_of_name_eq hu hxm ho hx
      subst this
      exact valid_of_has _ s1
    · intro x
      exact scanned_name _ x

/-! ## The three ways to supply a value -/

theorem takeWhile_append_stop (name rest : List Char) (h : '=' ∉ name) :
    (name ++ '=' :: rest).takeWhile (fun c => c ≠ '=') = name
    ∧ (name ++ '=' :: rest).dropWhile (fun c => c ≠ '=') = '=' :: rest := by
  induction name with
  | nil => simp [List.takeWhile, List.dropWhile]
  | cons a l ih =>
    simp only [List.mem_cons, not_or] at h
    have ha : a ≠ '=' := fun e => h.1 e.symm
    obtain ⟨i1, i2⟩ := ih h.2
    constructor
    · simp only [List.cons_append, List.takeWhile_cons]
      simp only [ne_eq, ha, not_false_eq_true, decide_True, if_true, List.cons.injEq, true_and]
      exact i1
    · simp only [List.cons_append, List.dropWhile_cons]
      simp only [ne_eq, ha, not_false_eq_true, decide_True, if_true]
      exact i2

theorem has_value_at_of_mem {os : List (option_base τ V)}
    (hu : (os.map (fun o => o._name)).Nodup) {o : option_base τ V}
    {w : option_with_value τ V} (ho : o ∈ os) (hw : o.value = some w) :
    has_value_at os o._name = true := by
  unfold has_value_at
  rw [find_of_mem hu ho]
  simp [option_base.has_value, hw]

/-- The token `--name=text`. -/
theorem step_calls_long_eq (lk : List (Char × Str)) (os : List (option_base τ V))
    (name text : Str) (hname : '=' ∉ name) (next : Option Str) :
    step_calls lk os ('-' :: '-' :: (name ++ '=' :: text)) next
      = (false, [Call.value name text]) := by
  obtain ⟨h1, h2⟩ := takeWhile_append_stop name text hname
  simp only [ne_eq, decide_not] at h1 h2
  unfold step_calls
  simp [h1, h2]

/-- The token `--name` of a valued option, followed by a token. -/
theorem step_calls_long (lk : List (Char × Str)) (os : List (option_base τ V))
    (name text : Str) (hname : '=' ∉ name) (hv : has_value_at os name = true) :
    step_calls lk os ('-' :: '-' :: name) (some text) = (true, [Call.value name text]) := by
  unfold step_calls
  simp [hname, hv, has_value_at_count hv]

/-- The token `-c` of a valued option, followed by a token. -/
theorem step_calls_short (lk : List (Char × Str)) (os : List (option_base τ V))
    (c : Char) (name text : Str) (hc : c ≠ '-') (h1 : lookup_count lk c = true)
    (h2 : lookup_at lk c = name) (h3 : name ≠ []) (hv : has_value_at os name = true) :
    step_calls lk os ['-', c] (some text) = (true, [Call.value name text]) := by
  unfold step_calls
  simp [hc, cluster_calls, h1, h2, h3, hv]

/-! ## A cluster of short names -/

theorem cluster_calls_snoc (lk : List (Char × Str)) (fs : List Char) (c d : Char)
    (ds : List Char) (h : d :: ds = fs ++ [c]) :
    cluster_calls lk d ds = (fs.map (cluster_char_call lk), c) := by
  induction fs generalizing d ds with
  | nil =>
    simp only [List.nil_append, List.cons.injEq] at h
    obtain ⟨h1, h2⟩ := h
    subst h1 h2
    rfl
  | cons f fs ih =>
    simp only [List.cons_append, List.cons.injEq] at h
    obtain ⟨h1, h2⟩ := h
    subst h1
    cases ds with
    | nil => simp at h2
    | cons e es =>
      rw [cluster_calls, ih e es h2]
      rfl

/-- The need-option errors, when the options that are not valid are known. -/
theorem need_errors_map_filter (os : List (option_base τ V))
    (g : option_base τ V → option_base τ V) (q : option_base τ V → Bool)
    (hn : ∀ y, (g y)._name = y._name) (hq : ∀ y ∈ os, (g y).valid = !q y) :
    need_errors (os.map g) = (os.filter q).map (fun y => "need option: --".toList ++ y._name) := by
  induction os with
  | nil => rfl
  | cons y ys ih =>
    rw [List.map_cons, need_errors_cons, ih (fun z hz => hq z (List.mem_cons_of_mem _ hz)),
      hq y (List.mem_cons_self _ _), hn]
    cases hy : q y <;> simp [List.filter, hy]

theorem flag_call_errors {os : List (option_base τ V)} {x : option_base τ V}
    (hf : find os x._name = some x) : call_errors os (Call.flag x._name) = [] := by
  simp [call_errors, hf, option_base.set]

theorem errors_of_flags (os : List (option_base τ V)) (flags : List (option_base τ V))
    (hf : ∀ x ∈ flags, find os x._name = some x) :
    errors_of os (flags.map (fun x => Call.flag x._name)) = [] := by
  induction flags with
  | nil => rfl
  | cons x xs ih =>
    rw [List.map_cons, errors_of, flag_call_errors (hf x (List.mem_cons_self _ _)),
      ih (fun y hy => hf y (List.mem_cons_of_mem _ hy))]
    rfl

/-- The second of two `parse(argc, argv)` calls with the same arguments changes nothing. -/
theorem parse_twice (p : parser τ V) (argv : List Str) :
    (p.parse argv).2.parse argv = p.parse argv := by
  cases argv with
  | nil => rw [parse_nil, parse_nil]
  | cons a0 rest =>
    cases hb : (build_lookup p.options []).2 with
    | error c =>
      have hb' : (build_lookup (p.parse (a0 :: rest)).2.options []).2 = .error c := by
        rw [parse_ambiguous p a0 rest c hb]
        simp only [build_lookup_idem, hb]
      rw [parse_ambiguous _ a0 rest c hb', parse_ambiguous p a0 rest c hb]
      simp only [build_lookup_idem, prog_name_idem]
    | ok lk =>
      have hd := parse_decl p (a0 :: rest)
      have hb' : (build_lookup (p.parse (a0 :: rest)).2.options []).2 = .ok lk := by
        rw [build_lookup_congr _ _ [] hd, hb]
      rw [parse_ok _ a0 rest lk hb', scan_calls_congr lk hd, errors_of_congr hd]
      rw [parse_ok p a0 rest lk hb]
      simp only [List.map_map, prog_name_idem]
      have hg : ((fun o : option_base τ V =>
            elem_calls (scan_calls lk p.options rest) (o.set false).2) ∘
          fun o : option_base τ V => elem_calls (scan_calls lk p.options rest) (o.set false).2)
          = fun o : option_base τ V =>
              elem_calls (scan_calls lk p.options rest) (o.set false).2 := by
        funext o
        exact elem_calls_idem _ o
      rw [hg]

/-! ## The keys of the map stay unique -/

theorem map_insert_names (o : option_base τ V) (os : List (option_base τ V)) :
    ((map_insert o os).map (fun x => x._name)).Perm (o._name :: os.map (fun x => x._name)) := by
  induction os with
  | nil => exact List.Perm.refl _
  | cons x xs ih =>
    unfold map_insert
    split
    · exact List.Perm.refl _
    · simp only [List.map_cons]
      exact (List.Perm.cons _ ih).trans (List.Perm.swap _ _ _)

theorem count_false_not_mem {os : List (option_base τ V)} {n : Str} (h : count os n = false) :
    n ∉ os.map (fun x => x._name) := by
  intro hm
  obtain ⟨x, hx, hn⟩ := List.mem_map.1 hm
  exact find_none_name (count_false_find h) x hx hn

/-- Declaring a flag keeps the keys unique. -/
theorem add_keys_unique (p q : parser τ V) (name : Str) (c : Char) (desc : Str)
    (hu : (p.options.map (fun o => o._name)).Nodup) (h : p.add name c desc = .ok q) :
    (q.options.map (fun o => o._name)).Nodup := by
  unfold parser.add at h
  cases hc : count p.options name with
  | true => rw [hc] at h; simp at h
  | false =>
    rw [hc] at h
    simp only [Bool.false_eq_true, if_false, Except.ok.injEq] at h
    subst h
    exact (map_insert_names _ _).nodup_iff.2 (List.nodup_cons.2 ⟨count_false_not_mem hc, hu⟩)

/-- Declaring a valued option keeps the keys unique. -/
theorem add_value_keys_unique (p q : parser τ V) (ty : τ) (tn dv name : Str) (c : Char)
    (desc : Str) (need : Bool) (d : V) (reader : Str → Option V)
    (hu : (p.options.map (fun o => o._name)).Nodup)
    (h : p.add_value ty tn dv name c desc need d reader = .ok q) :
    (q.options.map (fun o => o._name)).Nodup := by
  unfold parser.add_value at h
  cases hc : count p.options name with
  | true => rw [hc] at h; simp at h
  | false =>
    rw [hc] at h
    simp only [Bool.false_eq_true, if_false, Except.ok.injEq] at h
    subst h
    exact (map_insert_names _ _).nodup_iff.2 (List.nodup_cons.2 ⟨count_false_not_mem hc, hu⟩)

/-- A parse keeps the keys. -/
theorem parse_keys (p : parser τ V) (argv : List Str) :
    (p.parse argv).2.options.map (fun o => o._name) = p.options.map (fun o => o._name) := by
  have h := congrArg (List.map (fun o : option_base τ V => o._name)) (parse_decl p argv)
  simpa [List.map_map, Function.comp, decl] using h

/-! ## The readers -/

theorem oneof_foldl {T : Type} (init as : List T) : as.foldl oneof_add init = init ++ as := by
  induction as generalizing init with
  | nil => simp
  | cons a as ih => rw [List.foldl_cons, ih, oneof_add]; simp

/-- The candidate list of `oneof(a1, ..., an)` is the list of the arguments. -/
theorem oneof_eq {T : Type} (as : List T) : oneof as = as := by
  unfold oneof
  rw [oneof_foldl]
  rfl

theorem oneof_reader_some {T : Type} [DecidableEq T] (conv : Str → Option T) (alt : List T)
    (s : Str) (v : T) : oneof_reader conv alt s = some v ↔ (conv s = some v ∧ v ∈ alt) := by
  unfold oneof_reader
  cases h : conv s with
  | none => simp
  | some x =>
    by_cases hx : x ∈ alt
    · have hc : alt.contains x = true := List.elem_iff.2 hx
      simp only [hc, if_true, Option.some.injEq]
      constructor
      · intro k; subst k; exact ⟨rfl, hx⟩
      · rintro ⟨k, -⟩; exact k
    · have hc : ¬ alt.contains x = true := fun k => hx (List.elem_iff.1 k)
      simp only [hc, if_false]
      constructor
      · intro k; cases k
      · rintro ⟨k, k'⟩
        simp only [Option.some.injEq] at k
        subst k
        exact absurd k' hx

theorem oneof_reader_none {T : Type} [DecidableEq T] (conv : Str → Option T) (alt : List T)
    (s : Str) :
    oneof_reader conv alt s = none ↔ (conv s = none ∨ ∃ v, conv s = some v ∧ v ∉ alt) := by
  unfold oneof_reader
  cases h : conv s with
  | none => simp
  | some x =>
    by_cases hx : x ∈ alt
    · have hc : alt.contains x = true := List.elem_iff.2 hx
      simp only [hc, if_true]
      constructor
      · intro k; cases k
      · rintro (k | ⟨v, hv, k⟩)
        · cases k
        · simp only [Option.some.injEq] at hv
          subst hv
          exact absurd hx k
    · have hc : ¬ alt.contains x = true := fun k => hx (List.elem_iff.1 k)
      simp only [hc, Bool.false_eq_true, if_false, true_iff]
      right
      exact ⟨x, rfl, hx⟩

/-! ## Declaring an option -/

theorem count_iff_mem (os : List (option_base τ V)) (n : Str) :
    count os n = true ↔ n ∈ os.map (fun o => o._name) := by
  unfold count
  simp only [List.any_eq_true, decide_eq_true_eq, List.mem_map]

theorem find_map_insert (o : option_base τ V) (os : List (option_base τ V)) (n : Str)
    (h : o._name ∉ os.map (fun x => x._name)) :
    find (map_insert o os) n = if o._name = n then some o else find os n := by
  induction os with
  | nil => rw [map_insert, find_cons]
  | cons x xs ih =>
    have hx : x._name ≠ o._name := by
      intro e
      apply h
      rw [List.map_cons, e]
      exact List.mem_cons_self _ _
    have hxs : o._name ∉ xs.map (fun x => x._name) := by
      intro e
      apply h
      rw [List.map_cons]
      exact List.mem_cons_of_mem _ e
    unfold map_insert
    split
    · rw [find_cons]
    · rw [find_cons, ih hxs, find_cons]
      by_cases hn : o._name = n
      · have : ¬ x._name = n := fun e => hx (e.trans hn.symm)
        simp only [hn, this, if_true, if_false]
      · simp only [hn, if_false]

theorem map_insert_perm (o : option_base τ V) (os : List (option_base τ V)) :
    (map_insert o os).Perm (o :: os) := by
  induction os with
  | nil => exact List.Perm.refl _
  | cons x xs ih =>
    unfold map_insert
    split
    · exact List.Perm.refl _
    · exact (List.Perm.cons _ ih).trans (List.Perm.swap _ _ _)

/-! ## A short name declared twice -/

/-- The character that stops the first loop is a short name met twice. -/
theorem build_lookup_error_char (os : List (option_base τ V)) (lk0 : List (Char × Str))
    (c : Char) (h : (build_lookup os lk0).2 = .error c) :
    c ∈ short_names os ∧ (lookup_count lk0 c = true ∨ 2 ≤ (short_names os).count c) := by
  induction os generalizing lk0 with
  | nil => simp [build_lookup] at h
  | cons o os ih =>
    by_cases h1 : o._name.length = 0
    · rw [build_lookup_cons_empty o os lk0 h1] at h
      rw [short_names_cons_skip o os (Or.inl h1)]
      exact ih lk0 h
    · by_cases h2 : o._short_name = Char.ofNat 0
      · rw [build_lookup_cons_noshort o os lk0 h1 h2] at h
        rw [short_names_cons_skip o os (Or.inr h2)]
        exact ih lk0 h
      · rw [short_names_cons_keep o os h1 h2]
        by_cases h3 : lookup_count lk0 o._short_name = true
        · rw [build_lookup_cons_dup o os lk0 h1 h2 h3] at h
          simp only [Except.error.injEq] at h
          subst h
          exact ⟨List.mem_cons_self _ _, Or.inl h3⟩
        · rw [build_lookup_cons_new o os lk0 h1 h2 h3] at h
          obtain ⟨hm, hk⟩ := ih _ h
          refine ⟨List.mem_cons_of_mem _ hm, ?_⟩
          rw [lookup_count_cons] at hk
          by_cases e : o._short_name = c
          · right
            rw [e, List.count_cons_self]
            have : 0 < (short_names os).count c := List.count_pos_iff.2 hm
            omega
          · rcases hk with hk | hk
            · simp only [e, decide_False, Bool.false_or] at hk
              exact Or.inl hk
            · right
              rw [List.count_cons_of_ne (fun k => e k.symm)]
              exact hk

/-- The first loop changes nothing that `set(false)` does not change. -/
theorem build_lookup_map {β : Type} (f : option_base τ V → β)
    (hf : ∀ o, f (o.set false).2 = f o) (os : List (option_base τ V))
    (lk : List (Char × Str)) : (build_lookup os lk).1.map f = os.map f := by
  induction os generalizing lk with
  | nil => rfl
  | cons o os ih =>
    by_cases h1 : o._name.length = 0
    · rw [build_lookup_cons_empty o os lk h1]
      simp only [List.map_cons, ih, hf]
    · by_cases h2 : o._short_name = Char.ofNat 0
      · rw [build_lookup_cons_noshort o os lk h1 h2]
        simp only [List.map_cons, ih, hf]
      · by_cases h3 : lookup_count lk o._short_name = true
        · rw [build_lookup_cons_dup o os lk h1 h2 h3]
          simp only [List.map_cons, hf]
        · rw [build_lookup_cons_new o os lk h1 h2 h3]
          simp only [List.map_cons, ih, hf]

/-- Two options with non-empty keys and the same short name stop the first loop. -/
theorem build_lookup_shared (os : List (option_base τ V)) (o1 o2 : option_base τ V)
    (h1 : o1 ∈ os) (h2 : o2 ∈ os) (hne : o1._name ≠ o2._name)
    (hn1 : o1._name ≠ []) (hn2 : o2._name ≠ [])
    (hs : o1._short_name = o2._short_name) (hc : o1._short_name ≠ Char.ofNat 0) :
    ∃ c, (build_lookup os []).2 = .error c := by
  cases hb : (build_lookup os []).2 with
  | error c => exact ⟨c, rfl⟩
  | ok lk =>
    exfalso
    have hnd := ((build_lookup_ok_iff os []).1 ⟨lk, hb⟩).1
    unfold short_names at hnd
    have m1 : o1 ∈ os.filter (fun o => decide (¬ o._name.length = 0)
        && decide (¬ o._short_name = Char.ofNat 0)) := by
      rw [List.mem_filter]
      refine ⟨h1, ?_⟩
      have : ¬ o1._name.length = 0 := fun k => hn1 (List.length_eq_zero.1 k)
      simp [this, hc]
    have m2 : o2 ∈ os.filter (fun o => decide (¬ o._name.length = 0)
        && decide (¬ o._short_name = Char.ofNat 0)) := by
      rw [List.mem_filter]
      refine ⟨h2, ?_⟩
      have : ¬ o2._name.length = 0 := fun k => hn2 (List.length_eq_zero.1 k)
      have hc2 : ¬ o2._short_name = Char.ofNat 0 := fun k => hc (hs.trans k)
      simp [this, hc2]
    have := List.inj_on_of_nodup_map hnd m1 m2 hs
    exact hne (by rw [this])

/-! ## The messages of a parse -/

theorem cluster_char_call_message {P : Str → Prop} (hP : parse_messages P)
    (lk : List (Char × Str)) (ch : Char) (m : Str)
    (h : cluster_char_call lk ch = Call.error m) : P m := by
  unfold cluster_char_call at h
  split at h
  · cases h; exact hP.undefined_short _
  · split at h
    · cases h; exact hP.ambiguous_short _
    · cases h

theorem cluster_calls_message {P : Str → Prop} (hP : parse_messages P)
    (lk : List (Char × Str)) (c : Char) (cs : List Char) (m : Str)
    (h : Call.error m ∈ (cluster_calls lk c cs).1) : P m := by
  obtain ⟨ch, -, e⟩ := (mem_cluster_calls lk c cs).1 _ h
  exact cluster_char_call_message hP lk ch m e.symm

theorem step_calls_message {P : Str → Prop} (hP : parse_messages P) (lk : List (Char × Str))
    (os : List (option_base τ V)) (t : Str) (next : Option Str) (m : Str)
    (h : Call.error m ∈ (step_calls lk os t next).2) : P m := by
  unfold step_calls at h
  by_cases h1 : t.take 2 = ['-', '-']
  · simp only [h1, if_true] at h
    by_cases h2 : '=' ∈ t.drop 2
    · simp [h2] at h
    · by_cases h3 : count os (t.drop 2) = true
      · by_cases h4 : has_value_at os (t.drop 2) = true
        · cases next with
          | none =>
            simp only [h2, h3, h4, Bool.not_true, Bool.false_eq_true, if_false, if_true,
              List.mem_singleton, Call.error.injEq] at h
            subst h; exact hP.needs_value _
          | some b => simp [h2, h3, h4] at h
        · simp [h2, h3, h4] at h
      · simp only [h2, h3, Bool.not_false, if_true, if_false, List.mem_singleton,
          Call.error.injEq] at h
        subst h; exact hP.undefined _
  · simp only [h1, if_false] at h
    by_cases h2 : t.take 1 = ['-']
    · simp only [h2, if_true] at h
      cases h3 : t.drop 1 with
      | nil => simp [h3] at h
      | cons d ds =>
        simp only [h3] at h
        by_cases h4 : lookup_count lk (cluster_calls lk d ds).2 = true
        · by_cases h5 : (lookup_at lk (cluster_calls lk d ds).2).isEmpty = true
          · simp only [h4, h5, Bool.not_true, Bool.false_eq_true, if_false, if_true,
              List.mem_append, List.mem_singleton, Call.error.injEq] at h
            rcases h with h | h
            · exact cluster_calls_message hP lk d ds m h
            · subst h; exact hP.ambiguous_short _
          · cases next with
            | none =>
              simp only [h4, h5, Bool.not_true, Bool.false_eq_true, if_false,
                List.mem_append, List.mem_singleton] at h
              rcases h with h | h
              · exact cluster_calls_message hP lk d ds m h
              · cases h
            | some b =>
              by_cases h6 : has_value_at os (lookup_at lk (cluster_calls lk d ds).2) = true
              · simp only [h4, h5, h6, Bool.not_true, Bool.false_eq_true, if_false, if_true,
                  List.mem_append, List.mem_singleton] at h
                rcases h with h | h
                · exact cluster_calls_message hP lk d ds m h
                · cases h
              · simp only [h4, h5, h6, Bool.not_true, Bool.false_eq_true, if_false,
                  List.mem_append, List.mem_singleton] at h
                rcases h with h | h
                · exact cluster_calls_message hP lk d ds m h
                · cases h
        · simp only [h4, Bool.not_false, if_true, List.mem_append, List.mem_singleton,
            Call.error.injEq] at h
          rcases h with h | h
          · exact cluster_calls_message hP lk d ds m h
          · subst h; exact hP.undefined_short _
    · simp [h2] at h

theorem scan_errors_message {P : Str → Prop} (hP : parse_messages P) (lk : List (Char × Str))
    (os : List (option_base τ V)) (ts : List Str) (e : Str)
    (he : e ∈ errors_of os (scan_calls lk os ts)) : P e := by
  obtain ⟨c, hc, hce⟩ := mem_errors_of os _ e he
  obtain ⟨t, -, next, hs⟩ := mem_scan_calls lk os ts c hc
  cases c with
  | flag n =>
    simp only [call_errors] at hce
    cases hf : find os n with
    | none =>
      rw [hf] at hce; simp only [List.mem_singleton] at hce; subst hce
      exact hP.undefined _
    | some o => rw [hf] at hce; simp [option_base.set] at hce
  | value n v =>
    simp only [call_errors] at hce
    cases hf : find os n with
    | none =>
      rw [hf] at hce; simp only [List.mem_singleton] at hce; subst hce
      exact hP.undefined _
    | some o =>
      rw [hf] at hce
      simp only at hce
      split at hce
      · simp only [List.mem_singleton] at hce; subst hce; exact hP.invalid _ _
      · simp at hce
  | error m =>
    simp only [call_errors, List.mem_singleton] at hce
    subst hce
    exact step_calls_message hP lk os t next e hs
  | other x => simp [call_errors] at hce

/-- Every error that `parse(argc, argv)` leaves is one of its messages. -/
theorem parse_errors_message {P : Str → Prop} (hP : parse_messages P) (p : parser τ V)
    (argv : List Str) (e : Str) (he : e ∈ (p.parse argv).2.errors) : P e := by
  cases argv with
  | nil =>
    rw [parse_nil] at he
    simp only [List.mem_singleton] at he
    subst he
    exact hP.argument_number
  | cons a0 rest =>
    cases hb : (build_lookup p.options []).2 with
    | error c =>
      rw [parse_ambiguous p a0 rest c hb] at he
      simp only [List.mem_singleton] at he
      subst he
      exact hP.ambiguous c
    | ok lk =>
      rw [parse_ok p a0 rest lk hb] at he
      simp only [List.mem_append] at he
      rcases he with he | he
      · exact scan_errors_message hP lk p.options rest e he
      · obtain ⟨o, -, -, k⟩ := (mem_need_errors _ e).1 he
        subst k
        exact hP.need _

/-- No message of a parse is empty. -/
theorem messages_not_empty : parse_messages (fun e => e ≠ []) where
  argument_number := by decide
  ambiguous := fun c => by simp
  undefined := fun n => by simp
  undefined_short := fun c => by simp
  ambiguous_short := fun c => by simp
  needs_value := fun n => by simp
  invalid := fun n v => by simp
  need := fun n => by simp

/-- No message of a parse is one of the two messages of the tokenizer. -/
theorem messages_not_tokenizer : parse_messages (fun e =>
    e ≠ "unexpected occurrence of '\\' at end of string".toList
    ∧ e ≠ "quote is not closed".toList) where
  argument_number := by decide
  ambiguous := fun c => ⟨fun h => (by cases h), fun h => (by cases h)⟩
  undefined := fun n => ⟨fun h => (by cases h), fun h => (by cases h)⟩
  undefined_short := fun c => ⟨fun h => (by cases h), fun h => (by cases h)⟩
  ambiguous_short := fun c => ⟨fun h => (by cases h), fun h => (by cases h)⟩
  needs_value := fun n => ⟨fun h => (by cases h), fun h => (by cases h)⟩
  invalid := fun n v => ⟨fun h => (by cases h), fun h => (by cases h)⟩
  need := fun n => ⟨fun h => (by cases h), fun h => (by cases h)⟩

/-! ## Success and the error list -/

theorem parse_true_iff (p : parser τ V) (argv : List Str) :
    (p.parse argv).1 = true ↔ (p.parse argv).2.errors = [] := by
  cases argv with
  | nil => rw [parse_nil]; simp
  | cons a0 rest =>
    cases hb : (build_lookup p.options []).2 with
    | error c => rw [parse_ambiguous p a0 rest c hb]; simp
    | ok lk => rw [parse_ok p a0 rest lk hb]; exact List.isEmpty_iff

theorem error_full_foldl (es : List Str) (acc : Str) :
    es.foldl (fun a e => a ++ e ++ ['\n']) acc = [] ↔ (acc = [] ∧ es = []) := by
  induction es generalizing acc with
  | nil => simp
  | cons e es ih =>
    rw [List.foldl_cons, ih]
    simp

theorem error_full_empty_iff (q : parser τ V) : q.errors = [] ↔ q.error_full = [] := by
  unfold parser.error_full
  rw [error_full_foldl]
  simp

theorem error_empty_of_no_error (q : parser τ V) (h : q.errors = []) : q.error = [] := by
  unfold parser.error
  rw [h]

theorem no_error_of_error_empty (q : parser τ V) (hne : ∀ e ∈ q.errors, e ≠ [])
    (h : q.error = []) : q.errors = [] := by
  unfold parser.error at h
  cases he : q.errors with
  | nil => rfl
  | cons e es =>
    rw [he] at h hne
    exact absurd h (hne e (List.mem_cons_self _ _))

theorem parse_error_empty_iff (p : parser τ V) (argv : List Str) :
    (p.parse argv).2.errors = [] ↔ (p.parse argv).2.error = [] :=
  ⟨error_empty_of_no_error _,
    no_error_of_error_empty _ (fun e he => parse_errors_message messages_not_empty p argv e he)⟩

/-! ## The tokenizer -/

theorem tokenize_quote (cs : List Char) (buf : Str) (q : Bool) (args : List Str) :
    tokenize ('"' :: cs) buf q args = tokenize cs buf (!q) args := by
  cases cs <;> simp [tokenize]

theorem tokenize_space (cs : List Char) (buf : Str) (args : List Str) :
    tokenize (' ' :: cs) buf false args = tokenize cs [] false (args ++ [buf]) := by
  cases cs <;> simp [tokenize]

theorem tokenize_char (c : Char) (cs : List Char) (buf : Str) (q : Bool) (args : List Str)
    (h1 : c ≠ '"') (h2 : c ≠ '\\') (h3 : c = ' ' → q = true) :
    tokenize (c :: cs) buf q args = tokenize cs (buf ++ [c]) q args := by
  by_cases hs : c = ' '
  · have hq := h3 hs
    subst hs
    subst hq
    cases cs <;> simp [tokenize]
  · cases cs <;> simp [tokenize, h1, h2, hs]

theorem tokenize_escape (d : Char) (ds : List Char) (buf : Str) (q : Bool) (args : List Str) :
    tokenize ('\\' :: d :: ds) buf q args = tokenize ds (buf ++ [d]) q args := by
  rw [tokenize]
  simp

theorem tokenize_escape_end (buf : Str) (q : Bool) (args : List Str) :
    tokenize ['\\'] buf q args = none := by
  rw [tokenize]
  simp

/-- Characters without a meaning for the tokenizer go to `buf`. -/
theorem tokenize_plain (w rest : List Char) (buf : Str) (q : Bool) (args : List Str)
    (h : ∀ c ∈ w, c ≠ '"' ∧ c ≠ '\\' ∧ (c = ' ' → q = true)) :
    tokenize (w ++ rest) buf q args = tokenize rest (buf ++ w) q args := by
  induction w generalizing buf with
  | nil => simp
  | cons c w ih =>
    obtain ⟨h1, h2, h3⟩ := h c (List.mem_cons_self _ _)
    rw [List.cons_append, tokenize_char c _ buf q args h1 h2 h3,
      ih _ (fun x hx => h x (List.mem_cons_of_mem _ hx))]
    simp

/-- A word as `quote_word` writes it goes to `buf`, outside quotes before and after. -/
theorem tokenize_quote_word (w rest : List Char) (buf : Str) (args : List Str)
    (h1 : '"' ∉ w) (h2 : '\\' ∉ w) :
    tokenize (quote_word w ++ rest) buf false args = tokenize rest (buf ++ w) false args := by
  unfold quote_word
  by_cases hs : ' ' ∈ w
  · rw [if_pos hs, List.cons_append, tokenize_quote, List.append_assoc, Bool.not_false,
      tokenize_plain w _ buf _ args
        (fun c hc => ⟨fun e => h1 (e ▸ hc), fun e => h2 (e ▸ hc), fun _ => rfl⟩)]
    rw [List.singleton_append, tokenize_quote]
    rfl
  · rw [if_neg hs]
    exact tokenize_plain w rest buf false args
      (fun c hc => ⟨fun e => h1 (e ▸ hc), fun e => h2 (e ▸ hc),
        fun e => absurd (e ▸ hc) hs⟩)

/-- The tokenizer on the joined words: the words before the last are pushed on `args`, the
last one is in `buf`. -/
theorem tokenize_join (ws : List Str) (w : Str) (args : List Str)
    (h : ∀ x ∈ w :: ws, '"' ∉ x ∧ '\\' ∉ x) :
    ∃ buf a, tokenize (join_words (w :: ws)) [] false args = some (buf, false, a)
      ∧ a ++ [buf] = args ++ w :: ws := by
  induction ws generalizing w args with
  | nil =>
    obtain ⟨h1, h2⟩ := h w (List.mem_cons_self _ _)
    refine ⟨w, args, ?_, rfl⟩
    have := tokenize_quote_word w [] [] args h1 h2
    rw [List.append_nil] at this
    rw [join_words, this]
    rfl
  | cons v ws ih =>
    obtain ⟨h1, h2⟩ := h w (List.mem_cons_self _ _)
    obtain ⟨buf, a, k1, k2⟩ := ih v (args ++ [w]) (fun x hx => h x (List.mem_cons_of_mem _ hx))
    refine ⟨buf, a, ?_, ?_⟩
    · rw [join_words, tokenize_quote_word w _ [] args h1 h2, List.nil_append, tokenize_space]
      exact k1
    · rw [k2]; simp

/-- A character that is not a backslash is read alone; a double quote toggles `in_quote`. -/
theorem tokenize_step (c : Char) (cs : List Char) (hc : c ≠ '\\') (buf : Str) (q : Bool)
    (args : List Str) :
    ∃ buf1 args1,
      tokenize (c :: cs) buf q args = tokenize cs buf1 (xor q (decide (c = '"'))) args1 := by
  by_cases h1 : c = '"'
  · subst h1
    refine ⟨buf, args, ?_⟩
    rw [tokenize_quote]
    cases q <;> rfl
  · have hx : xor q (decide (c = '"')) = q := by simp [h1]
    rw [hx]
    by_cases h2 : c = ' ' ∧ q = false
    · obtain ⟨h2, h3⟩ := h2
      subst h2
      subst h3
      exact ⟨[], args ++ [buf], tokenize_space cs buf args⟩
    · refine ⟨buf ++ [c], args, tokenize_char c cs buf q args h1 hc ?_⟩
      intro e
      cases q with
      | true => rfl
      | false => exact absurd ⟨e, rfl⟩ h2

/-- The tokenizer loop leaves by the error exit exactly when the scan from the left, in which a
backslash takes the character after it, ends on a backslash that takes nothing. -/
theorem tokenize_none_iff (s : List Char) :
    ∀ (buf : Str) (q : Bool) (args : List Str),
      tokenize s buf q args = none ↔ ends_in_escape s = true := by
  induction s using ends_in_escape.induct with
  | case1 => intro buf q args; simp [tokenize, ends_in_escape]
  | case2 c =>
    intro buf q args
    by_cases hc : c = '\\'
    · subst hc
      simp [tokenize_escape_end, ends_in_escape]
    · obtain ⟨b1, a1, e⟩ := tokenize_step c [] hc buf q args
      rw [e]
      simp [tokenize, ends_in_escape, hc]
  | case3 d cs ih =>
    intro buf q args
    rw [tokenize_escape, ends_in_escape, if_pos rfl]
    exact ih _ _ _
  | case4 c d cs hc ih =>
    intro buf q args
    obtain ⟨b1, a1, e⟩ := tokenize_step c (d :: cs) hc buf q args
    rw [e, ends_in_escape, if_neg hc]
    exact ih _ _ _

/-- At the end of the tokenizer loop `in_quote` has been toggled once for every double quote
that no backslash took. -/
theorem tokenize_in_quote (s : List Char) :
    ∀ (buf : Str) (q : Bool) (args : List Str) (b : Str) (q1 : Bool) (a : List Str),
      tokenize s buf q args = some (b, q1, a) →
      q1 = xor q (decide (unescaped_quotes s % 2 = 1)) := by
  induction s using unescaped_quotes.induct with
  | case1 =>
    intro buf q args b q1 a h
    simp only [tokenize, Option.some.injEq, Prod.mk.injEq] at h
    rw [← h.2.1]
    simp [unescaped_quotes]
  | case2 =>
    intro buf q args b q1 a h
    rw [tokenize_quote] at h
    simp only [tokenize, Option.some.injEq, Prod.mk.injEq] at h
    rw [← h.2.1]
    simp [unescaped_quotes]
  | case3 c hc =>
    intro buf q args b q1 a h
    by_cases hb : c = '\\'
    · subst hb
      rw [tokenize_escape_end] at h
      cases h
    · obtain ⟨b1, a1, e⟩ := tokenize_step c [] hb buf q args
      rw [e] at h
      simp only [tokenize, Option.some.injEq, Prod.mk.injEq] at h
      rw [← h.2.1]
      simp [unescaped_quotes, hc]
  | case4 d cs ih =>
    intro buf q args b q1 a h
    rw [tokenize_escape] at h
    rw [unescaped_quotes, if_pos rfl]
    exact ih _ _ _ _ _ _ h
  | case5 c d cs hc ih =>
    intro buf q args b q1 a h
    obtain ⟨b1, a1, e⟩ := tokenize_step c (d :: cs) hc buf q args
    rw [e] at h
    have k := ih _ _ _ _ _ _ h
    rw [k, unescaped_quotes, if_neg hc]
    by_cases hq : c = '"'
    · by_cases hn : unescaped_quotes (d :: cs) % 2 = 1
      · have : ¬ (1 + unescaped_quotes (d :: cs)) % 2 = 1 := by omega
        simp [hq, hn, this]
      · have : (1 + unescaped_quotes (d :: cs)) % 2 = 1 := by omega
        simp [hq, hn, this]
    · simp [hq]

theorem trailing_backslashes_cons (x : Char) (s : List Char) :
    trailing_backslashes (x :: s)
      = if trailing_backslashes s = s.length then s.length + (if x = '\\' then 1 else 0)
        else trailing_backslashes s := by
  unfold trailing_backslashes
  rw [List.reverse_cons, List.takeWhile_append]
  simp only [List.length_reverse]
  split
  · rw [List.length_append, List.length_reverse]
    by_cases hx : x = '\\' <;> simp [List.takeWhile, hx]
  · rfl

theorem trailing_backslashes_le (s : List Char) : trailing_backslashes s ≤ s.length := by
  unfold trailing_backslashes
  have := (List.takeWhile_prefix (fun c => decide (c = '\\')) :
    List.takeWhile (fun c => decide (c = '\\')) s.reverse <+: s.reverse).length_le
  rw [List.length_reverse] at this
  exact this

/-- The scan from the left ends on a backslash that takes nothing exactly when the string ends
in an odd number of backslashes: the last one is not taken by the one before it. -/
theorem ends_in_escape_iff (s : List Char) :
    ends_in_escape s = true ↔ trailing_backslashes s % 2 = 1 := by
  induction s using ends_in_escape.induct with
  | case1 => simp [ends_in_escape, trailing_backslashes]
  | case2 c =>
    rw [trailing_backslashes_cons]
    by_cases hc : c = '\\' <;> simp [ends_in_escape, trailing_backslashes, hc]
  | case3 d cs ih =>
    rw [ends_in_escape, if_pos rfl, ih, trailing_backslashes_cons, trailing_backslashes_cons]
    have hle := trailing_backslashes_le cs
    simp only [List.length_cons, if_true]
    split_ifs <;> omega
  | case4 c d cs hc ih =>
    rw [ends_in_escape, if_neg hc, ih, trailing_backslashes_cons c (d :: cs)]
    simp only [hc, if_false, Nat.add_zero]
    split_ifs with h
    · rw [h]
    · rfl

/-- The parse of a token list does not end with a message of the tokenizer. -/
theorem parse_args_not_tokenizer (p : parser τ V) (ts : List Str) (es : List Str) (m : Str)
    (hm : m = "unexpected occurrence of '\\' at end of string".toList
      ∨ m = "quote is not closed".toList) :
    p.parse_args ts ≠ (false, { p with errors := es ++ [m] }) := by
  intro h
  have he : m ∈ (p.parse_args ts).2.errors := by
    rw [h]
    exact List.mem_append_right _ (List.mem_singleton.2 rfl)
  have := parse_errors_message messages_not_tokenizer p _ m he
  rcases hm with hm | hm
  · exact this.1 hm
  · exact this.2 hm

theorem push_error_inj (p : parser τ V) (a b : Str)
    (h : ((false, { p with errors := p.errors ++ [a] }) : Bool × parser τ V)
      = (false, { p with errors := p.errors ++ [b] })) : a = b := by
  have := congrArg (fun r => r.2.errors) h
  simpa using this

/-! ## A value that the reader rejects -/

/-- The three ways to hand the text `t` to a valued option make the one call
`set_option(name, t)`, and the scan goes on with the tokens after them. -/
theorem scan_calls_supply (lk : List (Char × Str)) (os : List (option_base τ V))
    (hlk : (build_lookup os []).2 = .ok lk) (hu : (os.map (fun o => o._name)).Nodup)
    (o : option_base τ V) (w : option_with_value τ V) (ho : o ∈ os)
    (hw : o.value = some w) (hname : '=' ∉ o._name) (t : Str) (form after : List Str)
    (hform : form = ['-' :: '-' :: (o._name ++ '=' :: t)]
      ∨ form = ['-' :: '-' :: o._name, t]
      ∨ (form = [['-', o._short_name], t] ∧ o._short_name ≠ Char.ofNat 0
          ∧ o._short_name ≠ '-' ∧ o._name ≠ [])) :
    scan_calls lk os (form ++ after) = Call.value o._name t :: scan_calls lk os after := by
  have hv : has_value_at os o._name = true := has_value_at_of_mem hu ho hw
  rcases hform with h | h | ⟨h, h0, hd, hn⟩
  · subst h
    rw [List.singleton_append, scan_calls_cons_not_taken lk os _ after
      (fun b => by rw [step_calls_long_eq lk os _ _ hname]),
      step_calls_long_eq lk os _ _ hname]
    rfl
  · subst h
    have e := step_calls_long lk os o._name t hname hv
    show scan_calls lk os (_ :: t :: after) = _
    rw [scan_calls, e]
    rfl
  · subst h
    obtain ⟨k1, k2⟩ := build_lookup_complete os [] lk hlk o ho (by simpa using hn) h0
    have e := step_calls_short lk os o._short_name o._name t hd k1 k2 hn hv
    show scan_calls lk os (_ :: t :: after) = _
    rw [scan_calls, e]
    rfl

/-- A call `set_option(name, t)` with a text that the reader of `name` rejects changes no
option object. -/
theorem elem_calls_rejected (os : List (option_base τ V))
    (hu : (os.map (fun o => o._name)).Nodup) (o : option_base τ V) (ho : o ∈ os) (t : Str)
    (hr : read_of o t = none) (cb ca : List Call) (x : option_base τ V) (hx : x ∈ os) :
    elem_calls (cb ++ Call.value o._name t :: ca) (x.set false).2
      = elem_calls (cb ++ ca) (x.set false).2 := by
  rw [elem_calls_append, elem_calls_append]
  have key : elem_call (elem_calls cb (x.set false).2) (Call.value o._name t)
      = elem_calls cb (x.set false).2 := by
    simp only [elem_call]
    split
    · rename_i hn
      have hxn : x._name = o._name := by
        rw [← scanned_name cb x]
        exact hn
      have hxo : x = o := eq_of_name_eq hu hx ho hxn
      have : read_of (elem_calls cb (x.set false).2) t = none := by
        rw [read_of_elem_calls cb (x.set false).2 t, hxo]
        exact hr
      rw [set_string_none _ t this]
    · rfl
  show elem_calls ca (elem_call (elem_calls cb (x.set false).2) (Call.value o._name t)) = _
  rw [key]

theorem call_errors_rejected (os : List (option_base τ V))
    (hu : (os.map (fun o => o._name)).Nodup) (o : option_base τ V) (ho : o ∈ os) (t : Str)
    (hr : read_of o t = none) :
    call_errors os (Call.value o._name t)
      = ["option value is invalid: --".toList ++ o._name ++ "=".toList ++ t] := by
  simp only [call_errors]
  rw [find_of_mem hu ho]
  simp only [set_string_none o t hr, Bool.not_false, if_true]

/-- A parse in which a rejected value text is handed to an option, against the parse of the
argument list without the supplying tokens: the same options and positional arguments, and
one more error, after the errors of the tokens before. -/
theorem rejected_core (p : parser τ V) (lk : List (Char × Str))
    (hlk : (build_lookup p.options []).2 = .ok lk)
    (hu : (p.options.map (fun o => o._name)).Nodup)
    (o : option_base τ V) (ho : o ∈ p.options) (t : Str) (hr : read_of o t = none)
    (prog : Str) (before form after : List Str)
    (hb : boundary lk p.options before = true)
    (hform : scan_calls lk p.options (form ++ after)
      = Call.value o._name t :: scan_calls lk p.options after) :
    (p.parse (prog :: (before ++ form ++ after))).2.options
      = (p.parse (prog :: (before ++ after))).2.options
    ∧ (p.parse (prog :: (before ++ form ++ after))).2.others
      = (p.parse (prog :: (before ++ after))).2.others
    ∧ ∃ E2, (p.parse (prog :: (before ++ after))).2.errors
        = errors_of p.options (scan_calls lk p.options before) ++ E2
      ∧ (p.parse (prog :: (before ++ form ++ after))).2.errors
        = errors_of p.options (scan_calls lk p.options before)
          ++ ("option value is invalid: --".toList ++ o._name ++ "=".toList ++ t) :: E2 := by
  have hA : scan_calls lk p.options (before ++ form ++ after)
      = scan_calls lk p.options before
        ++ Call.value o._name t :: scan_calls lk p.options after := by
    rw [List.append_assoc, scan_calls_append lk p.options before _ hb, hform]
  have hB : scan_calls lk p.options (before ++ after)
      = scan_calls lk p.options before ++ scan_calls lk p.options after :=
    scan_calls_append lk p.options before _ hb
  have hopts : p.options.map (fun x => elem_calls (scan_calls lk p.options before
        ++ Call.value o._name t :: scan_calls lk p.options after) (x.set false).2)
      = p.options.map (fun x => elem_calls (scan_calls lk p.options before
        ++ scan_calls lk p.options after) (x.set false).2) :=
    List.map_congr_left (fun x hx => elem_calls_rejected p.options hu o ho t hr _ _ x hx)
  rw [parse_ok p prog _ lk hlk, parse_ok p prog _ lk hlk, hA, hB]
  refine ⟨hopts, ?_, ?_⟩
  · simp only [others_of_append, others_of]
  · refine ⟨errors_of p.options (scan_calls lk p.options after)
      ++ need_errors (p.options.map (fun x => elem_calls (scan_calls lk p.options before
        ++ scan_calls lk p.options after) (x.set false).2)), ?_, ?_⟩
    · simp only [errors_of_append, List.append_assoc]
    · simp only [errors_of_append, errors_of, call_errors_rejected p.options hu o ho t hr, hopts,
        List.append_assoc, List.singleton_append, List.cons_append, List.nil_append]

/-! ## The presence of a flag -/

/-- The lookup holds no entry for the character 0. -/
theorem build_lookup_nonzero (os : List (option_base τ V)) (lk0 lk : List (Char × Str))
    (h : (build_lookup os lk0).2 = .ok lk) (c : Char) (hc : lookup_count lk c = true) :
    lookup_count lk0 c = true ∨ c ≠ Char.ofNat 0 := by
  induction os generalizing lk0 with
  | nil =>
    simp only [build_lookup, Except.ok.injEq] at h
    subst h
    exact Or.inl hc
  | cons o os ih =>
    by_cases h1 : o._name.length = 0
    · rw [build_lookup_cons_empty o os lk0 h1] at h
      exact ih lk0 h
    · by_cases h2 : o._short_name = Char.ofNat 0
      · rw [build_lookup_cons_noshort o os lk0 h1 h2] at h
        exact ih lk0 h
      · by_cases h3 : lookup_count lk0 o._short_name = true
        · rw [build_lookup_cons_dup o os lk0 h1 h2 h3] at h
          cases h
        · rw [build_lookup_cons_new o os lk0 h1 h2 h3] at h
          rcases ih _ h with k | k
          · rw [lookup_count_cons] at k
            by_cases e : o._short_name = c
            · exact Or.inr (e ▸ h2)
            · simp only [e, decide_False, Bool.false_or] at k
              exact Or.inl k
          · exact Or.inr k

/-- The characters that the lookup resolves to the long name of a declared option: its short
name, when that is not 0. -/
theorem lookup_names_iff (os : List (option_base τ V)) (lk : List (Char × Str))
    (hlk : (build_lookup os []).2 = .ok lk) (hu : (os.map (fun o => o._name)).Nodup)
    (o : option_base τ V) (ho : o ∈ os) (hn : o._name ≠ []) (ch : Char) :
    (lookup_count lk ch = true ∧ lookup_at lk ch = o._name)
      ↔ (ch = o._short_name ∧ o._short_name ≠ Char.ofNat 0) := by
  constructor
  · rintro ⟨h1, h2⟩
    have hz : ch ≠ Char.ofNat 0 := by
      rcases build_lookup_nonzero os [] lk hlk ch h1 with k | k
      · simp [lookup_count] at k
      · exact k
    rcases build_lookup_sound os [] lk hlk ch h1 with k | ⟨x, hx, hs, hxn, -⟩
    · simp [lookup_count] at k
    · have : x = o := eq_of_name_eq hu hx ho (hxn.trans h2)
      subst this
      exact ⟨hs.symm, hs ▸ hz⟩
  · rintro ⟨h1, h2⟩
    subst h1
    exact build_lookup_complete os [] lk hlk o ho (by simpa using hn) h2

theorem cluster_char_call_flag (lk : List (Char × Str)) (c : Char) (n : Str) (hn : n ≠ []) :
    Call.flag n = cluster_char_call lk c ↔ (lookup_count lk c = true ∧ lookup_at lk c = n) := by
  unfold cluster_char_call
  by_cases h1 : lookup_count lk c = true
  · by_cases h2 : (lookup_at lk c).isEmpty = true
    · have : lookup_at lk c ≠ n := by
        intro e
        rw [e] at h2
        exact hn (List.isEmpty_iff.1 h2)
      simp [h1, h2, this]
    · simp only [h1, h2, Bool.not_true, Bool.false_eq_true, if_false, Call.flag.injEq,
        true_and]
      exact eq_comm
  · simp [h1]

/-- The flag calls of a cluster and the lookup of its last character, against the characters
of the cluster. -/
theorem cluster_flag_iff (lk : List (Char × Str)) (n : Str) (hn : n ≠ []) (c : Char)
    (cs : List Char) :
    (Call.flag n ∈ (cluster_calls lk c cs).1
      ∨ (lookup_count lk (cluster_calls lk c cs).2 = true
        ∧ lookup_at lk (cluster_calls lk c cs).2 = n))
    ↔ ∃ ch ∈ c :: cs, lookup_count lk ch = true ∧ lookup_at lk ch = n := by
  induction cs generalizing c with
  | nil => simp [cluster_calls]
  | cons d ds ih =>
    simp only [cluster_calls, List.mem_cons, or_assoc]
    rw [ih d, cluster_char_call_flag lk c n hn]
    simp only [List.mem_cons, exists_eq_or_imp]

/-- The loop body on a single-dash token calls `set_option(name)` for a flag exactly when the
lookup resolves a character of the token to the flag. -/
theorem step_calls_short_flag (lk : List (Char × Str)) (os : List (option_base τ V))
    (n : Str) (hn : n ≠ []) (hnv : has_value_at os n = false) (t : Str) (next : Option Str)
    (h1 : ¬ t.take 2 = ['-', '-']) (h2 : t.take 1 = ['-']) (d : Char) (ds : List Char)
    (h3 : t.drop 1 = d :: ds) :
    Call.flag n ∈ (step_calls lk os t next).2
      ↔ ∃ ch ∈ d :: ds, lookup_count lk ch = true ∧ lookup_at lk ch = n := by
  rw [← cluster_flag_iff lk n hn d ds]
  unfold step_calls
  simp only [h1, h2, h3, if_true, if_false]
  by_cases h4 : lookup_count lk (cluster_calls lk d ds).2 = true
  · by_cases h5 : (lookup_at lk (cluster_calls lk d ds).2).isEmpty = true
    · have : lookup_at lk (cluster_calls lk d ds).2 ≠ n := by
        intro e
        rw [e] at h5
        exact hn (List.isEmpty_iff.1 h5)
      simp [h4, h5, this]
    · cases next with
      | none =>
        simp only [h4, h5, Bool.not_true, Bool.false_eq_true, if_false, List.mem_append,
          List.mem_singleton, Call.flag.injEq, true_and]
        exact or_congr Iff.rfl eq_comm
      | some v =>
        by_cases h6 : has_value_at os (lookup_at lk (cluster_calls lk d ds).2) = true
        · have : lookup_at lk (cluster_calls lk d ds).2 ≠ n := by
            intro e
            rw [e, hnv] at h6
            cases h6
          simp [h4, h5, h6, this]
        · simp only [h4, h5, h6, Bool.not_true, Bool.false_eq_true, if_false, List.mem_append,
            List.mem_singleton, Call.flag.injEq, true_and]
          exact or_congr Iff.rfl eq_comm
  · simp [h4]

/-- The loop body calls `set_option(name)` for a flag exactly on the tokens that supply the
flag, whatever the next token is. -/
theorem step_calls_flag_iff (lk : List (Char × Str)) (os : List (option_base τ V))
    (hlk : (build_lookup os []).2 = .ok lk) (hu : (os.map (fun o => o._name)).Nodup)
    (o : option_base τ V) (ho : o ∈ os) (hv : o.value = none) (hn : o._name ≠ [])
    (hname : '=' ∉ o._name) (t : Str) (next : Option Str) :
    Call.flag o._name ∈ (step_calls lk os t next).2
      ↔ flag_token o._name o._short_name t = true := by
  have hcount : count os o._name = true :=
    (count_iff_mem os o._name).2 (List.mem_map_of_mem _ ho)
  have hnv : has_value_at os o._name = false := by
    unfold has_value_at
    rw [find_of_mem hu ho]
    simp [option_base.has_value, hv]
  by_cases h1 : t.take 2 = ['-', '-']
  · unfold step_calls flag_token
    simp only [h1, if_true]
    by_cases h2 : '=' ∈ t.drop 2
    · have : t.drop 2 ≠ o._name := fun e => hname (e ▸ h2)
      simp [h2, this]
    · by_cases h3 : count os (t.drop 2) = true
      · by_cases h4 : has_value_at os (t.drop 2) = true
        · have : t.drop 2 ≠ o._name := by
            intro e
            rw [e, hnv] at h4
            cases h4
          cases next <;> simp [h2, h3, h4, this]
        · simp only [h2, h3, h4, Bool.not_true, Bool.false_eq_true, if_false,
            List.mem_singleton, Call.flag.injEq, decide_eq_true_eq]
          exact eq_comm
      · have : t.drop 2 ≠ o._name := fun e => h3 (e ▸ hcount)
        simp [h2, h3, this]
  · by_cases h2 : t.take 1 = ['-']
    · cases h3 : t.drop 1 with
      | nil =>
        unfold step_calls flag_token
        simp [h1, h2, h3]
      | cons d ds =>
        rw [step_calls_short_flag lk os o._name hn hnv t next h1 h2 d ds h3]
        unfold flag_token
        simp only [h1, h2, h3, if_false, decide_True, Bool.true_and, Bool.and_eq_true,
          decide_eq_true_eq]
        constructor
        · rintro ⟨ch, hm, k⟩
          obtain ⟨e, hz⟩ := (lookup_names_iff os lk hlk hu o ho hn ch).1 k
          exact ⟨hz, e ▸ hm⟩
        · rintro ⟨hz, hm⟩
          exact ⟨o._short_name, hm, (lookup_names_iff os lk hlk hu o ho hn _).2 ⟨rfl, hz⟩⟩
    · unfold step_calls flag_token
      simp [h1, h2]

/-- The scan calls `set_option(name)` for a flag exactly when a token that the scan reaches
supplies the flag. -/
theorem scan_calls_flag_iff (lk : List (Char × Str)) (os : List (option_base τ V))
    (hlk : (build_lookup os []).2 = .ok lk) (hu : (os.map (fun o => o._name)).Nodup)
    (o : option_base τ V) (ho : o ∈ os) (hv : o.value = none) (hn : o._name ≠ [])
    (hname : '=' ∉ o._name) (toks : List Str) :
    Call.flag o._name ∈ scan_calls lk os toks
      ↔ ∃ t ∈ scanned lk os toks, flag_token o._name o._short_name t = true := by
  induction toks using scan_calls.induct lk os with
  | case1 => simp [scan_calls, scanned]
  | case2 a =>
    simp only [scan_calls, scanned, List.mem_singleton, exists_eq_left]
    exact step_calls_flag_iff lk os hlk hu o ho hv hn hname a none
  | case3 a b rest hs ih =>
    rw [scan_calls, if_pos hs, scanned, if_pos hs, List.mem_append, ih,
      step_calls_flag_iff lk os hlk hu o ho hv hn hname a (some b)]
    simp only [List.mem_cons, exists_eq_or_imp]
  | case4 a b rest hs ih =>
    rw [scan_calls, if_neg hs, scanned, if_neg hs, List.mem_append, ih,
      step_calls_flag_iff lk os hlk hu o ho hv hn hname a (some b)]
    simp only [List.mem_cons, exists_eq_or_imp]

/-- The presence flag of a flag object after a sequence of calls. -/
theorem elem_calls_flag_has (cs : List Call) (y : option_base τ V) (hv : y.value = none) :
    (elem_calls cs y)._has = true ↔ (y._has = true ∨ Call.flag y._name ∈ cs) := by
  induction cs generalizing y with
  | nil => simp [elem_calls]
  | cons c cs ih =>
    have e : elem_calls (c :: cs) y = elem_calls cs (elem_call y c) := rfl
    have hv1 : (elem_call y c).value = none := by
      cases c with
      | flag n => simp only [elem_call]; split <;> simp [option_base.set, hv]
      | value n v =>
        simp only [elem_call]
        split
        · simp [option_base.set_string, hv]
        · exact hv
      | error m => exact hv
      | other x => exact hv
    rw [e, ih _ hv1, elem_call_name, List.mem_cons]
    cases c with
    | flag n =>
      simp only [elem_call, Call.flag.injEq]
      by_cases hn : y._name = n
      · simp [hn, option_base.set]
      · simp [hn]
    | value n v =>
      simp only [elem_call]
      split
      · simp [option_base.set_string, hv]
      · simp
    | error m => simp [elem_call]
    | other x => simp [elem_call]

theorem parse_exist_flag (p : parser τ V) (lk : List (Char × Str))
    (hlk : (build_lookup p.options []).2 = .ok lk)
    (hu : (p.options.map (fun o => o._name)).Nodup)
    (o : option_base τ V) (ho : o ∈ p.options) (hv : o.value = none) (hn : o._name ≠ [])
    (hname : '=' ∉ o._name) (a0 : Str) (toks : List Str) :
    (p.parse (a0 :: toks)).2.exist o._name
      = .ok ((scanned lk p.options toks).any (flag_token o._name o._short_name)) := by
  rw [parse_ok p a0 toks lk hlk]
  unfold parser.exist
  simp only
  rw [find_map_name (fun x => elem_calls (scan_calls lk p.options toks) (x.set false).2)
    (fun x => scanned_name _ x), find_of_mem hu ho]
  simp only [Option.map_some', option_base.has_set]
  congr 1
  rw [Bool.eq_iff_iff, elem_calls_flag_has _ _ (by exact hv), List.any_eq_true]
  have e : (o.set false).2._name = o._name := rfl
  rw [e, scan_calls_flag_iff lk p.options hlk hu o ho hv hn hname toks]
  simp [option_base.set]

theorem parse_string_of_tokens (p : parser τ V) (s : Str) (ts : List Str)
    (h : tokens s = some ts) : p.parse_string s = p.parse_args ts := by
  unfold tokens at h
  unfold parser.parse_string
  cases ht : tokenize s [] false [] with
  | none => rw [ht] at h; cases h
  | some r =>
    obtain ⟨buf, q, args⟩ := r
    rw [ht] at h
    cases q with
    | true => simp at h
    | false =>
      simp only [Bool.false_eq_true, if_false, Option.some.injEq] at h
      simp only [Bool.false_eq_true, if_false, h]

/-! ## The queries -/

theorem find_none_iff (os : List (option_base τ V)) (n : Str) :
    find os n = none ↔ n ∉ os.map (fun o => o._name) := by
  rw [← count_iff_mem, count_eq_find]
  cases find os n <;> simp

/-! ## The tokenizer on a string without quote and backslash -/

theorem pieces_nil : pieces [] = [[]] := rfl

theorem pieces_cons (c : Char) (s : List Char) :
    pieces (c :: s)
      = if c = ' ' then [] :: pieces s else (pieces s).modifyHead (List.cons c) := by
  unfold pieces List.splitOn
  rw [List.splitOnP_cons]
  simp

theorem pieces_ne_nil (s : List Char) : pieces s ≠ [] := List.splitOnP_ne_nil _ s

theorem pieces_length (s : List Char) : (pieces s).length = s.count ' ' + 1 := by
  induction s with
  | nil => rfl
  | cons c s ih =>
    rw [pieces_cons, List.count_cons]
    by_cases hc : c = ' '
    · simp [hc, ih]
    · simp [hc, ih, List.length_modifyHead]

/-- The pieces on both sides of a space. -/
theorem pieces_append_space (a r : List Char) :
    pieces (a ++ ' ' :: r) = pieces a ++ pieces r := by
  induction a with
  | nil => rw [List.nil_append, pieces_cons, if_pos rfl, pieces_nil]; rfl
  | cons c a ih =>
    rw [List.cons_append, pieces_cons, pieces_cons, ih]
    by_cases hc : c = ' '
    · simp [hc]
    · simp only [hc, if_false]
      cases hp : pieces a with
      | nil => exact absurd hp (pieces_ne_nil a)
      | cons x xs => rfl

/-- The tokenizer loop on a string without quote and backslash: `args` and `buf` at the end
hold the pieces of the string, the first one after the text that `buf` held. -/
theorem tokenize_pieces (s : List Char) (h1 : '"' ∉ s) (h2 : '\\' ∉ s) :
    ∀ (buf : Str) (args : List Str), ∃ b a,
      tokenize s buf false args = some (b, false, a)
      ∧ a ++ [b] = args ++ (pieces s).modifyHead (fun x => buf ++ x)
      ∧ (b = [] ↔ ((s = [] ∧ buf = []) ∨ s.getLast? = some ' ')) := by
  induction s with
  | nil =>
    intro buf args
    refine ⟨buf, args, rfl, ?_, ?_⟩
    · simp [pieces_nil, List.modifyHead]
    · simp
  | cons c s ih =>
    have h1s : '"' ∉ s := fun k => h1 (List.mem_cons_of_mem _ k)
    have h2s : '\\' ∉ s := fun k => h2 (List.mem_cons_of_mem _ k)
    have hc1 : c ≠ '"' := fun k => h1 (k ▸ List.mem_cons_self _ _)
    have hc2 : c ≠ '\\' := fun k => h2 (k ▸ List.mem_cons_self _ _)
    have hlast : (c :: s).getLast? = some ' ' ↔ ((s = [] ∧ c = ' ') ∨ s.getLast? = some ' ') := by
      cases s with
      | nil => simp
      | cons d ds => simp [List.getLast?_cons_cons]
    intro buf args
    by_cases hs : c = ' '
    · subst hs
      obtain ⟨b, a, k1, k2, k3⟩ := ih h1s h2s [] (args ++ [buf])
      refine ⟨b, a, ?_, ?_, ?_⟩
      · rw [tokenize_space]
        exact k1
      · rw [k2, pieces_cons, if_pos rfl]
        cases hp : pieces s with
        | nil => exact absurd hp (pieces_ne_nil s)
        | cons x xs => simp [List.modifyHead]
      · rw [k3, hlast]
        simp
    · obtain ⟨b, a, k1, k2, k3⟩ := ih h1s h2s (buf ++ [c]) args
      refine ⟨b, a, ?_, ?_, ?_⟩
      · rw [tokenize_char c s buf false args hc1 hc2 (fun e => absurd e hs)]
        exact k1
      · rw [k2, pieces_cons, if_neg hs]
        cases hp : pieces s with
        | nil => exact absurd hp (pieces_ne_nil s)
        | cons x xs => simp [List.modifyHead]
      · rw [k3, hlast]
        simp [hs]

/-- The token list of a string without quote and backslash. -/
theorem tokens_pieces (s : List Char) (h1 : '"' ∉ s) (h2 : '\\' ∉ s) :
    tokens s = some (drop_empty_last (pieces s))
    ∧ (s ≠ [] → s.getLast? ≠ some ' ' → tokens s = some (pieces s)) := by
  obtain ⟨b, a, k1, k2, k3⟩ := tokenize_pieces s h1 h2 [] []
  have hid : (pieces s).modifyHead (fun x => [] ++ x) = pieces s := by
    cases pieces s <;> rfl
  rw [List.nil_append, hid] at k2
  unfold tokens drop_empty_last
  rw [k1, ← k2, List.getLast?_concat, List.dropLast_concat]
  simp only [Bool.false_eq_true, if_false, Option.some.injEq]
  by_cases hb : b = []
  · subst hb
    refine ⟨by simp, ?_⟩
    intro hne hl
    rcases k3.1 rfl with ⟨e, -⟩ | e
    · exact absurd e hne
    · exact absurd e hl
  · have : b.length > 0 := List.length_pos.2 hb
    simp [this, hb]

/-! ## The calls of a single-dash token -/

/-- Every entry of the lookup is the non-empty key of a declared option. -/
theorem lookup_entry_declared (os : List (option_base τ V)) (lk : List (Char × Str))
    (hlk : (build_lookup os []).2 = .ok lk) (c : Char) (hc : lookup_count lk c = true) :
    lookup_at lk c ≠ [] ∧ lookup_at lk c ∈ os.map (fun o => o._name) := by
  rcases build_lookup_sound os [] lk hlk c hc with k | ⟨o, ho, -, hn, hl⟩
  · simp [lookup_count] at k
  · rw [← hn]
    exact ⟨fun e => hl (by rw [e]; rfl), List.mem_map_of_mem _ ho⟩

theorem cluster_char_call_sound (lk : List (Char × Str))
    (hs : ∀ c, lookup_count lk c = true → lookup_at lk c ≠ []) (ch : Char) :
    cluster_char_call lk ch = Call.error ("undefined short option: -".toList ++ [ch])
    ∨ (lookup_count lk ch = true ∧ cluster_char_call lk ch = Call.flag (lookup_at lk ch)) := by
  unfold cluster_char_call
  by_cases h1 : lookup_count lk ch = true
  · right
    have h2 : ¬ (lookup_at lk ch).isEmpty = true := fun k => hs ch h1 (List.isEmpty_iff.1 k)
    simp [h1, h2]
  · left
    simp [h1]

/-- The calls of the loop body on a token that starts with one dash only: an undefined short
option error, `set_option(lookup[c])` or `set_option(lookup[c], value)` for a character `c` of
the lookup. -/
theorem single_dash_calls (lk : List (Char × Str)) (os : List (option_base τ V))
    (hs : ∀ c, lookup_count lk c = true → lookup_at lk c ≠ []) (t : Str) (next : Option Str)
    (h1 : ¬ t.take 2 = ['-', '-']) (h2 : t.take 1 = ['-']) (c : Call)
    (hc : c ∈ (step_calls lk os t next).2) :
    (∃ ch, c = Call.error ("undefined short option: -".toList ++ [ch]))
    ∨ (∃ ch, lookup_count lk ch = true ∧ c = Call.flag (lookup_at lk ch))
    ∨ (∃ ch v, lookup_count lk ch = true ∧ c = Call.value (lookup_at lk ch) v) := by
  have hcl : ∀ d ds, c ∈ (cluster_calls lk d ds).1 →
      (∃ ch, c = Call.error ("undefined short option: -".toList ++ [ch]))
      ∨ (∃ ch, lookup_count lk ch = true ∧ c = Call.flag (lookup_at lk ch))
      ∨ (∃ ch v, lookup_count lk ch = true ∧ c = Call.value (lookup_at lk ch) v) := by
    intro d ds hm
    obtain ⟨ch, -, e⟩ := (mem_cluster_calls lk d ds).1 c hm
    rcases cluster_char_call_sound lk hs ch with k | ⟨k1, k2⟩
    · exact Or.inl ⟨ch, e.trans k⟩
    · exact Or.inr (Or.inl ⟨ch, k1, e.trans k2⟩)
  unfold step_calls at hc
  simp only [h1, h2, if_true, if_false] at hc
  cases h3 : t.drop 1 with
  | nil => simp [h3] at hc
  | cons d ds =>
    simp only [h3] at hc
    by_cases h4 : lookup_count lk (cluster_calls lk d ds).2 = true
    · have h5 : ¬ (lookup_at lk (cluster_calls lk d ds).2).isEmpty = true :=
        fun k => hs _ h4 (List.isEmpty_iff.1 k)
      cases next with
      | none =>
        simp only [h4, h5, Bool.not_true, Bool.false_eq_true, if_false, List.mem_append,
          List.mem_singleton] at hc
        rcases hc with hc | hc
        · exact hcl d ds hc
        · exact Or.inr (Or.inl ⟨_, h4, hc⟩)
      | some v =>
        by_cases h6 : has_value_at os (lookup_at lk (cluster_calls lk d ds).2) = true
        · simp only [h4, h5, h6, Bool.not_true, Bool.false_eq_true, if_false, if_true,
            List.mem_append, List.mem_singleton] at hc
          rcases hc with hc | hc
          · exact hcl d ds hc
          · exact Or.inr (Or.inr ⟨_, v, h4, hc⟩)
        · simp only [h4, h5, h6, Bool.not_true, Bool.false_eq_true, if_false,
            List.mem_append, List.mem_singleton] at hc
          rcases hc with hc | hc
          · exact hcl d ds hc
          · exact Or.inr (Or.inl ⟨_, h4, hc⟩)
    · simp only [h4, Bool.not_false, if_true, List.mem_append, List.mem_singleton] at hc
      rcases hc with hc | hc
      · exact hcl d ds hc
      · exact Or.inl ⟨_, hc⟩

/-- With a lookup whose entries are not empty, the loop body pushes no "ambiguous short
option" error. -/
theorem step_calls_error_sound (lk : List (Char × Str)) (os : List (option_base τ V))
    (hs : ∀ c, lookup_count lk c = true → lookup_at lk c ≠ []) (t : Str) (next : Option Str)
    (m : Str) (h : Call.error m ∈ (step_calls lk os t next).2) (c : Char) :
    m ≠ "ambiguous short option: -".toList ++ [c] := by
  by_cases h1 : t.take 2 = ['-', '-']
  · unfold step_calls at h
    simp only [h1, if_true] at h
    by_cases h2 : '=' ∈ t.drop 2
    · simp [h2] at h
    · by_cases h3 : count os (t.drop 2) = true
      · by_cases h4 : has_value_at os (t.drop 2) = true
        · cases next with
          | none =>
            simp only [h2, h3, h4, Bool.not_true, Bool.false_eq_true, if_false, if_true,
              List.mem_singleton, Call.error.injEq] at h
            subst h
            intro e
            cases e
          | some b => simp [h2, h3, h4] at h
        · simp [h2, h3, h4] at h
      · simp only [h2, h3, Bool.not_false, if_true, if_false, List.mem_singleton,
          Call.error.injEq] at h
        subst h
        intro e
        cases e
  · by_cases h2 : t.take 1 = ['-']
    · rcases single_dash_calls lk os hs t next h1 h2 _ h with ⟨ch, k⟩ | ⟨ch, -, k⟩ | ⟨ch, v, -, k⟩
      · simp only [Call.error.injEq] at k
        subst k
        intro e
        cases e
      · cases k
      · cases k
    · unfold step_calls at h
      simp [h1, h2] at h

theorem flag_call_no_error (os : List (option_base τ V)) (n : Str)
    (h : n ∈ os.map (fun o => o._name)) : call_errors os (Call.flag n) = [] := by
  have hc := (count_iff_mem os n).2 h
  rw [count_eq_find] at hc
  simp only [call_errors]
  cases hf : find os n with
  | none => rw [hf] at hc; simp at hc
  | some o => simp [option_base.set]

theorem map_name_of_decl {os os1 : List (option_base τ V)} (h : os1.map decl = os.map decl) :
    os1.map (fun o => o._name) = os.map (fun o => o._name) := by
  have := congrArg (List.map (fun o : option_base τ V => o._name)) h
  simpa [List.map_map, Function.comp_def, decl] using this

/-! ## The positional arguments -/

theorem cluster_calls_last (lk : List (Char × Str)) (c : Char) (cs : List Char) :
    (c :: cs).getLast? = some (cluster_calls lk c cs).2 := by
  induction cs generalizing c with
  | nil => rfl
  | cons d ds ih => rw [List.getLast?_cons_cons, ih d]; rfl

theorem cluster_calls_others (lk : List (Char × Str)) (c : Char) (cs : List Char) :
    others_of (cluster_calls lk c cs).1 = [] := by
  induction cs generalizing c with
  | nil => rfl
  | cons d ds ih =>
    simp only [cluster_calls]
    unfold cluster_char_call
    split
    · simp only [others_of]; exact ih d
    · split
      · simp only [others_of]; exact ih d
      · simp only [others_of]; exact ih d

theorem take_one_of_take_two {t : Str} (h : t.take 2 = ['-', '-']) : t.take 1 = ['-'] := by
  cases t with
  | nil => simp at h
  | cons a t =>
    cases t with
    | nil => simp at h
    | cons b t =>
      simp only [List.take_succ_cons, List.take_zero, List.cons.injEq, and_true] at h
      simp [h.1]

/-- The loop body appends the token to `others` exactly when it does not begin with `-`. -/
theorem step_calls_others (lk : List (Char × Str)) (os : List (option_base τ V)) (a : Str)
    (next : Option Str) :
    others_of (step_calls lk os a next).2 = if a.take 1 = ['-'] then [] else [a] := by
  unfold step_calls
  by_cases h1 : a.take 2 = ['-', '-']
  · simp only [h1, take_one_of_take_two h1, if_true]
    split
    · rfl
    · split
      · rfl
      · split
        · cases next <;> rfl
        · rfl
  · simp only [h1, if_false]
    by_cases h2 : a.take 1 = ['-']
    · simp only [h2, if_true]
      cases a.drop 1 with
      | nil => rfl
      | cons d ds =>
        simp only
        split
        · rw [others_of_append, cluster_calls_others]; rfl
        · split
          · rw [others_of_append, cluster_calls_others]; rfl
          · cases next with
            | none => simp only; rw [others_of_append, cluster_calls_others]; rfl
            | some v =>
              simp only
              split
              · rw [others_of_append, cluster_calls_others]; rfl
              · rw [others_of_append, cluster_calls_others]; rfl
    · simp only [h2, if_false]
      rfl

/-- With unique keys, `options[name]->has_value()` holds exactly when a declared valued option
has the key `name`. -/
theorem has_value_at_any (os : List (option_base τ V))
    (hu : (os.map (fun o => o._name)).Nodup) (n : Str) :
    has_value_at os n = os.any (fun o => decide (o._name = n) && o.has_value) := by
  rw [Bool.eq_iff_iff, List.any_eq_true]
  constructor
  · intro h
    unfold has_value_at at h
    cases hf : find os n with
    | none => rw [hf] at h; cases h
    | some o =>
      rw [hf] at h
      have hv : o.has_value = true := h
      exact ⟨o, find_some_mem hf, by simp [find_some_name hf, hv]⟩
  · rintro ⟨o, ho, k⟩
    simp only [Bool.and_eq_true, decide_eq_true_eq] at k
    unfold has_value_at
    rw [← k.1, find_of_mem hu ho]
    exact k.2

/-- The loop body takes the next token as a value exactly on the tokens that `takes_value`
describes, when every valued option with a short name has a non-empty long name. -/
theorem step_calls_taken_iff (lk : List (Char × Str)) (os : List (option_base τ V))
    (hlk : (build_lookup os []).2 = .ok lk) (hu : (os.map (fun o => o._name)).Nodup)
    (hne : ∀ o ∈ os, o.has_value = true → o._short_name ≠ Char.ofNat 0 → o._name ≠ [])
    (a b : Str) : (step_calls lk os a (some b)).1 = takes_value os a := by
  unfold step_calls takes_value
  by_cases h1 : a.take 2 = ['-', '-']
  · simp only [h1, if_true]
    rw [← has_value_at_any os hu]
    by_cases h2 : '=' ∈ a.drop 2
    · simp [h2]
    · by_cases h4 : has_value_at os (a.drop 2) = true
      · simp [h2, h4, has_value_at_count h4]
      · by_cases h3 : count os (a.drop 2) = true
        · simp [h2, h3, h4]
        · simp [h2, h3, h4]
  · simp only [h1, if_false]
    by_cases h2 : a.take 1 = ['-']
    · simp only [h2, if_true]
      cases h3 : a.drop 1 with
      | nil => rfl
      | cons d ds =>
        simp only [cluster_calls_last lk d ds]
        rw [Bool.eq_iff_iff]
        constructor
        · intro h
          by_cases h4 : lookup_count lk (cluster_calls lk d ds).2 = true
          · by_cases h5 : (lookup_at lk (cluster_calls lk d ds).2).isEmpty = true
            · simp [h4, h5] at h
            · by_cases h6 : has_value_at os (lookup_at lk (cluster_calls lk d ds).2) = true
              · have hz : (cluster_calls lk d ds).2 ≠ Char.ofNat 0 := by
                  rcases build_lookup_nonzero os [] lk hlk _ h4 with k | k
                  · simp [lookup_count] at k
                  · exact k
                rcases build_lookup_sound os [] lk hlk _ h4 with k | ⟨x, hx, hxs, hxn, -⟩
                · simp [lookup_count] at k
                · have hxv : x.has_value = true := by
                    rw [← hxn] at h6
                    unfold has_value_at at h6
                    rw [find_of_mem hu hx] at h6
                    exact h6
                  simp only [Bool.and_eq_true, decide_eq_true_eq, List.any_eq_true]
                  exact ⟨hz, x, hx, hxs, hxv⟩
              · simp [h4, h5, h6] at h
          · simp [h4] at h
        · intro h
          simp only [Bool.and_eq_true, decide_eq_true_eq, List.any_eq_true] at h
          obtain ⟨hz, x, hx, hxs, hxv⟩ := h
          have hxn : x._name ≠ [] := hne x hx hxv (by rw [hxs]; exact hz)
          obtain ⟨k1, k2⟩ := build_lookup_complete os [] lk hlk x hx (by simpa using hxn)
            (by rw [hxs]; exact hz)
          rw [hxs] at k1 k2
          have k3 : has_value_at os (lookup_at lk (cluster_calls lk d ds).2) = true := by
            rw [k2]
            unfold has_value_at
            rw [find_of_mem hu hx]
            exact hxv
          have k4 : ¬ (lookup_at lk (cluster_calls lk d ds).2).isEmpty = true := by
            rw [k2]
            exact fun k => hxn (List.isEmpty_iff.1 k)
          simp [k1, k3, k4]
    · simp [h2]

/-- The positional arguments that the scan appends. -/
theorem scan_calls_others (lk : List (Char × Str)) (os : List (option_base τ V))
    (hlk : (build_lookup os []).2 = .ok lk) (hu : (os.map (fun o => o._name)).Nodup)
    (hne : ∀ o ∈ os, o.has_value = true → o._short_name ≠ Char.ofNat 0 → o._name ≠ [])
    (toks : List Str) : others_of (scan_calls lk os toks) = positional os toks := by
  induction toks using scan_calls.induct lk os with
  | case1 => rfl
  | case2 a => rw [scan_calls, step_calls_others, positional]
  | case3 a b rest hs ih =>
    have ht : takes_value os a = true := by
      rw [← step_calls_taken_iff lk os hlk hu hne a b]; exact hs
    have hd : a.take 1 = ['-'] := by
      unfold takes_value at ht
      by_cases h1 : a.take 2 = ['-', '-']
      · exact take_one_of_take_two h1
      · by_cases h2 : a.take 1 = ['-']
        · exact h2
        · simp [h1, h2] at ht
    rw [scan_calls, if_pos hs, others_of_append, step_calls_others, if_pos hd, ih, positional,
      if_pos ht]
    rfl
  | case4 a b rest hs ih =>
    have ht : ¬ takes_value os a = true := by
      rw [← step_calls_taken_iff lk os hlk hu hne a b]; exact hs
    rw [scan_calls, if_neg hs, others_of_append, step_calls_others, ih, positional, if_neg ht]
    split <;> rfl

/-! ## The usage text -/

theorem splitOn_cons_char (sep c : Char) (s : List Char) :
    (c :: s).splitOn sep
      = if c = sep then [] :: s.splitOn sep else (s.splitOn sep).modifyHead (List.cons c) := by
  unfold List.splitOn
  rw [List.splitOnP_cons]
  simp

/-- A text that ends a line: the line, then the lines of what follows the newline. -/
theorem splitOn_append_sep (sep : Char) (l r : List Char) (h : sep ∉ l) :
    (l ++ sep :: r).splitOn sep = l :: r.splitOn sep := by
  induction l with
  | nil => rw [List.nil_append, splitOn_cons_char, if_pos rfl]
  | cons c l ih =>
    have hc : c ≠ sep := fun e => h (e ▸ List.mem_cons_self _ _)
    rw [List.cons_append, splitOn_cons_char, if_neg hc,
      ih (fun k => h (List.mem_cons_of_mem _ k))]
    rfl

/-- The lines of a text made of lines that each end in a newline. -/
theorem lines_flatten (L : List Str) (h : ∀ l ∈ L, '\n' ∉ l) :
    lines (L.map (fun l => l ++ ['\n'])).flatten = L := by
  have key : ((L.map (fun l => l ++ ['\n'])).flatten).splitOn '\n' = L ++ [[]] := by
    induction L with
    | nil => rfl
    | cons l L ih =>
      rw [List.map_cons, List.flatten_cons, List.append_assoc, List.singleton_append,
        splitOn_append_sep '\n' l _ (h l (List.mem_cons_self _ _)),
        ih (fun x hx => h x (List.mem_cons_of_mem _ hx))]
      rfl
  unfold lines drop_empty_last
  rw [key, List.getLast?_concat, List.dropLast_concat, if_pos rfl]

theorem max_width_foldl (os : List (option_base τ V)) (m : Nat) :
    (m ≤ os.foldl (fun m o => max m o._name.length) m)
    ∧ (∀ o ∈ os, o._name.length ≤ os.foldl (fun m o => max m o._name.length) m)
    ∧ (os.foldl (fun m o => max m o._name.length) m = m
      ∨ ∃ o ∈ os, o._name.length = os.foldl (fun m o => max m o._name.length) m) := by
  induction os generalizing m with
  | nil => simp
  | cons x xs ih =>
    obtain ⟨h1, h2, h3⟩ := ih (max m x._name.length)
    rw [List.foldl_cons]
    refine ⟨le_trans (le_max_left _ _) h1, ?_, ?_⟩
    · intro o ho
      rcases List.mem_cons.1 ho with e | e
      · subst e
        exact le_trans (le_max_right _ _) h1
      · exact h2 o e
    · rcases h3 with k | ⟨o, ho, k⟩
      · rcases le_total m x._name.length with hm | hm
        · right
          exact ⟨x, List.mem_cons_self _ _, by rw [k, max_eq_right hm]⟩
        · left
          rw [k, max_eq_left hm]
      · exact Or.inr ⟨o, List.mem_cons_of_mem _ ho, k⟩

/-- The local `max_width` is the maximum of the lengths of the long names. -/
theorem max_width_spec (os : List (option_base τ V)) :
    (∀ o ∈ os, o._name.length ≤ max_width os)
    ∧ (os ≠ [] → ∃ o ∈ os, o._name.length = max_width os) := by
  obtain ⟨-, h2, h3⟩ := max_width_foldl os 0
  refine ⟨h2, ?_⟩
  intro hne
  rcases h3 with k | k
  · cases os with
    | nil => exact absurd rfl hne
    | cons x xs =>
      refine ⟨x, List.mem_cons_self _ _, ?_⟩
      have := h2 x (List.mem_cons_self _ _)
      unfold max_width
      omega
  · exact k

/-- When every entry of `ordered` is a key of the map, the objects of `ordered` carry the
names of `ordered`, in the same order. -/
theorem ordered_options_names (p : parser τ V)
    (h : ∀ n ∈ p.ordered, n ∈ p.options.map (fun o => o._name)) :
    p.ordered_options.map (fun o => o._name) = p.ordered := by
  unfold parser.ordered_options
  generalize p.ordered = l at h
  induction l with
  | nil => rfl
  | cons n l ih =>
    have hn := h n (List.mem_cons_self _ _)
    rw [← count_iff_mem, count_eq_find] at hn
    cases hf : find p.options n with
    | none => rw [hf] at hn; simp at hn
    | some o =>
      rw [List.filterMap_cons, hf]
      simp only [List.map_cons, find_some_name hf,
        ih (fun x hx => h x (List.mem_cons_of_mem _ hx))]

theorem usage_option_eq (mw : Nat) (o : option_base τ V) :
    usage_option mw o
      = (usage_short_form o ++ usage_long_form (mw + 4) o ++ o._desc) ++ ['\n'] := by
  unfold usage_option usage_short_form usage_long_form padded_name
  simp only [List.append_assoc]

/-- The usage text, line by line. -/
theorem usage_eq_lines (typename : τ → Str) (p : parser τ V) :
    p.usage typename
      = ((("usage: ".toList ++ p.prog_name ++ " ".toList
            ++ ((p.ordered_options.filter (fun o => o.must)).map
                (fun o => o.short_description typename ++ " ".toList)).flatten
            ++ "[options] ... ".toList ++ p.ftr)
          :: "options:".toList
          :: p.ordered_options.map (fun o => usage_short_form o
              ++ usage_long_form (max_width p.ordered_options + 4) o ++ o._desc)).map
        (fun l => l ++ ['\n'])).flatten := by
  unfold parser.usage
  simp only [List.map_cons, List.flatten_cons, List.map_map, List.append_assoc]
  congr 9
  apply congrArg
  apply List.map_congr_left
  intro o _
  simp only [Function.comp, usage_option_eq, List.append_assoc]

/-- Declaring a flag keeps every entry of `ordered` a key of the map. -/
theorem add_ordered_keys (p q : parser τ V) (name : Str) (c : Char) (desc : Str)
    (h : ∀ n ∈ p.ordered, n ∈ p.options.map (fun o => o._name))
    (hq : p.add name c desc = .ok q) :
    ∀ n ∈ q.ordered, n ∈ q.options.map (fun o => o._name) := by
  unfold parser.add at hq
  split at hq
  · cases hq
  · simp only [Except.ok.injEq] at hq
    subst hq
    intro n hn
    simp only [List.mem_append, List.mem_singleton] at hn
    rw [(map_insert_names _ _).mem_iff]
    rcases hn with hn | hn
    · exact List.mem_cons_of_mem _ (h n hn)
    · rw [hn]
      exact List.mem_cons_self _ _

/-- Declaring a valued option keeps every entry of `ordered` a key of the map. -/
theorem add_value_ordered_keys (p q : parser τ V) (ty : τ) (tn dv name : Str) (c : Char)
    (desc : Str) (need : Bool) (d : V) (reader : Str → Option V)
    (h : ∀ n ∈ p.ordered, n ∈ p.options.map (fun o => o._name))
    (hq : p.add_value ty tn dv name c desc need d reader = .ok q) :
    ∀ n ∈ q.ordered, n ∈ q.options.map (fun o => o._name) := by
  unfold parser.add_value at hq
  split at hq
  · cases hq
  · simp only [Except.ok.injEq] at hq
    subst hq
    intro n hn
    simp only [List.mem_append, List.mem_singleton] at hn
    rw [(map_insert_names _ _).mem_iff]
    rcases hn with hn | hn
    · exact List.mem_cons_of_mem _ (h n hn)
    · rw [hn]
      exact List.mem_cons_self _ _

/-! ## A rejected value at the end of a cluster -/

/-- No character of `pre` that the lookup resolves names a valued option, when no valued
option has its short name in `pre`. -/
theorem cluster_no_value (lk : List (Char × Str)) (os : List (option_base τ V))
    (hlk : (build_lookup os []).2 = .ok lk) (hu : (os.map (fun o => o._name)).Nodup)
    (pre : List Char) (hpre : ∀ x ∈ os, x.has_value = true → x._short_name ∉ pre)
    (ch : Char) (hch : ch ∈ pre) (hc : lookup_count lk ch = true) :
    has_value_at os (lookup_at lk ch) = false := by
  rcases build_lookup_sound os [] lk hlk ch hc with k | ⟨x, hx, hxs, hxn, -⟩
  · simp [lookup_count] at k
  · rw [← hxn]
    unfold has_value_at
    rw [find_of_mem hu hx]
    cases hv : x.has_value with
    | false => exact hv
    | true => exact absurd (hxs ▸ hch) (hpre x hx hv)

/-- The loop body on a single-dash token none of whose characters names a valued option: one
call for every character, and the next token is not taken. -/
theorem step_calls_cluster_only (lk : List (Char × Str)) (os : List (option_base τ V))
    (pre : List Char) (hne : pre ≠ []) (hd : pre.head? ≠ some '-')
    (hnv : ∀ ch ∈ pre, lookup_count lk ch = true → has_value_at os (lookup_at lk ch) = false)
    (next : Option Str) :
    step_calls lk os ('-' :: pre) next = (false, pre.map (cluster_char_call lk)) := by
  rcases List.eq_nil_or_concat' pre with e | ⟨fs, l, e⟩
  · exact absurd e hne
  · subst e
    have hl := hnv l (by simp)
    cases h : fs ++ [l] with
    | nil => simp at h
    | cons d ds =>
      rw [h] at hd
      have hd1 : d ≠ '-' := by simpa using hd
      have hcl := cluster_calls_snoc lk fs l d ds h.symm
      have hm : (d :: ds).map (cluster_char_call lk)
          = fs.map (cluster_char_call lk) ++ [cluster_char_call lk l] := by
        rw [← h, List.map_append]
        rfl
      rw [hm]
      by_cases h4 : lookup_count lk l = true
      · have h6 := hl h4
        by_cases h5 : (lookup_at lk l).isEmpty = true
        · have hc : cluster_char_call lk l
              = Call.error ("ambiguous short option: -".toList ++ [l]) := by
            unfold cluster_char_call
            simp [h4, h5]
          rw [hc]
          unfold step_calls
          simp [hd1, hcl, h4, h5]
        · have hc : cluster_char_call lk l = Call.flag (lookup_at lk l) := by
            unfold cluster_char_call
            simp [h4, h5]
          rw [hc]
          unfold step_calls
          cases next <;> simp [hd1, hcl, h4, h5, h6]
      · have hc : cluster_char_call lk l
            = Call.error ("undefined short option: -".toList ++ [l]) := by
          unfold cluster_char_call
          simp [h4]
        rw [hc]
        unfold step_calls
        simp [hd1, hcl, h4]

/-- A single-dash token that ends in the short name of a valued option, followed by the text:
the calls of the characters before, then `set_option(name, text)`; the same token without its
last character makes the calls of the characters before only. -/
theorem scan_calls_supply_cluster (lk : List (Char × Str)) (os : List (option_base τ V))
    (hlk : (build_lookup os []).2 = .ok lk) (hu : (os.map (fun o => o._name)).Nodup)
    (o : option_base τ V) (w : option_with_value τ V) (ho : o ∈ os)
    (hw : o.value = some w) (hs : o._short_name ≠ Char.ofNat 0) (hn : o._name ≠ [])
    (pre : List Char) (hdash : (pre ++ [o._short_name]).head? ≠ some '-')
    (hpre : ∀ x ∈ os, x.has_value = true → x._short_name ∉ pre) (t : Str)
    (after : List Str) :
    scan_calls lk os (['-' :: (pre ++ [o._short_name]), t] ++ after)
      = pre.map (cluster_char_call lk) ++ Call.value o._name t :: scan_calls lk os after
    ∧ scan_calls lk os ((if pre = [] then [] else ['-' :: pre]) ++ after)
      = pre.map (cluster_char_call lk) ++ scan_calls lk os after := by
  have hv : has_value_at os o._name = true := has_value_at_of_mem hu ho hw
  obtain ⟨k1, k2⟩ := build_lookup_complete os [] lk hlk o ho (by simpa using hn) hs
  constructor
  · cases hch : pre ++ [o._short_name] with
    | nil => simp at hch
    | cons d ds =>
      rw [hch] at hdash
      have hd : d ≠ '-' := by simpa using hdash
      have hcl := cluster_calls_snoc lk _ _ d ds hch.symm
      have e : step_calls lk os ('-' :: d :: ds) (some t)
          = (true, pre.map (cluster_char_call lk) ++ [Call.value o._name t]) := by
        unfold step_calls
        simp [hd, hcl, k1, k2, hn, hv]
      show scan_calls lk os (_ :: t :: after) = _
      rw [scan_calls, e]
      simp
  · by_cases hp : pre = []
    · subst hp
      rfl
    · rw [if_neg hp]
      have hd : pre.head? ≠ some '-' := by
        cases pre with
        | nil => exact absurd rfl hp
        | cons a as => simpa using hdash
      have hst := fun next => step_calls_cluster_only lk os pre hp hd
        (fun ch hch hc => cluster_no_value lk os hlk hu pre hpre ch hch hc) next
      rw [List.singleton_append, scan_calls_cons_not_taken lk os _ after
        (fun b => by rw [hst]), hst]

/-- A parse in which the scan hands a rejected value text to an option after the calls `cpre`
of the same token, against the parse of the argument list in which the tokens `kept`, which
make the calls `cpre` only, stand for the supplying tokens: the same options and positional
arguments, and one more error, after the errors of the tokens before and of `cpre`. -/
theorem rejected_core_calls (p : parser τ V) (lk : List (Char × Str))
    (hlk : (build_lookup p.options []).2 = .ok lk)
    (hu : (p.options.map (fun o => o._name)).Nodup)
    (o : option_base τ V) (ho : o ∈ p.options) (t : Str) (hr : read_of o t = none)
    (prog : Str) (before form kept after : List Str) (cpre : List Call)
    (hb : boundary lk p.options before = true)
    (hform : scan_calls lk p.options (form ++ after)
      = cpre ++ Call.value o._name t :: scan_calls lk p.options after)
    (hkept : scan_calls lk p.options (kept ++ after) = cpre ++ scan_calls lk p.options after)
    (hkept0 : scan_calls lk p.options (kept ++ []) = cpre ++ scan_calls lk p.options []) :
    (p.parse (prog :: (before ++ form ++ after))).2.options
      = (p.parse (prog :: (before ++ kept ++ after))).2.options
    ∧ (p.parse (prog :: (before ++ form ++ after))).2.others
      = (p.parse (prog :: (before ++ kept ++ after))).2.others
    ∧ ∃ E2, (p.parse (prog :: (before ++ kept ++ after))).2.errors
        = errors_of p.options (scan_calls lk p.options (before ++ kept)) ++ E2
      ∧ (p.parse (prog :: (before ++ form ++ after))).2.errors
        = errors_of p.options (scan_calls lk p.options (before ++ kept))
          ++ ("option value is invalid: --".toList ++ o._name ++ "=".toList ++ t) :: E2 := by
  have hA : scan_calls lk p.options (before ++ form ++ after)
      = (scan_calls lk p.options before ++ cpre)
        ++ Call.value o._name t :: scan_calls lk p.options after := by
    rw [List.append_assoc, scan_calls_append lk p.options before _ hb, hform,
      List.append_assoc]
  have hB : scan_calls lk p.options (before ++ kept ++ after)
      = (scan_calls lk p.options before ++ cpre) ++ scan_calls lk p.options after := by
    rw [List.append_assoc, scan_calls_append lk p.options before _ hb, hkept,
      List.append_assoc]
  have hK : scan_calls lk p.options (before ++ kept)
      = scan_calls lk p.options before ++ cpre := by
    rw [scan_calls_append lk p.options before _ hb]
    rw [List.append_nil] at hkept0
    rw [hkept0]
    simp [scan_calls]
  have hopts : p.options.map (fun x => elem_calls ((scan_calls lk p.options before ++ cpre)
        ++ Call.value o._name t :: scan_calls lk p.options after) (x.set false).2)
      = p.options.map (fun x => elem_calls ((scan_calls lk p.options before ++ cpre)
        ++ scan_calls lk p.options after) (x.set false).2) :=
    List.map_congr_left (fun x hx => elem_calls_rejected p.options hu o ho t hr _ _ x hx)
  rw [parse_ok p prog _ lk hlk, parse_ok p prog _ lk hlk, hA, hB, hK]
  refine ⟨hopts, ?_, ?_⟩
  · simp only [others_of_append, others_of]
  · refine ⟨errors_of p.options (scan_calls lk p.options after)
      ++ need_errors (p.options.map (fun x => elem_calls ((scan_calls lk p.options before
        ++ cpre) ++ scan_calls lk p.options after) (x.set false).2)), ?_, ?_⟩
    · simp only [errors_of_append, List.append_assoc]
    · rw [hopts]
      simp only [errors_of_append, errors_of, call_errors_rejected p.options hu o ho t hr,
        List.append_assoc, List.singleton_append, List.cons_append, List.nil_append]

/-! ## The claims

In the statements below, "no short-name collision" is the hypothesis `hlk`: the first loop of
`parse(argc, argv)` ends without ambiguity and has built the lookup `lk` (by
`build_lookup_ok_iff`, this is that no short name occurs twice among the options it looks at).
The hypothesis `hu` says that the keys of the map `options` are unique, as in every `std::map`
(`add_keys_unique`, `add_value_keys_unique` and `parse_keys` keep it). -/

/-- C1: on the fresh parser `scenario` (required string option `host`, optional int option
`port` with default 80 and range 1..65535, flag `gzip`), parsing
`["prog", "--host", "a.com", "--gzip", "extra1"]` returns true, `get<string>("host")` is
`"a.com"`, `get<int>("port")` is 80, `exist("gzip")` is true and `rest()` is `["extra1"]`. -/
theorem scenario_parse :
    (scenario.parse ["prog".toList, "--host".toList, "a.com".toList, "--gzip".toList,
        "extra1".toList]).1 = true
    ∧ (scenario.parse ["prog".toList, "--host".toList, "a.com".toList, "--gzip".toList,
        "extra1".toList]).2.get Ty.string "host".toList = .ok (Val.str "a.com".toList)
    ∧ (scenario.parse ["prog".toList, "--host".toList, "a.com".toList, "--gzip".toList,
        "extra1".toList]).2.get Ty.int "port".toList = .ok (Val.int 80)
    ∧ (scenario.parse ["prog".toList, "--host".toList, "a.com".toList, "--gzip".toList,
        "extra1".toList]).2.exist "gzip".toList = .ok true
    ∧ (scenario.parse ["prog".toList, "--host".toList, "a.com".toList, "--gzip".toList,
        "extra1".toList]).2.rest = ["extra1".toList] :=
  ⟨rfl, rfl, rfl, rfl, rfl⟩

/-- C2, as the claim states it, fails for two kinds of option. On `dash_registry` the option
`level` has the short name `-`, so `-c` is the token `--`: the parse of `["prog", "--", "5"]`
records "undefined option: --" and leaves `level` absent with its default. On
`empty_name_registry` the option has an empty long name, which the first loop of `parse`
leaves out of the lookup: the parse of `["prog", "-x", "5"]` records
"undefined short option: -x" and leaves the option absent with its default. The reader of both
accepts `5`. -/
theorem short_form_not_supplied :
    ((dash_registry.parse ["prog".toList, "--".toList, "5".toList]).2.get Ty.int
        "level".toList = .ok (Val.int 0)
      ∧ (dash_registry.parse ["prog".toList, "--".toList, "5".toList]).2.exist "level".toList
        = .ok false
      ∧ (dash_registry.parse ["prog".toList, "--".toList, "5".toList]).2.errors
        = ["undefined option: --".toList]
      ∧ (build_lookup dash_registry.options []).2 = .ok [('-', "level".toList)])
    ∧ ((empty_name_registry.parse ["prog".toList, "-x".toList, "5".toList]).2.get Ty.int []
        = .ok (Val.int 0)
      ∧ (empty_name_registry.parse ["prog".toList, "-x".toList, "5".toList]).2.exist []
        = .ok false
      ∧ (empty_name_registry.parse ["prog".toList, "-x".toList, "5".toList]).2.errors
        = ["undefined short option: -x".toList]
      ∧ (build_lookup empty_name_registry.options []).2 = .ok [])
    ∧ default_reader_int "5".toList = some (Val.int 5) :=
  ⟨⟨rfl, rfl, rfl, rfl⟩, ⟨rfl, rfl, rfl, rfl⟩, rfl⟩

/-- C2, amended: for every registry without short-name collision, every valued option `name`
whose long name contains no `=`, with reader R, and every text V that R accepts, parsing an
argument list that supplies the option as the token `--name=V`, as `--name` followed by the
token V, or (when the long name is not empty and the short name c is not `-`) as `-c` followed
by the token V, at a place that the scan reaches as a token, and that supplies the option
nowhere after it, leaves `get(name)` equal to R(V) and `exist(name)` true, and the error list
is the one of the same argument list without the supplying tokens, less the entry
"need option: --name". -/
theorem supplied_value_round_trip [DecidableEq τ] (p : parser τ V) (lk : List (Char × Str))
    (hlk : (build_lookup p.options []).2 = .ok lk)
    (hu : (p.options.map (fun o => o._name)).Nodup)
    (o : option_base τ V) (w : option_with_value τ V) (ho : o ∈ p.options)
    (hw : o.value = some w) (hname : '=' ∉ o._name) (t : Str) (v : V)
    (hR : w.read t = some v) (prog : Str) (before form after : List Str)
    (hb : boundary lk p.options before = true)
    (hafter : supplied_values p.options o._name (prog :: after) = [])
    (hform : form = ['-' :: '-' :: (o._name ++ '=' :: t)]
      ∨ form = ['-' :: '-' :: o._name, t]
      ∨ (form = [['-', o._short_name], t] ∧ o._short_name ≠ Char.ofNat 0
          ∧ o._short_name ≠ '-' ∧ o._name ≠ [])) :
    (p.parse (prog :: (before ++ form ++ after))).2.get w.ty o._name = .ok v
    ∧ (p.parse (prog :: (before ++ form ++ after))).2.exist o._name = .ok true
    ∧ (p.parse (prog :: (before ++ form ++ after))).2.errors
      = ((p.parse (prog :: (before ++ after))).2.errors).filter
          (fun e => decide (e ≠ "need option: --".toList ++ o._name)) := by
  have hv : has_value_at p.options o._name = true := has_value_at_of_mem hu ho hw
  apply supplied_core p lk hlk hu o w ho hw t v hR prog before form after hb hafter
  rcases hform with h | h | ⟨h, h0, hd, hn⟩
  · subst h
    rw [List.singleton_append, scan_calls_cons_not_taken lk p.options _ after
      (fun b => by rw [step_calls_long_eq lk p.options _ _ hname]),
      step_calls_long_eq lk p.options _ _ hname]
    rfl
  · subst h
    have e := step_calls_long lk p.options o._name t hname hv
    show scan_calls lk p.options (_ :: t :: after) = _
    rw [scan_calls, e]
    rfl
  · subst h
    obtain ⟨k1, k2⟩ := build_lookup_complete p.options [] lk hlk o ho
      (by simpa using hn) h0
    have e := step_calls_short lk p.options o._short_name o._name t hd k1 k2 hn hv
    show scan_calls lk p.options (_ :: t :: after) = _
    rw [scan_calls, e]
    rfl

/-- C2, amended, on `scenario`: `["prog", "--gzip", "--port=8080", "extra1"]`. -/
theorem supplied_value_round_trip_witness :
    (scenario.parse ("prog".toList :: (["--gzip".toList] ++ ["--port=8080".toList]
        ++ ["extra1".toList]))).2.get Ty.int "port".toList = .ok (Val.int 8080)
    ∧ (scenario.parse ("prog".toList :: (["--gzip".toList] ++ ["--port=8080".toList]
        ++ ["extra1".toList]))).2.exist "port".toList = .ok true
    ∧ (scenario.parse ("prog".toList :: (["--gzip".toList] ++ ["--port=8080".toList]
        ++ ["extra1".toList]))).2.errors
      = ((scenario.parse ("prog".toList :: (["--gzip".toList]
          ++ ["extra1".toList]))).2.errors).filter
          (fun e => decide (e ≠ "need option: --".toList ++ "port".toList)) :=
  supplied_value_round_trip scenario [('p', "port".toList)] rfl (by decide) scenario_port
    { ty := Ty.int, _need := false, _def := Val.int 80, _actual := Val.int 80,
      read := range_int 1 65535 }
    (by simp [scenario, scenario_port, parser.add_value, parser.add, parser.init,
      Except.get_or, map_insert, str_lt, count]) rfl (by decide) "8080".toList (Val.int 8080)
    rfl "prog".toList ["--gzip".toList] ["--port=8080".toList] ["extra1".toList] rfl rfl
    (Or.inl rfl)

/-- C3, as the claim states it, fails: on `scenario` (int option `port` declared with default
80), a first parse supplies `--port 8080`; the second parse, of `["prog", "--host", "a.com"]`,
does not supply `port`, and after it `get<int>("port")` is 8080, not the default 80. -/
theorem default_lost_after_earlier_parse :
    ((scenario.parse ["prog".toList, "--host".toList, "a.com".toList, "--port".toList,
        "8080".toList]).2.parse ["prog".toList, "--host".toList, "a.com".toList]).2.get Ty.int
        "port".toList = .ok (Val.int 8080)
    ∧ supplied_values scenario.options "port".toList
        ["prog".toList, "--host".toList, "a.com".toList] = []
    ∧ (find scenario.options "port".toList).map
        (fun o => o.value.map (fun w => w._def)) = some (some (Val.int 80)) :=
  ⟨rfl, rfl, rfl⟩

/-- C3, amended: for every valued option declared with default D that still holds D (no
earlier parse call has supplied it an accepted value), after any sequence of parse calls whose
argument lists do not supply that option, `get(name)` returns D. -/
theorem default_when_not_supplied [DecidableEq τ] (p : parser τ V) (argvs : List (List Str))
    (name : Str) (o : option_base τ V) (w : option_with_value τ V)
    (ho : find p.options name = some o) (hw : o.value = some w) (hD : w._actual = w._def)
    (hns : ∀ argv ∈ argvs, supplied_values p.options name argv = []) :
    (argvs.foldl (fun q argv => (q.parse argv).2) p).get w.ty name = .ok w._def := by
  rw [parses_get_not_supplied p argvs w.ty name hns]
  unfold parser.get
  rw [ho]
  simp only [hw, hD, if_true]

/-- C3, amended, on `scenario`: two parse calls that do not supply `port` leave the default. -/
theorem default_when_not_supplied_witness :
    (([["prog".toList, "--host".toList, "a.com".toList], ["prog".toList, "--gzip".toList]] :
        List (List Str)).foldl (fun q argv => (q.parse argv).2) scenario).get Ty.int
      "port".toList = .ok (Val.int 80) :=
  default_when_not_supplied scenario _ "port".toList scenario_port
    { ty := Ty.int, _need := false, _def := Val.int 80, _actual := Val.int 80,
      read := range_int 1 65535 } rfl rfl rfl (by
      intro argv h
      simp only [List.mem_cons, List.mem_singleton, List.not_mem_nil, or_false] at h
      rcases h with h | h <;> subst h <;> rfl)

/-- C4 fails on the code: on `port_registry` (int option `port`, required, short name `p`),
the parse of `["prog", "-p"]` returns true with no error although no value text is supplied to
`port`: the last character of the single-dash token goes through `set_option(name)`, whose
`set(true)` marks the option present, and `get` still returns the declared default. -/
theorem required_without_value_accepted :
    (port_registry.parse ["prog".toList, "-p".toList]).1 = true
    ∧ (port_registry.parse ["prog".toList, "-p".toList]).2.errors = []
    ∧ supplied_values port_registry.options "port".toList ["prog".toList, "-p".toList] = []
    ∧ (port_registry.parse ["prog".toList, "-p".toList]).2.exist "port".toList = .ok true
    ∧ (port_registry.parse ["prog".toList, "-p".toList]).2.get Ty.int "port".toList
        = .ok (Val.int 0) :=
  ⟨rfl, rfl, rfl, rfl, rfl⟩

/-- C6, as the claim states it, fails also where no slip of the code is involved: on
`shared_registry` (two options share the short name `p`) the parse of `["prog", "--port"]`
stops at the ambiguity and records no missing-value error; on `equals_registry` (an option
with the long name `k=v`) the token `--k=v` is split at the `=`, and the error is the
undefined option `k`. -/
theorem missing_value_not_recorded :
    (shared_registry.parse ["prog".toList, "--port".toList]).2.errors
      = ["short option 'p' is ambiguous".toList]
    ∧ has_value_at shared_registry.options "port".toList = true
    ∧ (equals_registry.parse ["prog".toList, "--k=v".toList]).2.errors
      = ["undefined option: --k".toList]
    ∧ has_value_at equals_registry.options "k=v".toList = true :=
  ⟨rfl, rfl, rfl, rfl⟩

/-- C6, amended: for every registry without short-name collisions and every valued option
`name` whose long name contains no `=`, when the token `--name` is the last of the argument
list (after tokens whose scan stops before it), the parse records
"option needs value: --name" and returns false. -/
theorem missing_value_long (p : parser τ V) (lk : List (Char × Str))
    (hlk : (build_lookup p.options []).2 = .ok lk) (name : Str) (hname : '=' ∉ name)
    (hv : has_value_at p.options name = true) (prog : Str) (before : List Str)
    (hb : boundary lk p.options before = true) :
    (p.parse (prog :: (before ++ ['-' :: '-' :: name]))).1 = false
    ∧ "option needs value: --".toList ++ name
        ∈ (p.parse (prog :: (before ++ ['-' :: '-' :: name]))).2.errors := by
  have hc : scan_calls lk p.options (before ++ ['-' :: '-' :: name])
      = scan_calls lk p.options before
        ++ [Call.error ("option needs value: --".toList ++ name)] := by
    rw [scan_calls_append lk p.options before _ hb]
    congr 1
    simp [scan_calls, step_calls, hname, hv, has_value_at_count hv]
  rw [parse_ok p prog _ lk hlk, hc]
  simp [errors_of_append, errors_of, call_errors]

/-- C6, amended, on `port_registry`: `["prog", "--port"]`. -/
theorem missing_value_long_witness :
    (port_registry.parse ["prog".toList, "--port".toList]).1 = false
    ∧ "option needs value: --port".toList
        ∈ (port_registry.parse ["prog".toList, "--port".toList]).2.errors :=
  missing_value_long port_registry [('p', "port".toList), ('a', "all".toList)] rfl
    "port".toList (by decide) rfl "prog".toList [] rfl

/-- C7 fails on the code: on `port_registry` (flag `all` with short name `a`, int option `port`
with short name `p`), the parse of `["prog", "-pa"]`, where the valued `p` is not the final
character, records no error at all, marks `port` present and returns true. -/
theorem valued_inside_cluster_accepted :
    (port_registry.parse ["prog".toList, "-pa".toList]).2.errors = []
    ∧ (port_registry.parse ["prog".toList, "-pa".toList]).2.exist "port".toList = .ok true
    ∧ (port_registry.parse ["prog".toList, "-pa".toList]).1 = true :=
  ⟨rfl, rfl, rfl⟩

/-- C8, as the claim states it, fails for two kinds of flag. On `dash_flag_registry` the flag
`dash` has the short name `-`, so the token `--p` is read as the long option `p`: the parse of
`["prog", "--p", "8080"]` records "undefined option: --p" and sets nothing. On
`empty_flag_registry` the flag with the short name `a` has an empty long name, which the first
loop of `parse` leaves out of the lookup: the parse of `["prog", "-ap", "8080"]` records
"undefined short option: -a" and leaves the flag absent. -/
theorem cluster_not_resolved :
    ((dash_flag_registry.parse ["prog".toList, "--p".toList, "8080".toList]).2.errors
        = ["undefined option: --p".toList]
      ∧ (dash_flag_registry.parse ["prog".toList, "--p".toList, "8080".toList]).2.exist
        "dash".toList = .ok false
      ∧ (dash_flag_registry.parse ["prog".toList, "--p".toList, "8080".toList]).2.get Ty.int
        "port".toList = .ok (Val.int 80)
      ∧ (build_lookup dash_flag_registry.options []).2
        = .ok [('p', "port".toList), ('-', "dash".toList)])
    ∧ ((empty_flag_registry.parse ["prog".toList, "-ap".toList, "8080".toList]).2.errors
        = ["undefined short option: -a".toList]
      ∧ (empty_flag_registry.parse ["prog".toList, "-ap".toList, "8080".toList]).2.exist []
        = .ok false
      ∧ (build_lookup empty_flag_registry.options []).2 = .ok [('p', "port".toList)])
    ∧ range_int 1 65535 "8080".toList = some (Val.int 8080) :=
  ⟨⟨rfl, rfl, rfl, rfl⟩, ⟨rfl, rfl, rfl⟩, rfl⟩

/-- C8, amended: for every registry without short-name collision, every sequence of k >= 0
flags with non-empty long names and short names f1..fk, and every valued option with a
non-empty long name, short name p and reader R, where the first character of `f1...fkp` is not
`-`: parsing `[prog, "-f1...fkp", V]` with R(V) succeeding marks every flag f1..fk present,
sets the valued option to R(V) and marks it present, and the error list holds nothing but the
"need option" errors of the other required options. -/
theorem short_cluster_value [DecidableEq τ] (p : parser τ V) (lk : List (Char × Str))
    (hlk : (build_lookup p.options []).2 = .ok lk)
    (hu : (p.options.map (fun o => o._name)).Nodup)
    (flags : List (option_base τ V))
    (hflags : ∀ x ∈ flags, x ∈ p.options ∧ x.value = none ∧ x._short_name ≠ Char.ofNat 0
      ∧ x._name ≠ [])
    (o : option_base τ V) (w : option_with_value τ V) (ho : o ∈ p.options)
    (hw : o.value = some w) (hs : o._short_name ≠ Char.ofNat 0) (hn : o._name ≠ [])
    (hdash : (flags.map (fun x => x._short_name) ++ [o._short_name]).head? ≠ some '-')
    (t : Str) (v : V) (hR : w.read t = some v) (prog : Str) :
    (∀ x ∈ flags, (p.parse [prog, '-' :: (flags.map (fun x => x._short_name)
        ++ [o._short_name]), t]).2.exist x._name = .ok true)
    ∧ (p.parse [prog, '-' :: (flags.map (fun x => x._short_name)
        ++ [o._short_name]), t]).2.get w.ty o._name = .ok v
    ∧ (p.parse [prog, '-' :: (flags.map (fun x => x._short_name)
        ++ [o._short_name]), t]).2.exist o._name = .ok true
    ∧ (p.parse [prog, '-' :: (flags.map (fun x => x._short_name)
        ++ [o._short_name]), t]).2.errors
      = (p.options.filter (fun x => x.must && decide (x._name ≠ o._name))).map
          (fun x => "need option: --".toList ++ x._name) := by
  have hv : has_value_at p.options o._name = true := has_value_at_of_mem hu ho hw
  obtain ⟨k1, k2⟩ := build_lookup_complete p.options [] lk hlk o ho (by simpa using hn) hs
  have hfc : flags.map (fun x => cluster_char_call lk x._short_name)
      = flags.map (fun x => Call.flag x._name) := by
    apply List.map_congr_left
    intro x hx
    obtain ⟨m1, -, m3, m4⟩ := hflags x hx
    obtain ⟨j1, j2⟩ := build_lookup_complete p.options [] lk hlk x m1 (by simpa using m4) m3
    simp [cluster_char_call, j1, j2, m4]
  have hcs : scan_calls lk p.options ['-' :: (flags.map (fun x => x._short_name)
      ++ [o._short_name]), t]
      = flags.map (fun x => Call.flag x._name) ++ Call.value o._name t :: [] := by
    cases hch : flags.map (fun x => x._short_name) ++ [o._short_name] with
    | nil => simp at hch
    | cons d ds =>
      rw [hch] at hdash
      have hd : d ≠ '-' := by simpa using hdash
      have hcl := cluster_calls_snoc lk _ _ d ds hch.symm
      have e : step_calls lk p.options ('-' :: d :: ds) (some t)
          = (true, (flags.map (fun x => x._short_name)).map (cluster_char_call lk)
              ++ [Call.value o._name t]) := by
        unfold step_calls
        simp [hd, hcl, k1, k2, hn, hv]
      rw [scan_calls, e, List.map_map]
      simp only [if_true, scan_calls, List.append_nil]
      rw [← hfc]
      rfl
  have hread : read_of (o.set false).2 t = some v := by
    simp [read_of, option_base.set, hw, hR]
  obtain ⟨s1, s2⟩ := elem_calls_supplied (flags.map (fun x => Call.flag x._name)) []
    (o.set false).2 t v hread (by simp)
  have hfo : find p.options o._name = some o := find_of_mem hu ho
  have hp := parse_ok p prog ['-' :: (flags.map (fun x => x._short_name)
      ++ [o._short_name]), t] lk hlk
  rw [hcs] at hp
  have hfind : ∀ y ∈ p.options, find (p.parse [prog, '-' :: (flags.map
      (fun x => x._short_name) ++ [o._short_name]), t]).2.options y._name
      = some (elem_calls (flags.map (fun x => Call.flag x._name)
        ++ Call.value o._name t :: []) (y.set false).2) := by
    intro y hy
    rw [hp]
    simp only
    rw [find_map_name _ (scanned_name _), find_of_mem hu hy]
    rfl
  refine ⟨?_, ?_, ?_, ?_⟩
  · intro x hx
    obtain ⟨m1, -, -, -⟩ := hflags x hx
    apply exist_of_has _ _ _ (hfind x m1)
    apply elem_calls_has_of_flag
    exact List.mem_append_left _ (List.mem_map.2 ⟨x, hx, rfl⟩)
  · exact get_of_actual _ _ _ o w v (hfind o ho) (by rw [decl_elem_calls, decl_set_false]) hw s2
  · exact exist_of_has _ _ _ (hfind o ho) s1
  · rw [hp]
    simp only
    have he : errors_of p.options (flags.map (fun x => Call.flag x._name)
        ++ Call.value o._name t :: []) = [] := by
      rw [errors_of_append, errors_of_flags p.options flags
        (fun x hx => find_of_mem hu (hflags x hx).1)]
      have : (o.set_string t).1 = true := (set_string_some o t v (by
        simp [read_of, hw, hR])).1
      simp [errors_of, call_errors, hfo, this]
    rw [he, List.nil_append]
    apply need_errors_map_filter _ _ _ (scanned_name _)
    intro y hy
    by_cases hyo : y._name = o._name
    · have : y = o := eq_of_name_eq hu hy ho hyo
      subst this
      refine (valid_of_has _ s1).trans ?_
      simp
    · by_cases hm : y.must = true
      · have hk : elem_calls (flags.map (fun x => Call.flag x._name)
            ++ Call.value o._name t :: []) (y.set false).2 = (y.set false).2 := by
          apply elem_calls_not_target
          intro c hc
          rcases List.mem_append.1 hc with hc | hc
          · obtain ⟨x, hx, rfl⟩ := List.mem_map.1 hc
            refine ⟨fun k => ?_, fun z k => Call.noConfusion k⟩
            obtain ⟨m1, m2, -, -⟩ := hflags x hx
            have : x = y := eq_of_name_eq hu m1 hy (Call.flag.inj k)
            subst this
            simp [option_base.must, m2] at hm
          · simp only [List.mem_singleton] at hc
            subst hc
            exact ⟨fun k => Call.noConfusion k, fun z k => hyo (Call.value.inj k).1.symm⟩
        rw [hk]
        unfold option_base.must at hm
        cases hyv : y.value with
        | none => rw [hyv] at hm; simp at hm
        | some wy =>
          rw [hyv] at hm
          simp only at hm
          simp [option_base.valid, option_base.set, option_base.must, hyv, hm, hyo]
      · have hm' : y.must = false := by simpa using hm
        rw [valid_of_not_must _ (by
          rw [← must_decl, decl_elem_calls, decl_set_false, must_decl]; exact hm')]
        simp [hm']

/-- C8, amended, on `cluster_registry` (flags `a`, `b`, int option `p`): the input `-abp 8080`
gives `all` and `bare` present and `port` = 8080, with no error. -/
theorem short_cluster_value_witness :
    (∀ x ∈ [cluster_all, cluster_bare], (cluster_registry.parse ["prog".toList,
        '-' :: ([cluster_all, cluster_bare].map (fun x => x._short_name) ++ ['p']),
        "8080".toList]).2.exist x._name = .ok true)
    ∧ (cluster_registry.parse ["prog".toList,
        '-' :: ([cluster_all, cluster_bare].map (fun x => x._short_name) ++ ['p']),
        "8080".toList]).2.get Ty.int "port".toList = .ok (Val.int 8080)
    ∧ (cluster_registry.parse ["prog".toList,
        '-' :: ([cluster_all, cluster_bare].map (fun x => x._short_name) ++ ['p']),
        "8080".toList]).2.exist "port".toList = .ok true
    ∧ (cluster_registry.parse ["prog".toList,
        '-' :: ([cluster_all, cluster_bare].map (fun x => x._short_name) ++ ['p']),
        "8080".toList]).2.errors
      = (cluster_registry.options.filter
          (fun x => x.must && decide (x._name ≠ "port".toList))).map
          (fun x => "need option: --".toList ++ x._name) :=
  short_cluster_value cluster_registry
    [('p', "port".toList), ('b', "bare".toList), ('a', "all".toList)] rfl (by decide)
    [cluster_all, cluster_bare]
    (by
      intro x hx
      simp only [List.mem_cons, List.mem_singleton, List.not_mem_nil, or_false] at hx
      rcases hx with hx | hx <;> subst hx <;>
        simp [cluster_registry, cluster_all, cluster_bare, parser.add_value, parser.add,
          parser.init, Except.get_or, map_insert, str_lt, count])
    scenario_port
    { ty := Ty.int, _need := false, _def := Val.int 80, _actual := Val.int 80,
      read := range_int 1 65535 }
    (by simp [cluster_registry, scenario_port, parser.add_value, parser.add, parser.init,
      Except.get_or, map_insert, str_lt, count]) rfl (by decide) (by decide) (by decide)
    "8080".toList (Val.int 8080) rfl "prog".toList

/-- C9: for every parser state and every argument list (readers are functions of the text),
calling `parse` twice in succession with the same argument list, through the argc/argv entry
or through the string-list entry, leaves exactly the state (option values, presence flags,
error list, rest list) and the return value of the first call. -/
theorem parse_idempotent (p : parser τ V) (argv : List Str) :
    (p.parse argv).2.parse argv = p.parse argv
    ∧ (p.parse_args argv).2.parse_args argv = p.parse_args argv :=
  ⟨parse_twice p argv, parse_twice p (argv.map c_str)⟩

/-- C10: for every registry with no short-name collision and no required option, and every
argument list whose tokens after index 0 each name an undeclared option (`--x`, `--x=v`, or
`-x` with one character), the error list after `parse` is the list of the undefined-option
errors of these tokens, in order (so it has as many entries as there are tokens), and `parse`
returns false when there is at least one token. -/
theorem undefined_options_accumulate (p : parser τ V) (lk : List (Char × Str))
    (hlk : (build_lookup p.options []).2 = .ok lk)
    (hreq : ∀ o ∈ p.options, o.must = false) (prog : Str) (toks : List Str)
    (htoks : ∀ t ∈ toks, names_undeclared p.options t = true) :
    (p.parse (prog :: toks)).2.errors = toks.map undefined_error
    ∧ ((p.parse (prog :: toks)).2.errors).length = toks.length
    ∧ (toks ≠ [] → (p.parse (prog :: toks)).1 = false) := by
  have he : errors_of p.options (scan_calls lk p.options toks) = toks.map undefined_error := by
    induction toks with
    | nil => rfl
    | cons t ts ih =>
      have ht := htoks t (List.mem_cons_self _ _)
      rw [scan_calls_cons_not_taken lk p.options t ts
        (fun b => (step_calls_undeclared lk p.options hlk t ht (some b)).1),
        errors_of_append, (step_calls_undeclared lk p.options hlk t ht none).2,
        ih (fun t' h' => htoks t' (List.mem_cons_of_mem _ h'))]
      rfl
  have hn : need_errors (p.options.map
      (fun o => elem_calls (scan_calls lk p.options toks) (o.set false).2)) = [] := by
    apply need_errors_nil
    intro o ho
    obtain ⟨x, hx, rfl⟩ := List.mem_map.1 ho
    apply valid_of_not_must
    rw [← must_decl, decl_elem_calls, decl_set_false, must_decl]
    exact hreq x hx
  have hp := parse_ok p prog toks lk hlk
  rw [he, hn, List.append_nil] at hp
  rw [hp]
  refine ⟨rfl, by simp, ?_⟩
  intro hne
  cases toks with
  | nil => exact absurd rfl hne
  | cons t ts => rfl

/-- C10 on `shared_free` (no required option): three tokens that name undeclared options give
three errors, in order. -/
theorem undefined_options_accumulate_witness :
    (shared_free.parse ["prog".toList, "--x".toList, "-y".toList, "--z=1".toList]).2.errors
      = ["undefined option: --x".toList, "undefined short option: -y".toList,
         "undefined option: --z".toList]
    ∧ ((shared_free.parse
        ["prog".toList, "--x".toList, "-y".toList, "--z=1".toList]).2.errors).length = 3
    ∧ ((["--x".toList, "-y".toList, "--z=1".toList] : List Str) ≠ [] →
      (shared_free.parse ["prog".toList, "--x".toList, "-y".toList, "--z=1".toList]).1
        = false) :=
  undefined_options_accumulate shared_free [('p', "port".toList), ('a', "all".toList)] rfl
    (by decide) "prog".toList ["--x".toList, "-y".toList, "--z=1".toList] (by decide)

/-- C11, as the claim states it, fails for four kinds of registry where no slip of the code
is involved; in each the token supplies the option with a text that its reader rejects, and
no "option value is invalid" error is recorded. On `shared_registry` (two options share the
short name `p`) the parse of `["prog", "--port=70000"]` stops at the ambiguity; on
`equals_registry` (option `k=v`) the token `--k=v=abc` is split at the first `=`; on
`dash_registry` (option `level` with the short name `-`) the token `--` is a long option; on
`empty_name_registry` (option with the empty long name and the short name `x`) the short name
is left out of the lookup. -/
theorem invalid_value_not_recorded :
    (range_int 1 65535 "70000".toList = none
      ∧ (shared_registry.parse ["prog".toList, "--port=70000".toList]).2.errors
        = ["short option 'p' is ambiguous".toList])
    ∧ (default_reader_int "abc".toList = none
      ∧ (equals_registry.parse ["prog".toList, "--k=v=abc".toList]).2.errors
        = ["undefined option: --k".toList])
    ∧ ((dash_registry.parse ["prog".toList, "--".toList, "abc".toList]).2.errors
        = ["undefined option: --".toList]
      ∧ (dash_registry.parse ["prog".toList, "--".toList, "abc".toList]).2.rest
        = ["abc".toList])
    ∧ ((empty_name_registry.parse ["prog".toList, "-x".toList, "abc".toList]).2.errors
        = ["undefined short option: -x".toList]
      ∧ (empty_name_registry.parse ["prog".toList, "-x".toList, "abc".toList]).2.rest
        = ["abc".toList]) :=
  ⟨⟨rfl, rfl⟩, ⟨rfl, rfl⟩, ⟨rfl, rfl⟩, ⟨rfl, rfl⟩⟩

/-- C11, amended: in a registry without short-name collision, when the argument list hands to
a valued option `name` a text that its reader rejects, as the token `--name=text` or as
`--name` followed by the token text (long name without `=`), or as a single-dash token that
ends in the short name c of the option, followed by the token text (long name not empty, the
token does not start with `--`, and no character before c is the short name of a valued
option), at a place that the scan reaches as a token, the parse returns false; its error
list is the one of the argument list without the supplying tokens (of a cluster the
characters before c are kept, as the token `kept`) with "option value is invalid:
--name=text" inserted after the errors of the tokens before and of the kept characters; every
option object (value and presence flag) and the positional arguments are as after the parse
without the supplying tokens, so the tokens after are processed as they would be without
them. When no other token names the option, `get(name)` is the value the option held before
the call (the declared default on a fresh parser) and `exist(name)` is false. -/
theorem invalid_value_atomic [DecidableEq τ] (p : parser τ V) (lk : List (Char × Str))
    (hlk : (build_lookup p.options []).2 = .ok lk)
    (hu : (p.options.map (fun o => o._name)).Nodup)
    (o : option_base τ V) (w : option_with_value τ V) (ho : o ∈ p.options)
    (hw : o.value = some w) (t : Str)
    (hR : w.read t = none) (prog : Str) (before form kept after : List Str)
    (hb : boundary lk p.options before = true)
    (hform : (form = ['-' :: '-' :: (o._name ++ '=' :: t)] ∧ kept = [] ∧ '=' ∉ o._name)
      ∨ (form = ['-' :: '-' :: o._name, t] ∧ kept = [] ∧ '=' ∉ o._name)
      ∨ (∃ pre : List Char, form = ['-' :: (pre ++ [o._short_name]), t]
          ∧ kept = (if pre = [] then [] else ['-' :: pre])
          ∧ o._short_name ≠ Char.ofNat 0 ∧ o._name ≠ []
          ∧ (pre ++ [o._short_name]).head? ≠ some '-'
          ∧ ∀ x ∈ p.options, x.has_value = true → x._short_name ∉ pre)) :
    (p.parse (prog :: (before ++ form ++ after))).1 = false
    ∧ (∃ E2, (p.parse (prog :: (before ++ kept ++ after))).2.errors
        = errors_of p.options (scan_calls lk p.options (before ++ kept)) ++ E2
      ∧ (p.parse (prog :: (before ++ form ++ after))).2.errors
        = errors_of p.options (scan_calls lk p.options (before ++ kept))
          ++ ("option value is invalid: --".toList ++ o._name ++ "=".toList ++ t) :: E2)
    ∧ (p.parse (prog :: (before ++ form ++ after))).2.options
      = (p.parse (prog :: (before ++ kept ++ after))).2.options
    ∧ (p.parse (prog :: (before ++ form ++ after))).2.rest
      = (p.parse (prog :: (before ++ kept ++ after))).2.rest
    ∧ ((∀ tok ∈ before ++ kept ++ after, names_option o._name o._short_name tok = false) →
      (p.parse (prog :: (before ++ form ++ after))).2.get w.ty o._name = .ok w._actual
      ∧ (p.parse (prog :: (before ++ form ++ after))).2.exist o._name = .ok false) := by
  have hr : read_of o t = none := by
    unfold read_of
    rw [hw]
    exact hR
  have hcalls : ∃ cpre,
      scan_calls lk p.options (form ++ after)
        = cpre ++ Call.value o._name t :: scan_calls lk p.options after
      ∧ scan_calls lk p.options (kept ++ after) = cpre ++ scan_calls lk p.options after
      ∧ scan_calls lk p.options (kept ++ []) = cpre ++ scan_calls lk p.options [] := by
    rcases hform with ⟨hf, hk, hname⟩ | ⟨hf, hk, hname⟩ | ⟨pre, hf, hk, hs, hn, hd, hpre⟩
    · subst hk
      exact ⟨[], scan_calls_supply lk p.options hlk hu o w ho hw hname t form after
        (Or.inl hf), rfl, rfl⟩
    · subst hk
      exact ⟨[], scan_calls_supply lk p.options hlk hu o w ho hw hname t form after
        (Or.inr (Or.inl hf)), rfl, rfl⟩
    · subst hf hk
      exact ⟨pre.map (cluster_char_call lk),
        (scan_calls_supply_cluster lk p.options hlk hu o w ho hw hs hn pre hd hpre t after).1,
        (scan_calls_supply_cluster lk p.options hlk hu o w ho hw hs hn pre hd hpre t after).2,
        (scan_calls_supply_cluster lk p.options hlk hu o w ho hw hs hn pre hd hpre t []).2⟩
  obtain ⟨cpre, c1, c2, c3⟩ := hcalls
  obtain ⟨h1, h2, E2, h3, h4⟩ := rejected_core_calls p lk hlk hu o ho t hr prog before form
    kept after cpre hb c1 c2 c3
  refine ⟨?_, ⟨E2, h3, h4⟩, h1, h2, ?_⟩
  · cases hk : (p.parse (prog :: (before ++ form ++ after))).1 with
    | false => rfl
    | true =>
      have := (parse_true_iff p _).1 hk
      rw [h4] at this
      simp at this
  · intro hn
    have hf : find (p.parse (prog :: (before ++ form ++ after))).2.options o._name
        = some (o.set false).2 := by
      rw [h1, parse_ok p prog _ lk hlk]
      simp only
      rw [find_map_name (fun x => elem_calls (scan_calls lk p.options (before ++ kept ++ after))
          (x.set false).2) (fun x => scanned_name _ x), find_of_mem hu ho, Option.map_some',
        scan_not_naming lk p.options hlk hu o ho _ hn (o.set false).2 rfl]
    constructor
    · unfold parser.get
      rw [hf]
      simp [option_base.set, hw]
    · unfold parser.exist
      rw [hf]
      rfl

/-- C11, amended, on `cluster_registry` (flags `all` and `bare` with the short names `a` and
`b`, int option `port` with the short name `p` and the range 1..65535): in `["prog", "-abp",
"70000", "extra"]` the reader of `port` rejects `70000`; the error is recorded, `port` keeps
its default 80 and is not present, the flags are set and `extra` is a positional argument,
as after the parse of `["prog", "-ab", "extra"]`. On `scenario` the token `--port=70000`
between `--gzip` and `extra1` does the same. -/
theorem invalid_value_atomic_witness :
    (range_int 1 65535 "70000".toList = none
      ∧ (cluster_registry.parse ("prog".toList :: ([] ++ ["-abp".toList, "70000".toList]
          ++ ["extra".toList]))).1 = false
      ∧ (cluster_registry.parse ("prog".toList :: ([] ++ ["-abp".toList, "70000".toList]
          ++ ["extra".toList]))).2.options
        = (cluster_registry.parse ("prog".toList :: ([] ++ ["-ab".toList]
          ++ ["extra".toList]))).2.options
      ∧ (cluster_registry.parse ("prog".toList :: ([] ++ ["-abp".toList, "70000".toList]
          ++ ["extra".toList]))).2.get Ty.int "port".toList = .ok (Val.int 80)
      ∧ (cluster_registry.parse ("prog".toList :: ([] ++ ["-abp".toList, "70000".toList]
          ++ ["extra".toList]))).2.exist "port".toList = .ok false
      ∧ (cluster_registry.parse ("prog".toList :: ([] ++ ["-abp".toList, "70000".toList]
          ++ ["extra".toList]))).2.errors = ["option value is invalid: --port=70000".toList]
      ∧ (cluster_registry.parse ("prog".toList :: ([] ++ ["-abp".toList, "70000".toList]
          ++ ["extra".toList]))).2.exist "all".toList = .ok true
      ∧ (cluster_registry.parse ("prog".toList :: ([] ++ ["-abp".toList, "70000".toList]
          ++ ["extra".toList]))).2.rest = ["extra".toList])
    ∧ ((scenario.parse ("prog".toList :: (["--gzip".toList] ++ ["--port=70000".toList]
          ++ ["extra1".toList]))).1 = false
      ∧ (scenario.parse ("prog".toList :: (["--gzip".toList] ++ ["--port=70000".toList]
          ++ ["extra1".toList]))).2.get Ty.int "port".toList = .ok (Val.int 80)
      ∧ (scenario.parse ("prog".toList :: (["--gzip".toList] ++ ["--port=70000".toList]
          ++ ["extra1".toList]))).2.exist "port".toList = .ok false
      ∧ (scenario.parse ("prog".toList :: (["--gzip".toList] ++ ["--port=70000".toList]
          ++ ["extra1".toList]))).2.errors
        = ["option value is invalid: --port=70000".toList, "need option: --host".toList]
      ∧ (scenario.parse ("prog".toList :: (["--gzip".toList] ++ ["--port=70000".toList]
          ++ ["extra1".toList]))).2.rest = ["extra1".toList]) :=
  have k := invalid_value_atomic cluster_registry
    [('p', "port".toList), ('b', "bare".toList), ('a', "all".toList)] rfl (by decide)
    scenario_port
    { ty := Ty.int, _need := false, _def := Val.int 80, _actual := Val.int 80,
      read := range_int 1 65535 }
    (by simp [cluster_registry, scenario_port, parser.add_value, parser.add, parser.init,
      Except.get_or, map_insert, str_lt, count]) rfl "70000".toList
    rfl "prog".toList [] ["-abp".toList, "70000".toList] ["-ab".toList] ["extra".toList] rfl
    (Or.inr (Or.inr ⟨"ab".toList, rfl, rfl, by decide, by decide, by decide, by decide⟩))
  have j := invalid_value_atomic scenario [('p', "port".toList)] rfl (by decide) scenario_port
    { ty := Ty.int, _need := false, _def := Val.int 80, _actual := Val.int 80,
      read := range_int 1 65535 }
    (by simp [scenario, scenario_port, parser.add_value, parser.add, parser.init,
      Except.get_or, map_insert, str_lt, count]) rfl "70000".toList
    rfl "prog".toList ["--gzip".toList] ["--port=70000".toList] [] ["extra1".toList] rfl
    (Or.inl ⟨rfl, rfl, by decide⟩)
  ⟨⟨rfl, k.1, k.2.2.1, (k.2.2.2.2 (by decide)).1, (k.2.2.2.2 (by decide)).2, rfl, rfl, rfl⟩,
    ⟨j.1, (j.2.2.2.2 (by decide)).1, (j.2.2.2.2 (by decide)).2, rfl, rfl⟩⟩

/-- C12: for all integers low and high and every text s, `range(low, high)` applied to s fails
when the default conversion of s fails, and otherwise, with v the converted value, returns v
exactly when low <= v <= high and fails when v < low or v > high; on `scenario` (int option
`port` with range 1..65535) the value `70000` makes `parse` return false with an invalid-value
error, and with the value `8080` `get` returns 8080. -/
theorem range_reader_spec (low high : Int) (s : Str) :
    (range_int low high s = none
      ↔ (lexical_cast_int s = none
        ∨ ∃ v, lexical_cast_int s = some v ∧ (v < low ∨ high < v)))
    ∧ (∀ v, range_int low high s = some (Val.int v)
      ↔ (lexical_cast_int s = some v ∧ low ≤ v ∧ v ≤ high))
    ∧ (scenario.parse ["prog".toList, "--host".toList, "a.com".toList, "--port".toList,
        "70000".toList]).1 = false
    ∧ (scenario.parse ["prog".toList, "--host".toList, "a.com".toList, "--port".toList,
        "70000".toList]).2.errors = ["option value is invalid: --port=70000".toList]
    ∧ (scenario.parse ["prog".toList, "--host".toList, "a.com".toList, "--port".toList,
        "8080".toList]).1 = true
    ∧ (scenario.parse ["prog".toList, "--host".toList, "a.com".toList, "--port".toList,
        "8080".toList]).2.get Ty.int "port".toList = .ok (Val.int 8080) := by
  refine ⟨?_, ?_, rfl, rfl, rfl, rfl⟩
  · unfold range_int range_reader
    cases h : lexical_cast_int s with
    | none => simp
    | some v =>
      by_cases hr : low ≤ v ∧ v ≤ high
      · have e : (decide (low ≤ v) && decide (v ≤ high)) = true := by simp [hr]
        simp only [e]
        simp only [Bool.not_true, Bool.false_eq_true, if_false, Option.map_some']
        constructor
        · intro k; cases k
        · rintro (k | ⟨x, hx, k⟩)
          · cases k
          · cases hx
            omega
      · have e : (decide (low ≤ v) && decide (v ≤ high)) = false := by
          simp only [Bool.and_eq_false_iff, decide_eq_false_iff_not]
          by_cases h1 : low ≤ v
          · exact Or.inr (fun h2 => hr ⟨h1, h2⟩)
          · exact Or.inl h1
        simp only [e]
        simp only [Bool.not_false, if_true, Option.map_none', true_iff]
        refine Or.inr ⟨v, rfl, ?_⟩
        omega
  · intro v
    unfold range_int range_reader
    cases h : lexical_cast_int s with
    | none => simp
    | some x =>
      by_cases hr : low ≤ x ∧ x ≤ high
      · have e : (decide (low ≤ x) && decide (x ≤ high)) = true := by simp [hr]
        simp only [e]
        simp only [Bool.not_true, Bool.false_eq_true, if_false, Option.map_some',
          Option.some.injEq, Val.int.injEq]
        constructor
        · intro k; subst k; exact ⟨rfl, hr⟩
        · rintro ⟨k, -⟩; exact k
      · have e : (decide (low ≤ x) && decide (x ≤ high)) = false := by
          simp only [Bool.and_eq_false_iff, decide_eq_false_iff_not]
          by_cases h1 : low ≤ x
          · exact Or.inr (fun h2 => hr ⟨h1, h2⟩)
          · exact Or.inl h1
        simp only [e]
        simp only [Bool.not_false, if_true, Option.map_none']
        constructor
        · intro k; cases k
        · rintro ⟨k, k'⟩
          simp only [Option.some.injEq] at k
          subst k
          exact absurd k' hr

/-- C13: for every candidate list built by `oneof(a1, ..., an)` and every text s, the reader
returns v exactly when the default conversion turns s into v and v equals one of a1..an, and
fails otherwise; a candidate list with the same members, in another order or with repetitions,
gives the same outcome. -/
theorem oneof_reader_spec {T : Type} [DecidableEq T] (conv : Str → Option T) (as bs : List T)
    (s : Str) (h : ∀ x, x ∈ as ↔ x ∈ bs) :
    (∀ v, oneof_reader conv (oneof as) s = some v ↔ (conv s = some v ∧ v ∈ as))
    ∧ (oneof_reader conv (oneof as) s = none
      ↔ (conv s = none ∨ ∃ v, conv s = some v ∧ v ∉ as))
    ∧ oneof_reader conv (oneof as) s = oneof_reader conv (oneof bs) s := by
  rw [oneof_eq, oneof_eq]
  refine ⟨fun v => oneof_reader_some conv as s v, oneof_reader_none conv as s, ?_⟩
  cases hb : oneof_reader conv bs s with
  | none =>
    rw [oneof_reader_none] at hb ⊢
    rcases hb with k | ⟨v, hv, k⟩
    · exact Or.inl k
    · exact Or.inr ⟨v, hv, fun m => k ((h v).1 m)⟩
  | some v =>
    rw [oneof_reader_some] at hb ⊢
    exact ⟨hb.1, (h v).2 hb.2⟩

/-- C13 on the string set of `http` and `https`: the same outcome for the candidate list
`https`, `http`, `http`; the reader rejects `ftp` and accepts `https`. -/
theorem oneof_reader_spec_witness :
    ((∀ v, oneof_reader lexical_cast_string (oneof ["http".toList, "https".toList])
        "https".toList = some v
        ↔ (lexical_cast_string "https".toList = some v
          ∧ v ∈ ["http".toList, "https".toList]))
      ∧ (oneof_reader lexical_cast_string (oneof ["http".toList, "https".toList])
        "https".toList = none
        ↔ (lexical_cast_string "https".toList = none
          ∨ ∃ v, lexical_cast_string "https".toList = some v
            ∧ v ∉ ["http".toList, "https".toList]))
      ∧ oneof_reader lexical_cast_string (oneof ["http".toList, "https".toList])
          "https".toList
        = oneof_reader lexical_cast_string
          (oneof ["https".toList, "http".toList, "http".toList]) "https".toList)
    ∧ oneof_string (oneof ["http".toList, "https".toList]) "ftp".toList = none
    ∧ oneof_string (oneof ["http".toList, "https".toList]) "https".toList
      = some (Val.str "https".toList) :=
  ⟨oneof_reader_spec lexical_cast_string ["http".toList, "https".toList]
      ["https".toList, "http".toList, "http".toList] "https".toList (by
        intro x
        simp only [List.mem_cons, List.mem_singleton, List.not_mem_nil, or_false]
        tauto),
    rfl, rfl⟩

/-- C14: declaring a flag or a valued option (of any type) under a long name that is already a
key of the map, whichever shape holds it, throws "multiple definition: <name>" as the first
statement, so nothing is stored and the map and the declaration order stay as they were;
declaring a name that is not yet a key succeeds, puts the name at the end of the declaration
order, stores the new object under the name and keeps every other entry of the map. -/
theorem add_unique_long_names (p : parser τ V) (name : Str) (c : Char) (desc : Str) (ty : τ)
    (tn dv : Str) (need : Bool) (d : V) (reader : Str → Option V) :
    (name ∈ p.options.map (fun o => o._name) →
      p.add name c desc = .error ("multiple definition: ".toList ++ name)
      ∧ p.add_value ty tn dv name c desc need d reader
        = .error ("multiple definition: ".toList ++ name))
    ∧ (name ∉ p.options.map (fun o => o._name) →
      (∃ q, p.add name c desc = .ok q
        ∧ q.ordered = p.ordered ++ [name]
        ∧ find q.options name = some
            { _name := name, _short_name := c, _desc := desc, _has := false, value := none }
        ∧ (∀ n, n ≠ name → find q.options n = find p.options n)
        ∧ q.options.Perm
            ({ _name := name, _short_name := c, _desc := desc, _has := false, value := none }
              :: p.options))
      ∧ (∃ q, p.add_value ty tn dv name c desc need d reader = .ok q
        ∧ q.ordered = p.ordered ++ [name]
        ∧ find q.options name = some
            { _name := name, _short_name := c, _desc := full_description desc tn dv need,
              _has := false,
              value := some
                { ty := ty, _need := need, _def := d, _actual := d, read := reader } }
        ∧ (∀ n, n ≠ name → find q.options n = find p.options n)
        ∧ q.options.Perm
            ({ _name := name, _short_name := c, _desc := full_description desc tn dv need,
               _has := false,
               value := some
                 { ty := ty, _need := need, _def := d, _actual := d, read := reader } }
              :: p.options))) := by
  constructor
  · intro h
    have hc : count p.options name = true := (count_iff_mem _ _).2 h
    unfold parser.add parser.add_value
    simp only [hc, if_true, and_self]
  · intro h
    have hc : ¬ count p.options name = true := fun k => h ((count_iff_mem _ _).1 k)
    unfold parser.add parser.add_value
    simp only [hc, if_false]
    refine ⟨⟨_, rfl, rfl, ?_, ?_, map_insert_perm _ _⟩, ⟨_, rfl, rfl, ?_, ?_, map_insert_perm _ _⟩⟩
    · rw [find_map_insert _ _ _ h, if_pos rfl]
    · intro n hn
      rw [find_map_insert _ _ _ h, if_neg (fun e => hn e.symm)]
    · rw [find_map_insert _ _ _ h, if_pos rfl]
    · intro n hn
      rw [find_map_insert _ _ _ h, if_neg (fun e => hn e.symm)]

/-- C14 on the registry of the example: `port` is declared, so declaring it again as a flag or
as a string option throws; `verbose` is not, so both declarations succeed. -/
theorem add_unique_long_names_witness :
    ("port".toList ∈ scenario.options.map (fun o => o._name)
      ∧ scenario.add "port".toList 'x' [] = .error "multiple definition: port".toList
      ∧ scenario.add_value Ty.string "string".toList [] "port".toList 'x' [] false (Val.str [])
          default_reader_string = .error "multiple definition: port".toList)
    ∧ ("verbose".toList ∉ scenario.options.map (fun o => o._name)
      ∧ ∃ q, scenario.add "verbose".toList 'v' [] = .ok q
        ∧ q.ordered = ["host".toList, "port".toList, "gzip".toList, "verbose".toList]) :=
  ⟨⟨by decide,
    ((add_unique_long_names scenario "port".toList 'x' [] Ty.string "string".toList [] false
      (Val.str []) default_reader_string).1 (by decide)).1,
    ((add_unique_long_names scenario "port".toList 'x' [] Ty.string "string".toList [] false
      (Val.str []) default_reader_string).1 (by decide)).2⟩,
   ⟨by decide,
    match ((add_unique_long_names scenario "verbose".toList 'v' [] Ty.string "string".toList []
      false (Val.str []) default_reader_string).2 (by decide)).1 with
    | ⟨q, h1, h2, _⟩ => ⟨q, h1, h2⟩⟩⟩

/-- C15: in a registry where two options with non-empty long names share a short character
that is not 0, every parse of an argument list with at least one token, through `parse(argc,
argv)` or `parse(args)`, returns false, leaves exactly one error, "short option 'c' is
ambiguous" for a character c that is the short name of two options, leaves `rest()` empty and
changes no option's name or value: `get` answers as before the call, whatever the tokens are. -/
theorem ambiguous_short_name_aborts [DecidableEq τ] (p : parser τ V) (o1 o2 : option_base τ V)
    (argv : List Str) (h1 : o1 ∈ p.options) (h2 : o2 ∈ p.options)
    (hne : o1._name ≠ o2._name) (hn1 : o1._name ≠ []) (hn2 : o2._name ≠ [])
    (hs : o1._short_name = o2._short_name) (hc : o1._short_name ≠ Char.ofNat 0)
    (ha : argv ≠ []) :
    ∃ c, 2 ≤ (short_names p.options).count c
      ∧ (p.parse argv).1 = false
      ∧ (p.parse argv).2.errors = ["short option '".toList ++ [c] ++ "' is ambiguous".toList]
      ∧ (p.parse argv).2.rest = []
      ∧ (p.parse argv).2.options.map (fun o => (o._name, o.value))
        = p.options.map (fun o => (o._name, o.value))
      ∧ (∀ ty n, (p.parse argv).2.get ty n = p.get ty n)
      ∧ (p.parse_args argv).1 = false
      ∧ (p.parse_args argv).2.errors
        = ["short option '".toList ++ [c] ++ "' is ambiguous".toList]
      ∧ (p.parse_args argv).2.rest = []
      ∧ (p.parse_args argv).2.options.map (fun o => (o._name, o.value))
        = p.options.map (fun o => (o._name, o.value))
      ∧ (∀ ty n, (p.parse_args argv).2.get ty n = p.get ty n) := by
  obtain ⟨c, hb⟩ := build_lookup_shared p.options o1 o2 h1 h2 hne hn1 hn2 hs hc
  have hk := (build_lookup_error_char p.options [] c hb).2
  have h2c : 2 ≤ (short_names p.options).count c := by
    rcases hk with hk | hk
    · simp [lookup_count] at hk
    · exact hk
  have key : ∀ a0 rest,
      (p.parse (a0 :: rest)).1 = false
      ∧ (p.parse (a0 :: rest)).2.errors
        = ["short option '".toList ++ [c] ++ "' is ambiguous".toList]
      ∧ (p.parse (a0 :: rest)).2.rest = []
      ∧ (p.parse (a0 :: rest)).2.options.map (fun o => (o._name, o.value))
        = p.options.map (fun o => (o._name, o.value))
      ∧ (∀ ty n, (p.parse (a0 :: rest)).2.get ty n = p.get ty n) := by
    intro a0 rest
    rw [parse_ambiguous p a0 rest c hb]
    refine ⟨rfl, rfl, rfl,
      build_lookup_map (fun o : option_base τ V => (o._name, o.value)) (fun _ => rfl) _ _, ?_⟩
    intro ty n
    exact get_congr _ _ ty n (build_lookup_find_value p.options [] n)
  cases argv with
  | nil => exact absurd rfl ha
  | cons a0 rest =>
    refine ⟨c, h2c, (key a0 rest).1, (key a0 rest).2.1, (key a0 rest).2.2.1,
      (key a0 rest).2.2.2.1, (key a0 rest).2.2.2.2, ?_⟩
    unfold parser.parse_args
    rw [List.map_cons]
    exact key (c_str a0) (rest.map c_str)

/-- C15 on `shared_registry`, where the flag `all` and the int option `port` share the short
name `p`: the parse of `["prog", "--port", "8080"]` stops with the one ambiguity error. -/
theorem ambiguous_short_name_aborts_witness :
    (shared_all ∈ shared_registry.options ∧ shared_port ∈ shared_registry.options
      ∧ shared_all._short_name = shared_port._short_name)
    ∧ (∃ c, 2 ≤ (short_names shared_registry.options).count c
      ∧ (shared_registry.parse ["prog".toList, "--port".toList, "8080".toList]).1 = false
      ∧ (shared_registry.parse ["prog".toList, "--port".toList, "8080".toList]).2.errors
        = ["short option '".toList ++ [c] ++ "' is ambiguous".toList])
    ∧ (shared_registry.parse ["prog".toList, "--port".toList, "8080".toList]).2.errors
      = ["short option 'p' is ambiguous".toList]
    ∧ (shared_registry.parse ["prog".toList, "--port".toList, "8080".toList]).2.get Ty.int
        "port".toList = .ok (Val.int 0) :=
  ⟨⟨by simp [shared_registry, shared_all, parser.add_value, parser.add, parser.init,
        Except.get_or, map_insert, str_lt, count],
      by simp [shared_registry, shared_port, parser.add_value, parser.add, parser.init,
        Except.get_or, map_insert, str_lt, count], rfl⟩,
    match ambiguous_short_name_aborts shared_registry shared_all shared_port
      ["prog".toList, "--port".toList, "8080".toList]
      (by simp [shared_registry, shared_all, parser.add_value, parser.add, parser.init,
        Except.get_or, map_insert, str_lt, count])
      (by simp [shared_registry, shared_port, parser.add_value, parser.add, parser.init,
        Except.get_or, map_insert, str_lt, count])
      (by decide) (by decide) (by decide) rfl (by decide) (by decide) with
    | ⟨c, k1, k2, k3, _⟩ => ⟨c, k1, k2, k3⟩,
    rfl, rfl⟩

/-- C16: for every parser state, a call of `parse(argc, argv)`, of `parse(args)` or of
`parse(string)` returns true if and only if the error list is empty after the call, and the
error list is empty if and only if `error_full()` is empty; when the error list is empty
`error()` is the empty string, and conversely after `parse(argc, argv)` and `parse(args)`, and
after `parse(string)` when no error that the parser held before the call is the empty
text. -/
theorem success_iff_no_error (p : parser τ V) (argv : List Str) (s : Str) :
    (((p.parse argv).1 = true ↔ (p.parse argv).2.errors = [])
      ∧ ((p.parse argv).2.errors = [] ↔ (p.parse argv).2.error = [])
      ∧ ((p.parse argv).2.errors = [] ↔ (p.parse argv).2.error_full = []))
    ∧ (((p.parse_args argv).1 = true ↔ (p.parse_args argv).2.errors = [])
      ∧ ((p.parse_args argv).2.errors = [] ↔ (p.parse_args argv).2.error = [])
      ∧ ((p.parse_args argv).2.errors = [] ↔ (p.parse_args argv).2.error_full = []))
    ∧ (((p.parse_string s).1 = true ↔ (p.parse_string s).2.errors = [])
      ∧ ((p.parse_string s).2.errors = [] → (p.parse_string s).2.error = [])
      ∧ ((∀ e ∈ p.errors, e ≠ []) →
          (p.parse_string s).2.error = [] → (p.parse_string s).2.errors = [])
      ∧ ((p.parse_string s).2.errors = [] ↔ (p.parse_string s).2.error_full = [])) := by
  refine ⟨⟨parse_true_iff p argv, parse_error_empty_iff p argv, error_full_empty_iff _⟩,
    ⟨parse_true_iff p _, parse_error_empty_iff p _, error_full_empty_iff _⟩,
    ?_, error_empty_of_no_error _, ?_, error_full_empty_iff _⟩
  · unfold parser.parse_string
    cases ht : tokenize s [] false [] with
    | none => simp [parser.push_error]
    | some r =>
      obtain ⟨buf, q, args⟩ := r
      cases q with
      | true => simp [parser.push_error]
      | false =>
        simp only [Bool.false_eq_true, if_false]
        exact parse_true_iff p _
  · intro hne
    apply no_error_of_error_empty
    unfold parser.parse_string
    cases ht : tokenize s [] false [] with
    | none =>
      intro e he
      simp only [parser.push_error, List.mem_append, List.mem_singleton] at he
      rcases he with he | he
      · exact hne e he
      · subst he; decide
    | some r =>
      obtain ⟨buf, q, args⟩ := r
      cases q with
      | true =>
        intro e he
        simp only [if_true, parser.push_error, List.mem_append, List.mem_singleton] at he
        rcases he with he | he
        · exact hne e he
        · subst he; decide
      | false =>
        simp only [Bool.false_eq_true, if_false]
        exact fun e he => parse_errors_message messages_not_empty p _ e he

/-- C16 on the parser of the example: the raw string `prog --host a.com` parses with no error
and `prog --bogus` does not; the results, the error lists and `error()` agree. -/
theorem success_iff_no_error_witness :
    ((scenario.parse_string "prog --host a.com".toList).1 = true
      ∧ (scenario.parse_string "prog --host a.com".toList).2.errors = []
      ∧ (scenario.parse_string "prog --host a.com".toList).2.error = [])
    ∧ ((scenario.parse_string "prog --bogus".toList).1 = false
      ∧ (scenario.parse_string "prog --bogus".toList).2.errors ≠ []
      ∧ (scenario.parse_string "prog --bogus".toList).2.error ≠ []) :=
  ⟨⟨rfl,
    (success_iff_no_error scenario [] "prog --host a.com".toList).2.2.1.1 rfl,
    (success_iff_no_error scenario [] "prog --host a.com".toList).2.2.2.1
      ((success_iff_no_error scenario [] "prog --host a.com".toList).2.2.1.1 rfl)⟩,
   ⟨rfl,
    fun h => Bool.noConfusion
      ((success_iff_no_error scenario [] "prog --bogus".toList).2.2.1.2 h),
    fun h => Bool.noConfusion
      ((success_iff_no_error scenario [] "prog --bogus".toList).2.2.1.2
        ((success_iff_no_error scenario [] "prog --bogus".toList).2.2.2.2.1
          (fun e he => by cases he) h))⟩⟩

/-- C17 fails: `parse(string)` returns on a tokenizer failure before `parse(argc, argv)`
clears `errors` and `others`. On the parser of the example, after the call
`parse("prog --bogus extra")` the call `parse("prog \"abc")`, whose quote is not closed,
returns false with three errors, the tokenizer error last; `error()` is the first error of the
earlier call and `rest()` still holds the positional argument of the earlier call. -/
theorem tokenizer_failure_keeps_old_lists :
    (scenario.parse_string "prog --bogus extra".toList).2.errors
      = ["undefined option: --bogus".toList, "need option: --host".toList]
    ∧ (scenario.parse_string "prog --bogus extra".toList).2.rest = ["extra".toList]
    ∧ tokens "prog \"abc".toList = none
    ∧ ((scenario.parse_string "prog --bogus extra".toList).2.parse_string
        "prog \"abc".toList).1 = false
    ∧ ((scenario.parse_string "prog --bogus extra".toList).2.parse_string
        "prog \"abc".toList).2.errors
      = ["undefined option: --bogus".toList, "need option: --host".toList,
         "quote is not closed".toList]
    ∧ ((scenario.parse_string "prog --bogus extra".toList).2.parse_string
        "prog \"abc".toList).2.error = "undefined option: --bogus".toList
    ∧ ((scenario.parse_string "prog --bogus extra".toList).2.parse_string
        "prog \"abc".toList).2.rest = ["extra".toList]
    ∧ ((scenario.parse_string "prog --bogus extra".toList).2.parse_string
        "prog abc\\".toList).2.errors
      = ["undefined option: --bogus".toList, "need option: --host".toList,
         "unexpected occurrence of '\\' at end of string".toList]
    ∧ ((scenario.parse_string "prog --bogus extra".toList).2.parse_string
        "prog abc\\".toList).2.rest = ["extra".toList] :=
  ⟨rfl, rfl, rfl, rfl, rfl, rfl, rfl, rfl, rfl⟩

/-- C18, as the claim states it, fails also where no slip of the code is involved: on
`shared_registry` (the flag `all` and the option `port` share the short name `p`) the parse of
`["prog", "--all"]` stops at the ambiguity before any token is read, and `exist("all")` is
false although the arguments hold `--all`; on `scenario` the token `--gzip` in
`["prog", "--host", "a.com", "--port", "--gzip"]` is taken as the value of `--port`, and
`exist("gzip")` is false. -/
theorem presence_lost_at_ambiguity :
    (flag_token "all".toList 'p' "--all".toList = true
      ∧ (shared_registry.parse ["prog".toList, "--all".toList]).2.exist "all".toList
        = .ok false
      ∧ (shared_registry.parse ["prog".toList, "--all".toList]).2.errors
        = ["short option 'p' is ambiguous".toList])
    ∧ (flag_token "gzip".toList (Char.ofNat 0) "--gzip".toList = true
      ∧ (scenario.parse ["prog".toList, "--host".toList, "a.com".toList, "--port".toList,
          "--gzip".toList]).2.exist "gzip".toList = .ok false
      ∧ (scenario.parse ["prog".toList, "--host".toList, "a.com".toList, "--port".toList,
          "--gzip".toList]).2.errors = ["option value is invalid: --port=--gzip".toList]) :=
  ⟨⟨rfl, rfl, rfl⟩, ⟨rfl, rfl, rfl⟩⟩

/-- C18, amended: in a registry without short-name collision, for every flag with a non-empty
long name `name` without `=`, every parser state (also one left by earlier parse calls) and
every argument list with a program name, after `parse(argc, argv)`, after `parse(args)` and
after `parse(string)` on a string that the tokenizer accepts, `exist(name)` is true if and
only if a token that the scan reaches as a token (not one taken as the value of the option
before it) is `--name` or is a single-dash token that holds the short character of the flag,
which is not 0. -/
theorem flag_presence_last_parse (p : parser τ V) (lk : List (Char × Str))
    (hlk : (build_lookup p.options []).2 = .ok lk)
    (hu : (p.options.map (fun o => o._name)).Nodup)
    (o : option_base τ V) (ho : o ∈ p.options) (hv : o.value = none) (hn : o._name ≠ [])
    (hname : '=' ∉ o._name) (prog : Str) (toks : List Str) :
    (p.parse (prog :: toks)).2.exist o._name
      = .ok ((scanned lk p.options toks).any (flag_token o._name o._short_name))
    ∧ (p.parse_args (prog :: toks)).2.exist o._name
      = .ok ((scanned lk p.options (toks.map c_str)).any
          (flag_token o._name o._short_name))
    ∧ (∀ s, tokens s = some (prog :: toks) →
      (p.parse_string s).2.exist o._name
        = .ok ((scanned lk p.options (toks.map c_str)).any
            (flag_token o._name o._short_name))) := by
  have h2 : (p.parse_args (prog :: toks)).2.exist o._name
      = .ok ((scanned lk p.options (toks.map c_str)).any
          (flag_token o._name o._short_name)) := by
    unfold parser.parse_args
    rw [List.map_cons]
    exact parse_exist_flag p lk hlk hu o ho hv hn hname _ _
  refine ⟨parse_exist_flag p lk hlk hu o ho hv hn hname prog toks, h2, ?_⟩
  intro s hs
  rw [parse_string_of_tokens p s _ hs]
  exact h2

/-- C18, amended, on `cluster_registry` (flags `all` and `bare` with the short names `a` and
`b`): after a first parse that supplies `--all`, the parse of `["prog", "-b"]` leaves
`exist("all")` false and `exist("bare")` true; the raw string `prog -ab` supplies both. -/
theorem flag_presence_last_parse_witness :
    ((cluster_registry.parse ["prog".toList, "--all".toList]).2.parse
        ["prog".toList, "-b".toList]).2.exist "all".toList = .ok false
    ∧ ((cluster_registry.parse ["prog".toList, "--all".toList]).2.parse
        ["prog".toList, "-b".toList]).2.exist "bare".toList = .ok true
    ∧ (cluster_registry.parse_string "prog -ab".toList).2.exist "all".toList = .ok true :=
  ⟨(flag_presence_last_parse
      (cluster_registry.parse ["prog".toList, "--all".toList]).2
      [('p', "port".toList), ('b', "bare".toList), ('a', "all".toList)] rfl (by decide)
      { cluster_all with _has := true } (List.Mem.head _)
      rfl (by decide) (by decide) "prog".toList ["-b".toList]).1,
    rfl,
    (flag_presence_last_parse cluster_registry
      [('p', "port".toList), ('b', "bare".toList), ('a', "all".toList)] rfl (by decide)
      cluster_all
      (by simp [cluster_registry, cluster_all, parser.add_value, parser.add,
        parser.init, Except.get_or, map_insert, str_lt, count])
      rfl (by decide) (by decide) "prog".toList ["-ab".toList]).2.2 "prog -ab".toList rfl⟩

/-- C19: for every non-empty list of non-empty words that hold no double quote and no
backslash, the string that wraps in double quotes each word holding a space and joins the
words with single spaces tokenizes to exactly that list of words. -/
theorem tokenizer_round_trip (ws : List Str) (hne : ws ≠ [])
    (h : ∀ w ∈ ws, w ≠ [] ∧ '"' ∉ w ∧ '\\' ∉ w) : tokens (join_words ws) = some ws := by
  cases ws with
  | nil => exact absurd rfl hne
  | cons w ws =>
    obtain ⟨buf, a, k1, k2⟩ := tokenize_join ws w [] (fun x hx => (h x hx).2)
    have hb : buf ∈ w :: ws := by
      have : buf ∈ a ++ [buf] := List.mem_append_right _ (List.mem_singleton.2 rfl)
      rw [k2] at this
      exact this
    have hl : buf.length > 0 := List.length_pos.2 (h buf hb).1
    unfold tokens
    rw [k1]
    simp only [Bool.false_eq_true, if_false, hl, if_true, k2, List.nil_append]

/-- C19 on the words `--host`, `example com`, `--port=80`: the joined string is
`--host "example com" --port=80`, and it tokenizes to the three words. -/
theorem tokenizer_round_trip_witness :
    join_words ["--host".toList, "example com".toList, "--port=80".toList]
      = "--host \"example com\" --port=80".toList
    ∧ tokens "--host \"example com\" --port=80".toList
      = some ["--host".toList, "example com".toList, "--port=80".toList] :=
  ⟨by decide,
    tokenizer_round_trip ["--host".toList, "example com".toList, "--port=80".toList]
      (by decide) (by decide)⟩

/-- C20: for every raw string and every parser state, `parse(string)` returns false with
"unexpected occurrence of '\' at end of string" appended to the errors, and nothing else of the
parser changed, exactly when the string ends in an odd number of backslashes (its last
backslash is not escaped by the one before it); it returns false with "quote is not closed"
appended, and nothing else changed, exactly when that is not so and the number of double
quotes that no backslash escapes is odd; exactly in the remaining case the tokenizer hands a
token list to `parse(args)`. -/
theorem tokenizer_failures (p : parser τ V) (s : Str) :
    (p.parse_string s
        = (false, { p with errors := p.errors
            ++ ["unexpected occurrence of '\\' at end of string".toList] })
      ↔ trailing_backslashes s % 2 = 1)
    ∧ (p.parse_string s
        = (false, { p with errors := p.errors ++ ["quote is not closed".toList] })
      ↔ (¬ trailing_backslashes s % 2 = 1 ∧ unescaped_quotes s % 2 = 1))
    ∧ ((∃ ts, tokens s = some ts ∧ p.parse_string s = p.parse_args ts)
      ↔ (¬ trailing_backslashes s % 2 = 1 ∧ ¬ unescaped_quotes s % 2 = 1)) := by
  have hnone := tokenize_none_iff s [] false []
  rw [ends_in_escape_iff] at hnone
  cases ht : tokenize s [] false [] with
  | none =>
    have hodd := hnone.1 ht
    have hp : p.parse_string s = (false, { p with errors := p.errors
        ++ ["unexpected occurrence of '\\' at end of string".toList] }) := by
      unfold parser.parse_string
      rw [ht]
      rfl
    have hk : tokens s = none := by
      unfold tokens
      rw [ht]
    refine ⟨⟨fun _ => hodd, fun _ => hp⟩, ⟨?_, fun k => absurd hodd k.1⟩,
      ⟨?_, fun k => absurd hodd k.1⟩⟩
    · intro k
      rw [hp] at k
      exact absurd (push_error_inj p _ _ k) (by decide)
    · rintro ⟨ts, k, -⟩
      rw [hk] at k
      cases k
  | some r =>
    obtain ⟨buf, q, args⟩ := r
    have heven : ¬ trailing_backslashes s % 2 = 1 := by
      intro k
      rw [hnone.2 k] at ht
      cases ht
    have hq := tokenize_in_quote s _ _ _ _ _ _ ht
    cases q with
    | true =>
      have hu : unescaped_quotes s % 2 = 1 := by simpa using hq.symm
      have hp : p.parse_string s
          = (false, { p with errors := p.errors ++ ["quote is not closed".toList] }) := by
        unfold parser.parse_string
        rw [ht]
        rfl
      have hk : tokens s = none := by
        unfold tokens
        rw [ht]
        rfl
      refine ⟨⟨?_, fun k => absurd k heven⟩, ⟨fun _ => ⟨heven, hu⟩, fun _ => hp⟩,
        ⟨?_, fun k => absurd hu k.2⟩⟩
      · intro k
        rw [hp] at k
        exact absurd (push_error_inj p _ _ k) (by decide)
      · rintro ⟨ts, k, -⟩
        rw [hk] at k
        cases k
    | false =>
      have hu : ¬ unescaped_quotes s % 2 = 1 := by
        intro k
        rw [k] at hq
        simp at hq
      have hp : p.parse_string s
          = p.parse_args (if buf.length > 0 then args ++ [buf] else args) := by
        unfold parser.parse_string
        rw [ht]
        rfl
      have hk : tokens s = some (if buf.length > 0 then args ++ [buf] else args) := by
        unfold tokens
        rw [ht]
        rfl
      refine ⟨⟨?_, fun k => absurd k heven⟩, ⟨?_, fun k => absurd k.2 hu⟩,
        ⟨fun _ => ⟨heven, hu⟩, fun _ => ⟨_, hk, hp⟩⟩⟩
      · intro k
        rw [hp] at k
        exact absurd k (parse_args_not_tokenizer p _ _ _ (Or.inl rfl))
      · intro k
        rw [hp] at k
        exact absurd k (parse_args_not_tokenizer p _ _ _ (Or.inr rfl))

/-- C21, as the claim states it, fails for an option with an empty long name: such an option is
left out of the short-name lookup. On `empty_name_registry` (int option with the empty long
name and the short name `x`, no collision) the token `-x` in `["prog", "-x", "5"]` ends in the
short name of a declared valued option, so by the claim `5` is its value and `rest()` is
empty; the code records "undefined short option: -x" and `rest()` is `["5"]`. -/
theorem rest_with_empty_long_name :
    (build_lookup empty_name_registry.options []).2 = .ok []
    ∧ takes_value empty_name_registry.options "-x".toList = true
    ∧ positional empty_name_registry.options ["-x".toList, "5".toList] = []
    ∧ (empty_name_registry.parse ["prog".toList, "-x".toList, "5".toList]).2.rest
      = ["5".toList]
    ∧ (empty_name_registry.parse ["prog".toList, "-x".toList, "5".toList]).2.errors
      = ["undefined short option: -x".toList] :=
  ⟨rfl, rfl, rfl, rfl, rfl⟩

/-- C21, amended: for every registry without short-name collision in which every valued
option that has a short name has a non-empty long name, and every argument list, after
`parse(argc, argv)` and after `parse(args)` `rest()` is exactly the sequence, in order, of the
tokens at index 1 and above that do not begin with `-` and are not consumed as the value of
the token before them (a token `--name` without `=` of a declared valued option, or a token
that starts with one dash only and whose final character after the dash is the short name of
a declared valued option). -/
theorem rest_positional (p : parser τ V) (lk : List (Char × Str))
    (hlk : (build_lookup p.options []).2 = .ok lk)
    (hu : (p.options.map (fun o => o._name)).Nodup)
    (hne : ∀ o ∈ p.options, o.has_value = true → o._short_name ≠ Char.ofNat 0 →
      o._name ≠ [])
    (argv : List Str) :
    (p.parse argv).2.rest = positional p.options argv.tail
    ∧ (p.parse_args argv).2.rest = positional p.options (argv.map c_str).tail := by
  have key : ∀ av : List Str, (p.parse av).2.rest = positional p.options av.tail := by
    intro av
    cases av with
    | nil => rw [parse_nil]; rfl
    | cons a0 rest =>
      rw [parse_ok p a0 rest lk hlk]
      exact scan_calls_others lk p.options hlk hu hne rest
  exact ⟨key argv, key _⟩

/-- C21, amended, on the parser of the example: in `["prog", "in", "--host", "h", "-p", "80",
"out", "-z", "--gzip"]` the tokens `h` and `80` are values, and `rest()` is `["in", "out"]`. -/
theorem rest_positional_witness :
    (scenario.parse ["prog".toList, "in".toList, "--host".toList, "h".toList, "-p".toList,
        "80".toList, "out".toList, "-z".toList, "--gzip".toList]).2.rest
      = ["in".toList, "out".toList] :=
  (rest_positional scenario [('p', "port".toList)] rfl (by decide)
    (by decide)
    ["prog".toList, "in".toList, "--host".toList, "h".toList, "-p".toList, "80".toList,
      "out".toList, "-z".toList, "--gzip".toList]).1

/-- C22: for every parser state, `get<T>(name)` throws "there is no flag: --name" exactly when
`name` is no key of the map, throws "type mismatch flag 'name'" exactly when the object under
`name` is a flag or a valued option of another type than T, and returns v exactly when the
object is a valued option of type T that holds v; `exist(name)` throws exactly when `name` is
no key of the map and otherwise returns the presence flag of the object. Both are const
member functions: they are functions of the parser state and return no new state. -/
theorem query_failures [DecidableEq τ] (p : parser τ V) (ty : τ) (name : Str) :
    (p.get ty name = .error ("there is no flag: --".toList ++ name)
      ↔ name ∉ p.options.map (fun o => o._name))
    ∧ (p.get ty name = .error ("type mismatch flag '".toList ++ name ++ "'".toList)
      ↔ ∃ o, find p.options name = some o
          ∧ (o.value = none ∨ ∃ w, o.value = some w ∧ w.ty ≠ ty))
    ∧ (∀ v, p.get ty name = .ok v
      ↔ ∃ o w, find p.options name = some o ∧ o.value = some w ∧ w.ty = ty ∧ v = w._actual)
    ∧ (p.exist name = .error ("there is no flag: --".toList ++ name)
      ↔ name ∉ p.options.map (fun o => o._name))
    ∧ (∀ b, p.exist name = .ok b ↔ ∃ o, find p.options name = some o ∧ b = o._has) := by
  rw [← find_none_iff]
  have hne : ("type mismatch flag '".toList ++ name ++ "'".toList : Str)
      ≠ "there is no flag: --".toList ++ name := by
    intro e
    cases e
  unfold parser.get parser.exist
  cases hf : find p.options name with
  | none =>
    refine ⟨by simp, ?_, ?_, by simp, ?_⟩
    · constructor
      · intro e
        simp only [Except.error.injEq] at e
        exact absurd e.symm hne
      · rintro ⟨o, e, -⟩
        cases e
    · intro v
      constructor
      · intro e
        cases e
      · rintro ⟨o, w, e, -⟩
        cases e
    · intro b
      constructor
      · intro e
        cases e
      · rintro ⟨o, e, -⟩
        cases e
  | some o =>
    obtain ⟨nm, oc, od, oh, ov⟩ := o
    have hex : ∀ b, (Except.ok oh : Except Str Bool) = .ok b ↔ b = oh :=
      fun b => by simp only [Except.ok.injEq]; exact eq_comm
    cases ov with
    | none =>
      refine ⟨by simp, by simp, by simp, by simp, ?_⟩
      simp only [option_base.has_set, Option.some.injEq, exists_eq_left']
      exact hex
    | some w =>
      by_cases ht : w.ty = ty
      · refine ⟨by simp [ht], by simp [ht], ?_, by simp, ?_⟩
        · intro v
          simp only [ht, if_true, Except.ok.injEq, Option.some.injEq]
          constructor
          · intro e
            exact ⟨_, w, rfl, rfl, ht, e.symm⟩
          · rintro ⟨o1, w1, e1, k1, -, k3⟩
            subst e1
            simp only [Option.some.injEq] at k1
            subst k1
            exact k3.symm
        · simp only [option_base.has_set, Option.some.injEq, exists_eq_left']
          exact hex
      · refine ⟨by simp [ht], ?_, ?_, by simp, ?_⟩
        · simp only [ht, if_false, true_iff]
          exact ⟨_, rfl, Or.inr ⟨w, rfl, ht⟩⟩
        · intro v
          simp only [ht, if_false, Option.some.injEq]
          constructor
          · intro e
            cases e
          · rintro ⟨o1, w1, e1, k1, k2, -⟩
            subst e1
            simp only [Option.some.injEq] at k1
            subst k1
            exact absurd k2 ht
        · simp only [option_base.has_set, Option.some.injEq, exists_eq_left']
          exact hex

/-- C23, as the claim states it, fails when the footer holds a newline: `usage()` writes the
footer at the end of its first line as it is. On the parser of the example (three options,
no newline in any name or description) with the footer set to two lines the usage text has
six lines, not five. -/
theorem usage_footer_newline :
    (scenario.footer "see\nbelow".toList).ordered.length = 3
    ∧ (∀ o ∈ (scenario.footer "see\nbelow".toList).options,
        '\n' ∉ o._name ∧ '\n' ∉ o._desc ∧ o._short_name ≠ '\n')
    ∧ (lines ((scenario.footer "see\nbelow".toList).usage readable_typename)).length = 6
    ∧ lines ((scenario.footer "see\nbelow".toList).usage readable_typename)
      = ["usage:  --host=string [options] ... see".toList,
         "below".toList,
         "options:".toList,
         "      --host    host name (string)".toList,
         "  -p, --port    port number (int [=80])".toList,
         "      --gzip    gzip when transfer".toList] := by
  refine ⟨rfl, by decide, by decide, by decide⟩

/-- C23, amended: for every registry of n options in which no long name, short name or
description holds a newline, with a program name, a footer and type names without newline,
`usage()` has exactly n + 2 lines. The first line is `usage: `, the program name, the short
descriptions of exactly the required options in declaration order, each followed by a space,
then `[options] ... ` and the footer; the second line is `options:`; the option lines follow
the declaration order, each is the short form (`  -c, ` with a short name, six spaces
without), then `--` and the long name padded with spaces to the width (maximum long-name
length + 4), then the description, which so starts at column 12 + maximum long-name length on
every option line. -/
theorem usage_layout (typename : τ → Str) (p : parser τ V)
    (hord : ∀ n ∈ p.ordered, n ∈ p.options.map (fun o => o._name))
    (hprog : '\n' ∉ p.prog_name) (hftr : '\n' ∉ p.ftr) (htn : ∀ t, '\n' ∉ typename t)
    (hopt : ∀ o ∈ p.ordered_options, '\n' ∉ o._name ∧ '\n' ∉ o._desc ∧ o._short_name ≠ '\n') :
    lines (p.usage typename)
      = ("usage: ".toList ++ p.prog_name ++ " ".toList
          ++ ((p.ordered_options.filter (fun o => o.must)).map
              (fun o => o.short_description typename ++ " ".toList)).flatten
          ++ "[options] ... ".toList ++ p.ftr)
        :: "options:".toList
        :: p.ordered_options.map (fun o => usage_short_form o
            ++ usage_long_form (max_width p.ordered_options + 4) o ++ o._desc)
    ∧ (lines (p.usage typename)).length = p.ordered.length + 2
    ∧ p.ordered_options.map (fun o => o._name) = p.ordered
    ∧ (∀ o ∈ p.ordered_options,
        (usage_short_form o).length = 6
        ∧ (padded_name (max_width p.ordered_options + 4) o).length
          = max_width p.ordered_options + 4
        ∧ (usage_short_form o ++ usage_long_form (max_width p.ordered_options + 4) o).length
          = 12 + max_width p.ordered_options)
    ∧ (∀ o ∈ p.ordered_options, o._name.length ≤ max_width p.ordered_options)
    ∧ (p.ordered_options ≠ [] →
        ∃ o ∈ p.ordered_options, o._name.length = max_width p.ordered_options) := by
  have hnames := ordered_options_names p hord
  have hmax := max_width_spec p.ordered_options
  have hshort : ∀ o : option_base τ V, (usage_short_form o).length = 6 := by
    intro o
    unfold usage_short_form
    split <;> rfl
  have hlong : ∀ o ∈ p.ordered_options,
      (padded_name (max_width p.ordered_options + 4) o).length
        = max_width p.ordered_options + 4 := by
    intro o ho
    have := hmax.1 o ho
    unfold padded_name
    rw [List.length_append, List.length_replicate]
    omega
  have hlines : lines (p.usage typename)
      = ("usage: ".toList ++ p.prog_name ++ " ".toList
          ++ ((p.ordered_options.filter (fun o => o.must)).map
              (fun o => o.short_description typename ++ " ".toList)).flatten
          ++ "[options] ... ".toList ++ p.ftr)
        :: "options:".toList
        :: p.ordered_options.map (fun o => usage_short_form o
            ++ usage_long_form (max_width p.ordered_options + 4) o ++ o._desc) := by
    rw [usage_eq_lines]
    apply lines_flatten
    intro l hl
    rcases List.mem_cons.1 hl with e | hl
    · subst e
      simp only [List.mem_append, List.mem_flatten, List.mem_map, List.mem_filter, not_or]
      refine ⟨⟨⟨⟨⟨by decide, hprog⟩, by decide⟩, ?_⟩, by decide⟩, hftr⟩
      rintro ⟨x, ⟨o, ⟨ho, -⟩, rfl⟩, hx⟩
      obtain ⟨k1, -, -⟩ := hopt o ho
      unfold option_base.short_description at hx
      cases hv : o.value with
      | none =>
        rw [hv] at hx
        simp only [List.mem_append] at hx
        rcases hx with (hx | hx) | hx
        · exact absurd hx (by decide)
        · exact k1 hx
        · exact absurd hx (by decide)
      | some w =>
        rw [hv] at hx
        simp only [List.mem_append] at hx
        rcases hx with (((hx | hx) | hx) | hx) | hx
        · exact absurd hx (by decide)
        · exact k1 hx
        · exact absurd hx (by decide)
        · exact htn _ hx
        · exact absurd hx (by decide)
    · rcases List.mem_cons.1 hl with e | hl
      · subst e
        decide
      · obtain ⟨o, ho, rfl⟩ := List.mem_map.1 hl
        obtain ⟨k1, k2, k3⟩ := hopt o ho
        unfold usage_short_form usage_long_form padded_name
        simp only [List.mem_append, not_or]
        refine ⟨⟨?_, ⟨by decide, ⟨k1, ?_⟩⟩⟩, k2⟩
        · split
          · simp only [List.mem_append, List.mem_singleton, not_or]
            exact ⟨⟨by decide, fun e => k3 e.symm⟩, by decide⟩
          · decide
        · intro hx
          have := List.eq_of_mem_replicate hx
          exact absurd this (by decide)
  refine ⟨hlines, ?_, hnames, ?_, hmax.1, hmax.2⟩
  · rw [hlines, List.length_cons, List.length_cons, List.length_map, ← hnames,
      List.length_map]
  · intro o ho
    refine ⟨hshort o, hlong o ho, ?_⟩
    have h2 : (usage_long_form (max_width p.ordered_options + 4) o).length
        = 2 + (padded_name (max_width p.ordered_options + 4) o).length := by
      unfold usage_long_form
      rw [List.length_append]
      rfl
    rw [List.length_append, hshort o, h2, hlong o ho]
    omega

/-- C23, amended, on the parser of the example with the program name `simple` and the footer
`filename ...`: five lines; `host` is the one required option; the descriptions start at
column 16. -/
theorem usage_layout_witness :
    lines (scenario_named.usage readable_typename)
      = ["usage: simple --host=string [options] ... filename ...".toList,
         "options:".toList,
         "      --host    host name (string)".toList,
         "  -p, --port    port number (int [=80])".toList,
         "      --gzip    gzip when transfer".toList]
    ∧ (lines (scenario_named.usage readable_typename)).length = scenario_named.ordered.length + 2
    ∧ 12 + max_width scenario_named.ordered_options = 16 :=
  ⟨(usage_layout readable_typename scenario_named (by decide) (by decide) (by decide)
      (by intro t; cases t <;> decide) (by decide)).1.trans (by decide),
    (usage_layout readable_typename scenario_named (by decide) (by decide) (by decide)
      (by intro t; cases t <;> decide) (by decide)).2.1,
    by decide⟩

/-- C24: for every registry, every entry of the short-name lookup that the first loop builds
is the non-empty long name of a declared option, and `set(bool)` returns true on every option
object. Hence, in every state that the scan reaches, every error that the loop body pushes on
a token that starts with one dash only is "undefined short option: -c" or "option value is
invalid: --name=value"; `set_option(lookup[c])` pushes no error, and in general
`set_option(name)` pushes nothing or "undefined option: --name", never "option needs value";
and no parse, of any argument list, leaves an error "ambiguous short option: -c". -/
theorem single_dash_errors (p : parser τ V) :
    (∀ lk, (build_lookup p.options []).2 = .ok lk →
      (∀ c, lookup_count lk c = true →
        lookup_at lk c ≠ [] ∧ lookup_at lk c ∈ p.options.map (fun o => o._name))
      ∧ (∀ (q : parser τ V) (t : Str) (next : Option Str),
          q.options.map decl = p.options.map decl → t.take 1 = ['-'] →
          ¬ t.take 2 = ['-', '-'] →
          ∃ E, (step lk q t next).2.errors = q.errors ++ E
            ∧ ∀ e ∈ E, (∃ c : Char, e = "undefined short option: -".toList ++ [c])
              ∨ (∃ n v : Str,
                  e = "option value is invalid: --".toList ++ n ++ "=".toList ++ v))
      ∧ (∀ (q : parser τ V) (c : Char), q.options.map decl = p.options.map decl →
          lookup_count lk c = true → (q.set_option_flag (lookup_at lk c)).errors = q.errors))
    ∧ (∀ (o : option_base τ V) (b : Bool), (o.set b).1 = true)
    ∧ (∀ (q : parser τ V) (n : Str), (q.set_option_flag n).errors = q.errors
        ∨ (q.set_option_flag n).errors = q.errors ++ ["undefined option: --".toList ++ n])
    ∧ (∀ (argv : List Str) (c : Char),
        "ambiguous short option: -".toList ++ [c] ∉ (p.parse argv).2.errors) := by
  refine ⟨fun lk hlk => ⟨lookup_entry_declared p.options lk hlk, ?_, ?_⟩, fun _ _ => rfl,
    ?_, ?_⟩
  · have h1 := lookup_entry_declared p.options lk hlk
    have hs : ∀ c, lookup_count lk c = true → lookup_at lk c ≠ [] := fun c hc => (h1 c hc).1
    intro q t next hq ht1 ht2
    refine ⟨errors_of q.options (step_calls lk q.options t next).2, ?_, ?_⟩
    · rw [step_eq, run_calls_eq]
    · intro e he
      obtain ⟨c, hc, hce⟩ := mem_errors_of _ _ e he
      rcases single_dash_calls lk q.options hs t next ht2 ht1 c hc with
        ⟨ch, k⟩ | ⟨ch, k1, k⟩ | ⟨ch, v, k1, k⟩
      · subst k
        simp only [call_errors, List.mem_singleton] at hce
        exact Or.inl ⟨ch, hce⟩
      · subst k
        rw [flag_call_no_error q.options _ (by rw [map_name_of_decl hq]; exact (h1 ch k1).2)]
          at hce
        simp at hce
      · subst k
        simp only [call_errors] at hce
        have hcnt := (count_iff_mem q.options (lookup_at lk ch)).2
          (by rw [map_name_of_decl hq]; exact (h1 ch k1).2)
        rw [count_eq_find] at hcnt
        cases hf : find q.options (lookup_at lk ch) with
        | none => rw [hf] at hcnt; simp at hcnt
        | some o =>
          rw [hf] at hce
          simp only at hce
          split at hce
          · simp only [List.mem_singleton] at hce
            exact Or.inr ⟨_, v, hce⟩
          · simp at hce
  · have h1 := lookup_entry_declared p.options lk hlk
    intro q c hq hc
    have e : q.set_option_flag (lookup_at lk c) = run_call q (Call.flag (lookup_at lk c)) := rfl
    rw [e, run_call_eq,
      flag_call_no_error q.options _ (by rw [map_name_of_decl hq]; exact (h1 c hc).2)]
    simp
  · intro q n
    have e : q.set_option_flag n = run_call q (Call.flag n) := rfl
    rw [e, run_call_eq]
    simp only [call_errors]
    cases find q.options n with
    | none => exact Or.inr rfl
    | some o => left; simp [option_base.set]
  · intro argv c hm
    cases argv with
    | nil =>
      rw [parse_nil] at hm
      simp only [List.mem_singleton] at hm
      cases hm
    | cons a0 rest =>
      cases hlk : (build_lookup p.options []).2 with
      | error d =>
        rw [parse_ambiguous p a0 rest d hlk] at hm
        simp only [List.mem_singleton] at hm
        cases hm
      | ok lk =>
      have hs : ∀ c, lookup_count lk c = true → lookup_at lk c ≠ [] :=
        fun c hc => (lookup_entry_declared p.options lk hlk c hc).1
      rw [parse_ok p a0 rest lk hlk] at hm
      simp only [List.mem_append] at hm
      rcases hm with hm | hm
      · obtain ⟨cl, hcl, hce⟩ := mem_errors_of _ _ _ hm
        obtain ⟨t, -, next, hst⟩ := mem_scan_calls lk p.options rest cl hcl
        cases cl with
        | flag n =>
          simp only [call_errors] at hce
          cases hf : find p.options n with
          | none => rw [hf] at hce; simp only [List.mem_singleton] at hce; cases hce
          | some o => rw [hf] at hce; simp [option_base.set] at hce
        | value n v =>
          simp only [call_errors] at hce
          cases hf : find p.options n with
          | none => rw [hf] at hce; simp only [List.mem_singleton] at hce; cases hce
          | some o =>
            rw [hf] at hce
            simp only at hce
            split at hce
            · simp only [List.mem_singleton] at hce; cases hce
            · simp at hce
        | error m =>
          simp only [call_errors, List.mem_singleton] at hce
          subst hce
          exact step_calls_error_sound lk p.options hs t next _ hst c rfl
        | other x => simp [call_errors] at hce
      · obtain ⟨o, -, -, k⟩ := (mem_need_errors _ _).1 hm
        cases k

/-- C24 on the parser of the example, whose lookup holds `p` for `port`: the token `-px` marks
`port` and records the undefined short option `x` only; the token `-p` followed by `70000`
records the invalid value only. -/
theorem single_dash_errors_witness :
    (∃ E, (step [('p', "port".toList)] scenario "-px".toList none).2.errors
        = scenario.errors ++ E
      ∧ ∀ e ∈ E, (∃ c : Char, e = "undefined short option: -".toList ++ [c])
        ∨ (∃ n v : Str, e = "option value is invalid: --".toList ++ n ++ "=".toList ++ v))
    ∧ (step [('p', "port".toList)] scenario "-px".toList none).2.errors
      = ["undefined short option: -x".toList]
    ∧ (step [('p', "port".toList)] scenario "-p".toList (some "70000".toList)).2.errors
      = ["option value is invalid: --port=70000".toList]
    ∧ (scenario.set_option_flag "port".toList).errors = [] :=
  ⟨((single_dash_errors scenario).1 [('p', "port".toList)] rfl).2.1 scenario "-px".toList none
      rfl rfl (by decide),
    rfl, rfl,
    ((single_dash_errors scenario).1 [('p', "port".toList)] rfl).2.2 scenario 'p' rfl rfl⟩

/-- C25: for every raw string without double quote and backslash, the token list that the
tokenizer hands on is the list of the pieces between consecutive spaces (the string split at
every single space, empty pieces kept) with an empty final piece left out. Hence a non-empty
string that does not end in a space gives as many tokens as it has spaces plus one; a leading
space gives an empty first token and two adjacent spaces give an empty token; the empty
string gives no token, so `parse("")` returns false with the one error "argument number must
be longer than 0". -/
theorem tokens_split_at_spaces (s : Str) (h1 : '"' ∉ s) (h2 : '\\' ∉ s) :
    tokens s = some (drop_empty_last (pieces s))
    ∧ (s ≠ [] → s.getLast? ≠ some ' ' →
        ∃ ts, tokens s = some ts ∧ ts = pieces s ∧ ts.length = s.count ' ' + 1)
    ∧ (∀ r, s = ' ' :: r → ∃ ts, tokens s = some ([] :: ts))
    ∧ (∀ a b, s = a ++ ' ' :: ' ' :: b → ∃ ts, tokens s = some ts ∧ [] ∈ ts)
    ∧ tokens [] = some []
    ∧ (∀ p : parser τ V, p.parse_string []
        = (false, { p with
            errors := ["argument number must be longer than 0".toList], others := [] })) := by
  obtain ⟨k1, k2⟩ := tokens_pieces s h1 h2
  refine ⟨k1, ?_, ?_, ?_, rfl, ?_⟩
  · intro hne hl
    exact ⟨pieces s, k2 hne hl, rfl, pieces_length s⟩
  · intro r hr
    rw [k1, hr, pieces_cons, if_pos rfl]
    unfold drop_empty_last
    cases hp : pieces r with
    | nil => exact absurd hp (pieces_ne_nil r)
    | cons x xs =>
      rw [List.getLast?_cons_cons, List.dropLast_cons₂]
      split
      · exact ⟨_, rfl⟩
      · exact ⟨_, rfl⟩
  · intro a b hab
    rw [k1, hab, pieces_append_space, pieces_cons, if_pos rfl]
    unfold drop_empty_last
    cases hp : pieces b with
    | nil => exact absurd hp (pieces_ne_nil b)
    | cons x xs =>
      split
      · refine ⟨_, rfl, ?_⟩
        rw [List.dropLast_append_cons, List.dropLast_cons₂]
        exact List.mem_append_right _ (List.mem_cons_self _ _)
      · exact ⟨_, rfl, List.mem_append_right _ (List.mem_cons_self _ _)⟩
  · intro p
    have ht : tokens [] = some [] := rfl
    rw [parse_string_of_tokens p [] [] ht]
    exact parse_nil p

/-- C25 on the string ` a  b ` (a leading space, two adjacent spaces, a final space): the
pieces are five, the last one empty, and the tokens are the first four. -/
theorem tokens_split_at_spaces_witness :
    pieces " a  b ".toList = [[], "a".toList, [], "b".toList, []]
    ∧ tokens " a  b ".toList = some [[], "a".toList, [], "b".toList]
    ∧ (∃ ts, tokens " a  b ".toList = some ([] :: ts))
    ∧ (∃ ts, tokens "x y z".toList = some ts ∧ ts = pieces "x y z".toList
        ∧ ts.length = "x y z".toList.count ' ' + 1) :=
  ⟨by decide,
    (@tokens_split_at_spaces Ty Val " a  b ".toList (by decide) (by decide)).1,
    (@tokens_split_at_spaces Ty Val " a  b ".toList (by decide)
      (by decide)).2.2.1 _ rfl,
    (@tokens_split_at_spaces Ty Val "x y z".toList (by decide)
      (by decide)).2.1 (by decide) (by decide)⟩

end cmdline
